import Mathlib

/-!
Shallow embedding of the optimal-lineup engine of
`gamedaybot/espn/functionality.py`:

* `get_starter_counts` (source lines 427-486; the source returns from inside
  the first iteration over `box_scores`, so the function is a function of a
  single matchup's home and away lineups),
* `best_flex` (source lines 489-528),
* `optimal_lineup_score` (source lines 531-601).

Python dicts are modelled as insertion-ordered association lists (`dlookup`,
`dinsert`, `dmerge` mirror lookup, in-place update/append, and the `|` merge
operator).  Player points (floats in the source) are modelled as rationals.
Python's `sorted(..., key=lambda item: item[1], reverse=True)` is a stable
descending sort by value, modelled by the insertion sort `sortDesc`.  The
`ZeroDivisionError` raised by the final percentage computation when the
optimal score is zero is modelled by an `Option` result (`none` = the error
propagating to the caller).
-/

structure Player where
  name : String
  position : String
  slot_position : String
  points : Rat
  projected_points : Rat
  game_played : Nat
  deriving DecidableEq

abbrev Bucket := List (String × Rat)

abbrev Pools := List (String × Bucket)

abbrev Counts := List (String × Nat)

/-- Python dict lookup `d[k]` (`none` = `KeyError`). -/
def dlookup {α : Type} (k : String) : List (String × α) → Option α
  | [] => none
  | e :: t => if e.1 = k then some e.2 else dlookup k t

/-- Python dict assignment `d[k] = v`: updates the binding in place if the key
is present, otherwise appends it (insertion order). -/
def dinsert {α : Type} (k : String) (v : α) : List (String × α) → List (String × α)
  | [] => [(k, v)]
  | e :: t => if e.1 = k then (k, v) :: t else e :: dinsert k v t

/-- The bucket stored at key `k`, or the empty bucket when the key is absent. -/
def buck (d : Pools) (k : String) : Bucket := (dlookup k d).getD []

/-- One iteration of the starter-tally loops of `get_starter_counts` (source
lines 463-473 and 475-481): if the player is a starter, bump the running
count and the per-slot tally (creating the entry on `KeyError`). -/
def tallyStep (acc : Counts × Nat) (pl : Player) : Counts × Nat :=
  if pl.slot_position ≠ "BE" ∧ pl.slot_position ≠ "IR" then
    (match dlookup pl.slot_position acc.1 with
     | some n => dinsert pl.slot_position (n + 1) acc.1
     | none => dinsert pl.slot_position 1 acc.1,
     acc.2 + 1)
  else acc

/-- One side's starter tally of `get_starter_counts` (source lines 461-481):
count non-bench, non-IR players per `slot_position`, together with the
running total of starters. -/
def tally (lineup : List Player) : Counts × Nat :=
  lineup.foldl tallyStep ([], 0)

/-- `get_starter_counts` (source lines 427-486) applied to the single matchup
the source inspects: return the away tally when the away side has strictly
more starters, otherwise the home tally. -/
def get_starter_counts (home_lineup away_lineup : List Player) : Counts :=
  let h := tally home_lineup
  let a := tally away_lineup
  if a.2 > h.2 then a.1 else h.1

/-- One iteration of the player loop of `optimal_lineup_score` (source lines
554-559): file the player's points under its position bucket, creating the
bucket on `KeyError`. -/
def add_player (pp : Pools) (pl : Player) : Pools :=
  match dlookup pl.position pp with
  | some b => dinsert pl.position (dinsert pl.name pl.points b) pp
  | none => dinsert pl.position [(pl.name, pl.points)] pp

/-- One iteration of the player loop of `optimal_lineup_score` (source lines
554-561): file the player under its position and add its points to the
actual score when it is not benched. -/
def scanStep (acc : Pools × Rat) (pl : Player) : Pools × Rat :=
  (add_player acc.1 pl,
   if pl.slot_position ∉ ["BE", "IR"] then acc.2 + pl.points else acc.2)

/-- The player loop of `optimal_lineup_score` (source lines 552-561): builds
`position_players` and accumulates the actual score of the non-bench,
non-IR players. -/
def scan_lineup (lineup : List Player) : Pools × Rat :=
  lineup.foldl scanStep ([], 0)

/-- Stable insertion step for the descending-by-score sort. -/
def insort (p : String × Rat) : Bucket → Bucket
  | [] => [p]
  | q :: t => if q.2 > p.2 then q :: insort p t else p :: q :: t

/-- Python's `sorted(d.items(), key=lambda item: item[1], reverse=True)`:
stable sort, descending by score. -/
def sortDesc (b : Bucket) : Bucket := b.foldr insort []

/-- One iteration of the singular-slot loop of `optimal_lineup_score` (source
lines 564-571): take the top `count` scorers of the bucket named exactly
like the slot and leave the rest in the pool; on `KeyError` assign the
empty bucket.  The state is `(best_lineup, position_players)`. -/
def singStep (acc : Pools × Pools) (sc : String × Nat) : Pools × Pools :=
  match dlookup sc.1 acc.2 with
  | some b => (dinsert sc.1 ((sortDesc b).take sc.2) acc.1,
               dinsert sc.1 ((sortDesc b).drop sc.2) acc.2)
  | none => (dinsert sc.1 [] acc.1, acc.2)

/-- The singular-slot loop of `optimal_lineup_score` (source lines 563-571). -/
def fill_singular (starter_counts : Counts) (pools : Pools) : Pools × Pools :=
  starter_counts.foldl singStep ([], pools)

/-- Python's dict merge `pool | player_pool[flex_position]`. -/
def dmerge (d1 d2 : Bucket) : Bucket := d2.foldl (fun acc e => dinsert e.1 e.2 acc) d1

/-- `best_flex` (source lines 489-528): pool the buckets of the flex
positions (skipping missing buckets), sort descending, take the top `num`,
and remove the taken player names from every bucket of the pool. -/
def best_flex (flexes : List String) (player_pool : Pools) (num : Nat) :
    Bucket × Pools :=
  let pool := flexes.foldl (fun pool fp =>
    match dlookup fp player_pool with
    | some b => dmerge pool b
    | none => pool) []
  let best := (sortDesc pool).take num
  (best, player_pool.map (fun pb => (pb.1, pb.2.filter (fun e => (dlookup e.1 best).isNone))))

/-- The pooled bucket `best_flex` draws from (the `pool` local of source
lines 513-518): the flex positions' buckets merged in order, missing
buckets skipped. -/
def bfPool (flexes : List String) (player_pool : Pools) : Bucket :=
  flexes.foldl (fun pool fp =>
    match dlookup fp player_pool with
    | some b => dmerge pool b
    | none => pool) []

/-- Python's `str.split('/')` on the character list of a string (split on
every slash, keeping empty pieces). -/
def splitSlashChars : List Char → List (List Char)
  | [] => [[]]
  | c :: t =>
      if c = '/' then [] :: splitSlashChars t
      else match splitSlashChars t with
        | [] => [[c]]
        | h :: r => (c :: h) :: r

/-- `position.split('/')` (source line 577). -/
def splitSlash (s : String) : List String := (splitSlashChars s.data).map (fun l => ⟨l⟩)

/-- Whether the first character list is a prefix of the second. -/
def beginsWith : List Char → List Char → Bool
  | [], _ => true
  | _ :: _, [] => false
  | c :: p, d :: l => c = d && beginsWith p l

/-- Python's substring test `pat in s`, on character lists. -/
def occursIn (pat : List Char) : List Char → Bool
  | [] => beginsWith pat []
  | d :: l => beginsWith pat (d :: l) || occursIn pat l

/-- The flex test of source line 576:
`'D/ST' not in position and '/' in position`. -/
def flexCond (s : String) : Bool :=
  !(occursIn "D/ST".data s.data) && s.data.contains '/'

/-- One iteration of the flex loop of `optimal_lineup_score` (source lines
574-580): for a flex-named slot, run `best_flex` over the split positions
and record the result. -/
def flexStep (acc : Pools × Pools) (sc : String × Nat) : Pools × Pools :=
  if flexCond sc.1 then
    ((fun r => (dinsert sc.1 r.1 acc.1, r.2))
      (best_flex (splitSlash sc.1) acc.2 sc.2))
  else acc

/-- The flex loop of `optimal_lineup_score` (source lines 573-580). -/
def fill_flex (starter_counts : Counts) (st : Pools × Pools) : Pools × Pools :=
  starter_counts.foldl flexStep st

/-- The `OP` step of `optimal_lineup_score` (source lines 582-587). -/
def fill_op (starter_counts : Counts) (st : Pools × Pools) : Pools × Pools :=
  match dlookup "OP" starter_counts with
  | some n =>
      ((fun r => (dinsert "OP" r.1 st.1, r.2))
        (best_flex ["RB", "WR", "TE", "QB"] st.2 n))
  | none => st

/-- The `DP` step of `optimal_lineup_score` (source lines 589-594). -/
def fill_dp (starter_counts : Counts) (st : Pools × Pools) : Pools × Pools :=
  match dlookup "DP" starter_counts with
  | some n =>
      ((fun r => (dinsert "DP" r.1 st.1, r.2))
        (best_flex ["DT", "DE", "LB", "CB", "S"] st.2 n))
  | none => st

/-- The `best_lineup` dictionary at source line 596: singular slots filled
first, then composite flexes, then `OP`, then `DP`. -/
def best_lineup_of (lineup : List Player) (starter_counts : Counts) : Pools :=
  (fill_dp starter_counts (fill_op starter_counts
    (fill_flex starter_counts (fill_singular starter_counts (scan_lineup lineup).1)))).1

/-- The `score` accumulated at source lines 560-561. -/
def actual_score_of (lineup : List Player) : Rat := (scan_lineup lineup).2

/-- Sum of the scores of a bucket (`sum(d.values())`). -/
def bSum (b : Bucket) : Rat := (b.map Prod.snd).sum

/-- The `best_score` of source lines 596-598. -/
def best_score_of (lineup : List Player) (starter_counts : Counts) : Rat :=
  ((best_lineup_of lineup starter_counts).map (fun pb => bSum pb.2)).sum

/-- `optimal_lineup_score` (source lines 531-601).  `none` models the
`ZeroDivisionError` raised by `score / best_score` when `best_score` is
zero. -/
def optimal_lineup_score (lineup : List Player) (starter_counts : Counts) :
    Option (Rat × Rat × Rat × Rat) :=
  if best_score_of lineup starter_counts = 0 then none
  else some (best_score_of lineup starter_counts, actual_score_of lineup,
    best_score_of lineup starter_counts - actual_score_of lineup,
    actual_score_of lineup / best_score_of lineup starter_counts * 100)

/-! ### Specification-side notions

The definitions below do not model code; they state the well-formedness
conditions and bookkeeping the claims quantify over (legal actual lineups,
eligibility, the slot classification) and closed forms used to characterise
the allocator's phases. -/

/-- The actual starters: players whose `slot_position` is neither bench nor
injured reserve (spec §3). -/
def starters (lineup : List Player) : List Player :=
  lineup.filter (fun pl => pl.slot_position ∉ ["BE", "IR"])

/-- Total number of starters in a lineup. -/
def starterTotal (lineup : List Player) : Nat := (starters lineup).length

/-- Eligibility of a position for a slot (spec §3): `OP` and `DP` have fixed
eligible sets, a composite slot admits the positions its name encodes, and a
singular slot admits exactly its own name. -/
def eligibleB (position slot : String) : Bool :=
  if slot = "OP" then ["RB", "WR", "TE", "QB"].contains position
  else if slot = "DP" then ["DT", "DE", "LB", "CB", "S"].contains position
  else if flexCond slot then (splitSlash slot).contains position
  else position == slot

/-- The actual starters form a legal assignment: every starter occupies a
configured slot it is eligible for, and every configured slot holds exactly
its required count of starters (spec §8, "Optimal ≥ actual"). -/
def legalActual (lineup : List Player) (starter_counts : Counts) : Bool :=
  (starters lineup).all (fun pl =>
      (starter_counts.map Prod.fst).contains pl.slot_position &&
      eligibleB pl.position pl.slot_position) &&
  starter_counts.all (fun sc =>
      (((starters lineup).filter (fun pl => pl.slot_position == sc.1)).length == sc.2))

/-- Sane position tags: a player's `position` is an ordinary position name —
it contains no `/` (except the reserved `D/ST`) and is not one of the special
slot names `OP`/`DP` (spec §3 data model). -/
def sanePositions (lineup : List Player) : Bool :=
  lineup.all (fun pl =>
    (!(pl.position.data.contains '/') || pl.position == "D/ST")
    && pl.position != "OP" && pl.position != "DP")

/-- The flex-type jobs the allocator runs after the singular phase, in
execution order: the composite flex slots in configuration order, then `OP`,
then `DP`, each with its eligible position list and required count. -/
def flexJobs (starter_counts : Counts) : List (String × List String × Nat) :=
  (starter_counts.filter (fun sc => flexCond sc.1)).map
      (fun sc => (sc.1, splitSlash sc.1, sc.2))
    ++ (match dlookup "OP" starter_counts with
        | some n => [("OP", ["RB", "WR", "TE", "QB"], n)]
        | none => [])
    ++ (match dlookup "DP" starter_counts with
        | some n => [("DP", ["DT", "DE", "LB", "CB", "S"], n)]
        | none => [])

/-- Two eligible-position lists share no position. -/
def compsDisjoint (a b : List String) : Bool := a.all (fun p => !(b.contains p))

/-- Pairwise disjointness of a list of flex jobs' eligible positions. -/
def jobsPairwiseDisjoint : List (String × List String × Nat) → Bool
  | [] => true
  | j :: t => t.all (fun j2 => compsDisjoint j.2.1 j2.2.1) && jobsPairwiseDisjoint t

/-- Well-formed flex structure: each flex-type slot's eligible position list
is duplicate-free, names no special slot, and the flex-type slots' eligible
sets are pairwise disjoint. -/
def jobsOK (starter_counts : Counts) : Bool :=
  (flexJobs starter_counts).all (fun j =>
      j.2.1.Nodup && j.2.1.all (fun p => p != "OP" && p != "DP")) &&
  jobsPairwiseDisjoint (flexJobs starter_counts)

/-- The bucket entry a player contributes to `position_players`. -/
def entryOf (pl : Player) : String × Rat := (pl.name, pl.points)

/-- Closed form of the position bucket built by the player loop: the entries
of the players carrying that position, in lineup order. -/
def pbucket (lineup : List Player) (p : String) : Bucket :=
  (lineup.filter (fun pl => pl.position == p)).map entryOf

/-- The singular count configured for a slot name (0 when absent). -/
def singCap (starter_counts : Counts) (p : String) : Nat :=
  (dlookup p starter_counts).getD 0

/-- Closed form of what the singular phase leaves of a position's bucket. -/
def origRest (lineup : List Player) (starter_counts : Counts) (p : String) : Bucket :=
  match dlookup p starter_counts with
  | some c => (sortDesc (pbucket lineup p)).drop c
  | none => pbucket lineup p

/-- Closed form of the pool a flex job draws from. -/
def jobPool (lineup : List Player) (starter_counts : Counts)
    (comps : List String) : Bucket :=
  (comps.map (origRest lineup starter_counts)).flatten

/-- Closed form of the bucket a flex job assigns. -/
def jobTake (lineup : List Player) (starter_counts : Counts)
    (j : String × List String × Nat) : Bucket :=
  (sortDesc (jobPool lineup starter_counts j.2.1)).take j.2.2

/-- Closed form of the bucket the singular phase assigns to a slot. -/
def singTake (lineup : List Player) (sc : String × Nat) : Bucket :=
  (sortDesc (pbucket lineup sc.1)).take sc.2

/-- A configured slot that stays singular through the whole pipeline. -/
def isSingKey (s : String) : Bool := !(flexCond s) && s != "OP" && s != "DP"

/-- One flex-type job applied to the `(best_lineup, position_players)` state:
record the `best_flex` result under the job's slot name. -/
def jobStep (acc : Pools × Pools) (j : String × List String × Nat) : Pools × Pools :=
  ((fun r => (dinsert j.1 r.1 acc.1, r.2)) (best_flex j.2.1 acc.2 j.2.2))

/-- Sortedness by descending score. -/
def SortedD (b : Bucket) : Prop := b.Pairwise (fun e f => f.2 ≤ e.2)

/-- Score sum of a multiset of bucket entries. -/
def eSum (T : Multiset (String × Rat)) : Rat := (T.map Prod.snd).sum

/-- All player names stored in a pools structure, bucket by bucket. -/
def poolNames (d : Pools) : List String := (d.map (fun pb => pb.2.map Prod.fst)).flatten

/-- The bucket entries of the actual starters occupying a given slot. -/
def starterEntries (lineup : List Player) (s : String) : Bucket :=
  ((starters lineup).filter (fun pl => pl.slot_position == s)).map entryOf

/-- Closed form of the optimal score under a well-formed configuration: the
singular slots' top picks plus each flex-type job's top picks from the
leftovers. -/
def specScore (lineup : List Player) (starter_counts : Counts) : Rat :=
  ((starter_counts.filter (fun sc => isSingKey sc.1)).map
      (fun sc => bSum (singTake lineup sc))).sum +
  ((flexJobs starter_counts).map (fun j => bSum (jobTake lineup starter_counts j))).sum

/-- Total score stored in a `best_lineup` map (`sum(sum(d.values()) ...)`). -/
def pSum (d : Pools) : Rat := (d.map (fun pb => bSum pb.2)).sum

/-- Per-slot score of the actual starters occupying a slot name. -/
def aScore (lineup : List Player) (k : String) : Rat := bSum (starterEntries lineup k)

/-- Per-slot score of the singular phase's pick for a slot name. -/
def oScore (lineup : List Player) (starter_counts : Counts) (k : String) : Rat :=
  bSum ((sortDesc (pbucket lineup k)).take (singCap starter_counts k))

/-- All positions drawn on by some flex-type job of the configuration. -/
def allComps (starter_counts : Counts) : List String :=
  ((flexJobs starter_counts).map (fun j => j.2.1)).flatten

/-! ### Basic facts about the starter tally -/

theorem tallyStep_bench (acc : Counts × Nat) (pl : Player)
    (h : pl.slot_position ∈ ["BE", "IR"]) : tallyStep acc pl = acc := by
  simp only [List.mem_cons, List.mem_singleton, List.not_mem_nil, or_false] at h
  rcases h with h | h <;> simp [tallyStep, h]

theorem tallyStep_starter (acc : Counts × Nat) (pl : Player)
    (h : pl.slot_position ∉ ["BE", "IR"]) :
    (tallyStep acc pl).2 = acc.2 + 1 := by
  simp only [List.mem_cons, List.mem_singleton, List.not_mem_nil, or_false, not_or] at h
  simp [tallyStep, h.1, h.2]

theorem starterTotal_cons_bench (pl : Player) (l : List Player)
    (h : pl.slot_position ∈ ["BE", "IR"]) :
    starterTotal (pl :: l) = starterTotal l := by
  simp only [List.mem_cons, List.not_mem_nil, or_false] at h
  rcases h with h | h <;> simp [starterTotal, starters, h]

theorem starterTotal_cons_starter (pl : Player) (l : List Player)
    (h : pl.slot_position ∉ ["BE", "IR"]) :
    starterTotal (pl :: l) = starterTotal l + 1 := by
  simp only [List.mem_cons, List.not_mem_nil, or_false, not_or] at h
  simp [starterTotal, starters, h.1, h.2]

theorem foldl_tallyStep_snd (l : List Player) :
    ∀ acc : Counts × Nat, (l.foldl tallyStep acc).2 = acc.2 + starterTotal l := by
  induction l with
  | nil => intro acc; simp [starterTotal, starters]
  | cons pl t ih =>
      intro acc
      by_cases h : pl.slot_position ∈ ["BE", "IR"]
      · rw [List.foldl_cons, tallyStep_bench acc pl h, ih, starterTotal_cons_bench pl t h]
      · rw [List.foldl_cons, ih, starterTotal_cons_starter pl t h]
        have h2 : (tallyStep acc pl).2 = acc.2 + 1 := tallyStep_starter acc pl h
        omega

theorem tally_snd (l : List Player) : (tally l).2 = starterTotal l := by
  rw [tally, foldl_tallyStep_snd]
  simp

theorem foldl_tallyStep_all_bench (l : List Player)
    (h : ∀ pl ∈ l, pl.slot_position ∈ ["BE", "IR"]) :
    ∀ acc : Counts × Nat, l.foldl tallyStep acc = acc := by
  induction l with
  | nil => intro acc; rfl
  | cons pl t ih =>
      intro acc
      rw [List.foldl_cons, tallyStep_bench acc pl (h pl (List.mem_cons_self pl t))]
      exact ih (fun q hq => h q (List.mem_cons_of_mem pl hq)) acc

/-- C3: `get_starter_counts` returns the per-slot tally of the side with the
larger total starter count; on a tie it returns the home tally (one of the
two sides, as the claim permits). -/
theorem C3_starter_counts_larger_side (home away : List Player) :
    (starterTotal away > starterTotal home →
      get_starter_counts home away = (tally away).1) ∧
    (starterTotal home ≥ starterTotal away →
      get_starter_counts home away = (tally home).1) := by
  constructor
  · intro h
    rw [get_starter_counts, if_pos]
    rw [tally_snd, tally_snd]
    exact h
  · intro h
    rw [get_starter_counts, if_neg]
    rw [tally_snd, tally_snd]
    omega

/-- C3 witness: a matchup where the home side tallies 9 starters (one slot
mis-reported as bench) and the away side tallies 10; the inferred
configuration is the away tally. -/
theorem C3_starter_counts_larger_side_witness :
    starterTotal
        [⟨"a1", "QB", "QB", 1, 0, 0⟩, ⟨"a2", "RB", "RB", 1, 0, 0⟩,
         ⟨"a3", "RB", "RB", 1, 0, 0⟩, ⟨"a4", "WR", "WR", 1, 0, 0⟩,
         ⟨"a5", "WR", "WR", 1, 0, 0⟩, ⟨"a6", "TE", "TE", 1, 0, 0⟩,
         ⟨"a7", "RB", "RB/WR/TE", 1, 0, 0⟩, ⟨"a8", "D/ST", "D/ST", 1, 0, 0⟩,
         ⟨"a9", "K", "K", 1, 0, 0⟩, ⟨"a10", "WR", "RB/WR/TE", 1, 0, 0⟩] >
      starterTotal
        [⟨"h1", "QB", "QB", 1, 0, 0⟩, ⟨"h2", "RB", "RB", 1, 0, 0⟩,
         ⟨"h3", "RB", "RB", 1, 0, 0⟩, ⟨"h4", "WR", "WR", 1, 0, 0⟩,
         ⟨"h5", "WR", "WR", 1, 0, 0⟩, ⟨"h6", "TE", "TE", 1, 0, 0⟩,
         ⟨"h7", "RB", "RB/WR/TE", 1, 0, 0⟩, ⟨"h8", "D/ST", "D/ST", 1, 0, 0⟩,
         ⟨"h9", "K", "K", 1, 0, 0⟩, ⟨"h10", "WR", "BE", 1, 0, 0⟩] ∧
    get_starter_counts
        [⟨"h1", "QB", "QB", 1, 0, 0⟩, ⟨"h2", "RB", "RB", 1, 0, 0⟩,
         ⟨"h3", "RB", "RB", 1, 0, 0⟩, ⟨"h4", "WR", "WR", 1, 0, 0⟩,
         ⟨"h5", "WR", "WR", 1, 0, 0⟩, ⟨"h6", "TE", "TE", 1, 0, 0⟩,
         ⟨"h7", "RB", "RB/WR/TE", 1, 0, 0⟩, ⟨"h8", "D/ST", "D/ST", 1, 0, 0⟩,
         ⟨"h9", "K", "K", 1, 0, 0⟩, ⟨"h10", "WR", "BE", 1, 0, 0⟩]
        [⟨"a1", "QB", "QB", 1, 0, 0⟩, ⟨"a2", "RB", "RB", 1, 0, 0⟩,
         ⟨"a3", "RB", "RB", 1, 0, 0⟩, ⟨"a4", "WR", "WR", 1, 0, 0⟩,
         ⟨"a5", "WR", "WR", 1, 0, 0⟩, ⟨"a6", "TE", "TE", 1, 0, 0⟩,
         ⟨"a7", "RB", "RB/WR/TE", 1, 0, 0⟩, ⟨"a8", "D/ST", "D/ST", 1, 0, 0⟩,
         ⟨"a9", "K", "K", 1, 0, 0⟩, ⟨"a10", "WR", "RB/WR/TE", 1, 0, 0⟩] =
      (tally
        [⟨"a1", "QB", "QB", 1, 0, 0⟩, ⟨"a2", "RB", "RB", 1, 0, 0⟩,
         ⟨"a3", "RB", "RB", 1, 0, 0⟩, ⟨"a4", "WR", "WR", 1, 0, 0⟩,
         ⟨"a5", "WR", "WR", 1, 0, 0⟩, ⟨"a6", "TE", "TE", 1, 0, 0⟩,
         ⟨"a7", "RB", "RB/WR/TE", 1, 0, 0⟩, ⟨"a8", "D/ST", "D/ST", 1, 0, 0⟩,
         ⟨"a9", "K", "K", 1, 0, 0⟩, ⟨"a10", "WR", "RB/WR/TE", 1, 0, 0⟩]).1 := by
  refine ⟨by decide, (C3_starter_counts_larger_side _ _).1 (by decide)⟩

/-- C9 counterexample: on a matchup in which neither lineup contains any
player, `get_starter_counts` returns the empty configuration — no error of
any kind is signalled, refuting the claim that an `AmbiguousSlotInference`
error propagates instead. -/
theorem C9_counterexample_empty_matchup : get_starter_counts [] [] = [] := rfl

/-- C9 (amended): when a matchup has no starter on either side (in
particular, no player at all), `get_starter_counts` silently returns the
empty slot configuration rather than signalling an error. -/
theorem C9_empty_matchup_returns_empty (home away : List Player)
    (hh : ∀ pl ∈ home, pl.slot_position ∈ ["BE", "IR"])
    (ha : ∀ pl ∈ away, pl.slot_position ∈ ["BE", "IR"]) :
    get_starter_counts home away = [] := by
  have h1 : tally home = ([], 0) := foldl_tallyStep_all_bench home hh ([], 0)
  have h2 : tally away = ([], 0) := foldl_tallyStep_all_bench away ha ([], 0)
  rw [get_starter_counts]
  simp [h1, h2]

/-- C9 witness for the amended statement: the fully empty matchup. -/
theorem C9_empty_matchup_returns_empty_witness :
    get_starter_counts [] [] = [] :=
  C9_empty_matchup_returns_empty [] [] (by simp) (by simp)

/-- C5: whenever the computed optimal score is zero, `optimal_lineup_score`
propagates the division-by-zero failure to the caller (modelled by `none`)
instead of returning a percentage. -/
theorem C5_zero_optimal_signals_error (lineup : List Player) (starter_counts : Counts)
    (h : best_score_of lineup starter_counts = 0) :
    optimal_lineup_score lineup starter_counts = none := by
  rw [optimal_lineup_score, if_pos h]

/-- C5 witness: the empty roster has optimal score zero and the call errors. -/
theorem C5_zero_optimal_signals_error_witness :
    best_score_of [] [("QB", 1)] = 0 ∧
      optimal_lineup_score [] [("QB", 1)] = none := by
  have h : best_score_of [] [("QB", 1)] = 0 := by
    simp [best_score_of, best_lineup_of, fill_singular, fill_flex, fill_op, fill_dp,
      scan_lineup, singStep, flexStep, flexCond, dlookup, dinsert, bSum]
  exact ⟨h, C5_zero_optimal_signals_error [] [("QB", 1)] h⟩

/-- C2 (Scenario A): with one 12-point QB and two RBs scoring 10 and 8, under
`{QB: 1, RB: 1, "RB/WR/TE": 1}`, the allocator assigns the QB to `QB`, the
10-point RB to `RB` and the 8-point RB to the flex, for an optimal score of
30, and the returned tuple compares the actual score (whatever the three
`slot_position` fields say) against 30. -/
theorem C2_scenarioA (s1 s2 s3 : String) :
    best_lineup_of
        [⟨"q", "QB", s1, 12, 0, 0⟩, ⟨"r1", "RB", s2, 10, 0, 0⟩, ⟨"r2", "RB", s3, 8, 0, 0⟩]
        [("QB", 1), ("RB", 1), ("RB/WR/TE", 1)] =
      [("QB", [("q", 12)]), ("RB", [("r1", 10)]), ("RB/WR/TE", [("r2", 8)])] ∧
    optimal_lineup_score
        [⟨"q", "QB", s1, 12, 0, 0⟩, ⟨"r1", "RB", s2, 10, 0, 0⟩, ⟨"r2", "RB", s3, 8, 0, 0⟩]
        [("QB", 1), ("RB", 1), ("RB/WR/TE", 1)] =
      some (30,
        actual_score_of
          [⟨"q", "QB", s1, 12, 0, 0⟩, ⟨"r1", "RB", s2, 10, 0, 0⟩, ⟨"r2", "RB", s3, 8, 0, 0⟩],
        30 - actual_score_of
          [⟨"q", "QB", s1, 12, 0, 0⟩, ⟨"r1", "RB", s2, 10, 0, 0⟩, ⟨"r2", "RB", s3, 8, 0, 0⟩],
        actual_score_of
          [⟨"q", "QB", s1, 12, 0, 0⟩, ⟨"r1", "RB", s2, 10, 0, 0⟩, ⟨"r2", "RB", s3, 8, 0, 0⟩]
          / 30 * 100) := by
  have hbl : best_lineup_of
      [⟨"q", "QB", s1, 12, 0, 0⟩, ⟨"r1", "RB", s2, 10, 0, 0⟩, ⟨"r2", "RB", s3, 8, 0, 0⟩]
      [("QB", 1), ("RB", 1), ("RB/WR/TE", 1)] =
      [("QB", [("q", 12)]), ("RB", [("r1", 10)]), ("RB/WR/TE", [("r2", 8)])] := rfl
  have hbs : best_score_of
      [⟨"q", "QB", s1, 12, 0, 0⟩, ⟨"r1", "RB", s2, 10, 0, 0⟩, ⟨"r2", "RB", s3, 8, 0, 0⟩]
      [("QB", 1), ("RB", 1), ("RB/WR/TE", 1)] = 30 := by
    rw [best_score_of, hbl]
    norm_num [bSum]
  refine ⟨hbl, ?_⟩
  rw [optimal_lineup_score, hbs]
  norm_num

/-- C8: the allocator reads only `name`, `position`, `slot_position` and
`points`; two lineups agreeing on those four fields (but differing
arbitrarily in `projected_points` and `game_played`) produce identical
result tuples. -/
theorem C8_projection_independent (l1 l2 : List Player) (starter_counts : Counts)
    (h : List.Forall₂ (fun p q => p.name = q.name ∧ p.position = q.position ∧
        p.slot_position = q.slot_position ∧ p.points = q.points) l1 l2) :
    optimal_lineup_score l1 starter_counts = optimal_lineup_score l2 starter_counts := by
  have hscan : scan_lineup l1 = scan_lineup l2 := by
    rw [scan_lineup, scan_lineup]
    suffices hgen : ∀ acc : Pools × Rat,
        List.foldl scanStep acc l1 = List.foldl scanStep acc l2 by exact hgen ([], 0)
    induction h with
    | nil => intro acc; rfl
    | @cons p q t1 t2 hpq hrest ih =>
        intro acc
        rw [List.foldl_cons, List.foldl_cons]
        obtain ⟨hn, hp, hs, hpt⟩ := hpq
        have hstep : scanStep acc p = scanStep acc q := by
          simp only [scanStep, add_player, hn, hp, hs, hpt]
        rw [hstep]
        exact ih _
  unfold optimal_lineup_score best_score_of best_lineup_of actual_score_of
  rw [hscan]

/-- C8 witness: two one-player rosters differing only in projections and game
progress give the same result. -/
theorem C8_projection_independent_witness :
    optimal_lineup_score [⟨"q", "QB", "QB", 12, 3, 0⟩] [("QB", 1)] =
      optimal_lineup_score [⟨"q", "QB", "QB", 12, 99, 100⟩] [("QB", 1)] :=
  C8_projection_independent _ _ _ (List.Forall₂.cons ⟨rfl, rfl, rfl, rfl⟩ List.Forall₂.nil)

/-- C1 counterexample: with the two overlapping flex slots
`{RB/WR: 1, RB/TE: 1}`, the legal actual lineup (WR in `RB/WR` for 9, RB in
`RB/TE` for 10) scores 19, while the greedy allocator gives the RB (10) to
`RB/WR` first and leaves only the 1-point TE for `RB/TE`, an optimal score
of 11 < 19. -/
theorem C1_counterexample_overlapping_flexes :
    legalActual
        [⟨"w", "WR", "RB/WR", 9, 0, 0⟩, ⟨"r", "RB", "RB/TE", 10, 0, 0⟩,
         ⟨"t", "TE", "BE", 1, 0, 0⟩]
        [("RB/WR", 1), ("RB/TE", 1)] = true ∧
    actual_score_of
        [⟨"w", "WR", "RB/WR", 9, 0, 0⟩, ⟨"r", "RB", "RB/TE", 10, 0, 0⟩,
         ⟨"t", "TE", "BE", 1, 0, 0⟩] = 19 ∧
    best_score_of
        [⟨"w", "WR", "RB/WR", 9, 0, 0⟩, ⟨"r", "RB", "RB/TE", 10, 0, 0⟩,
         ⟨"t", "TE", "BE", 1, 0, 0⟩]
        [("RB/WR", 1), ("RB/TE", 1)] = 11 ∧
    ¬ (actual_score_of
        [⟨"w", "WR", "RB/WR", 9, 0, 0⟩, ⟨"r", "RB", "RB/TE", 10, 0, 0⟩,
         ⟨"t", "TE", "BE", 1, 0, 0⟩] ≤
       best_score_of
        [⟨"w", "WR", "RB/WR", 9, 0, 0⟩, ⟨"r", "RB", "RB/TE", 10, 0, 0⟩,
         ⟨"t", "TE", "BE", 1, 0, 0⟩]
        [("RB/WR", 1), ("RB/TE", 1)]) := by
  have hact : actual_score_of
      [⟨"w", "WR", "RB/WR", 9, 0, 0⟩, ⟨"r", "RB", "RB/TE", 10, 0, 0⟩,
       ⟨"t", "TE", "BE", 1, 0, 0⟩] = 19 := by
    simp [actual_score_of, scan_lineup, scanStep, add_player, dlookup, dinsert]
    norm_num
  have hbl : best_lineup_of
      [⟨"w", "WR", "RB/WR", 9, 0, 0⟩, ⟨"r", "RB", "RB/TE", 10, 0, 0⟩,
       ⟨"t", "TE", "BE", 1, 0, 0⟩]
      [("RB/WR", 1), ("RB/TE", 1)] =
      [("RB/WR", [("r", 10)]), ("RB/TE", [("t", 1)])] := rfl
  have hbest : best_score_of
      [⟨"w", "WR", "RB/WR", 9, 0, 0⟩, ⟨"r", "RB", "RB/TE", 10, 0, 0⟩,
       ⟨"t", "TE", "BE", 1, 0, 0⟩]
      [("RB/WR", 1), ("RB/TE", 1)] = 11 := by
    rw [best_score_of, hbl]
    norm_num [bSum]
  refine ⟨by decide, hact, hbest, ?_⟩
  rw [hact, hbest]
  norm_num

/-- C7 counterexample: under the overlapping flexes `{WR/TE: 1, TE/RB: 1}`,
raising the TE's points from 9 to 11 makes the first flex grab the TE
instead of the 10-point WR, starving the second flex (which could have used
the TE) down to the 0-point RB: the optimal score drops from 19 to 11. -/
theorem C7_counterexample_increase_decreases_optimal :
    (9 : Rat) < 11 ∧
    best_score_of
        [⟨"a", "WR", "BE", 10, 0, 0⟩, ⟨"x", "TE", "BE", 9, 0, 0⟩,
         ⟨"c", "RB", "BE", 0, 0, 0⟩] [("WR/TE", 1), ("TE/RB", 1)] = 19 ∧
    best_score_of
        [⟨"a", "WR", "BE", 10, 0, 0⟩, ⟨"x", "TE", "BE", 11, 0, 0⟩,
         ⟨"c", "RB", "BE", 0, 0, 0⟩] [("WR/TE", 1), ("TE/RB", 1)] = 11 ∧
    ¬ (best_score_of
        [⟨"a", "WR", "BE", 10, 0, 0⟩, ⟨"x", "TE", "BE", 9, 0, 0⟩,
         ⟨"c", "RB", "BE", 0, 0, 0⟩] [("WR/TE", 1), ("TE/RB", 1)] ≤
       best_score_of
        [⟨"a", "WR", "BE", 10, 0, 0⟩, ⟨"x", "TE", "BE", 11, 0, 0⟩,
         ⟨"c", "RB", "BE", 0, 0, 0⟩] [("WR/TE", 1), ("TE/RB", 1)]) := by
  have h1 : best_lineup_of
      [⟨"a", "WR", "BE", 10, 0, 0⟩, ⟨"x", "TE", "BE", 9, 0, 0⟩,
       ⟨"c", "RB", "BE", 0, 0, 0⟩] [("WR/TE", 1), ("TE/RB", 1)] =
      [("WR/TE", [("a", 10)]), ("TE/RB", [("x", 9)])] := rfl
  have h2 : best_lineup_of
      [⟨"a", "WR", "BE", 10, 0, 0⟩, ⟨"x", "TE", "BE", 11, 0, 0⟩,
       ⟨"c", "RB", "BE", 0, 0, 0⟩] [("WR/TE", 1), ("TE/RB", 1)] =
      [("WR/TE", [("x", 11)]), ("TE/RB", [("c", 0)])] := rfl
  have hb1 : best_score_of
      [⟨"a", "WR", "BE", 10, 0, 0⟩, ⟨"x", "TE", "BE", 9, 0, 0⟩,
       ⟨"c", "RB", "BE", 0, 0, 0⟩] [("WR/TE", 1), ("TE/RB", 1)] = 19 := by
    rw [best_score_of, h1]; norm_num [bSum]
  have hb2 : best_score_of
      [⟨"a", "WR", "BE", 10, 0, 0⟩, ⟨"x", "TE", "BE", 11, 0, 0⟩,
       ⟨"c", "RB", "BE", 0, 0, 0⟩] [("WR/TE", 1), ("TE/RB", 1)] = 11 := by
    rw [best_score_of, h2]; norm_num [bSum]
  refine ⟨by norm_num, hb1, hb2, ?_⟩
  rw [hb1, hb2]
  norm_num

/-- C4 counterexample: the slot `RB` requires two players while the roster
holds a single eligible RB (scoring 0, on the bench).  The allocator does
partial-fill the slot with that one player, but the claim's "raises no
error" fails: the optimal score is 0, so the percentage division raises
(the call returns no tuple). -/
theorem C4_counterexample_error_after_partial_fill :
    (pbucket [⟨"z", "RB", "BE", 0, 0, 0⟩] "RB").length = 1 ∧
    (1 : Nat) < 2 ∧
    best_lineup_of [⟨"z", "RB", "BE", 0, 0, 0⟩] [("RB", 2)] = [("RB", [("z", 0)])] ∧
    optimal_lineup_score [⟨"z", "RB", "BE", 0, 0, 0⟩] [("RB", 2)] = none := by
  refine ⟨rfl, by norm_num, rfl, ?_⟩
  have h : best_score_of [⟨"z", "RB", "BE", 0, 0, 0⟩] [("RB", 2)] = 0 := by
    have hb : best_lineup_of [⟨"z", "RB", "BE", 0, 0, 0⟩] [("RB", 2)] =
        [("RB", [("z", 0)])] := rfl
    rw [best_score_of, hb]
    norm_num [bSum]
  rw [optimal_lineup_score, if_pos h]

/-! ### Association-list dictionary lemmas -/

theorem dlookup_dinsert_self {α : Type} (k : String) (v : α) (d : List (String × α)) :
    dlookup k (dinsert k v d) = some v := by
  induction d with
  | nil => simp [dinsert, dlookup]
  | cons e t ih =>
      by_cases h : e.1 = k
      · simp [dinsert, h, dlookup]
      · simp [dinsert, h, dlookup, ih]

theorem dlookup_dinsert_ne {α : Type} (k k' : String) (v : α) (d : List (String × α))
    (h : k' ≠ k) : dlookup k (dinsert k' v d) = dlookup k d := by
  induction d with
  | nil => simp [dinsert, dlookup, h]
  | cons e t ih =>
      rw [dinsert]
      by_cases he : e.1 = k'
      · rw [if_pos he, dlookup, dlookup]
        have h2 : ¬(e.1 = k) := by rw [he]; exact h
        rw [if_neg h, if_neg h2]
      · rw [if_neg he, dlookup, dlookup]
        by_cases hek : e.1 = k
        · rw [if_pos hek, if_pos hek]
        · rw [if_neg hek, if_neg hek, ih]

theorem dlookup_eq_none_iff {α : Type} (k : String) (d : List (String × α)) :
    dlookup k d = none ↔ k ∉ d.map Prod.fst := by
  induction d with
  | nil => simp [dlookup]
  | cons e t ih =>
      by_cases h : e.1 = k
      · simp [dlookup, h]
      · simp [dlookup, h, ih, Ne.symm h]

theorem dinsert_fresh {α : Type} (k : String) (v : α) (d : List (String × α))
    (h : dlookup k d = none) : dinsert k v d = d ++ [(k, v)] := by
  induction d with
  | nil => simp [dinsert]
  | cons e t ih =>
      rw [dlookup] at h
      by_cases he : e.1 = k
      · simp [he] at h
      · simp only [he, if_false] at h
        simp [dinsert, he, ih h]

theorem dlookup_append_none {α : Type} (k : String) (d1 d2 : List (String × α))
    (h : dlookup k d1 = none) : dlookup k (d1 ++ d2) = dlookup k d2 := by
  induction d1 with
  | nil => simp
  | cons e t ih =>
      rw [dlookup] at h
      by_cases he : e.1 = k
      · simp [he] at h
      · simp only [he, if_false] at h
        simpa [dlookup, he] using ih h

theorem map_fst_dinsert_mem {α : Type} (k : String) (v : α) (d : List (String × α))
    (h : k ∈ d.map Prod.fst) : (dinsert k v d).map Prod.fst = d.map Prod.fst := by
  induction d with
  | nil => simp at h
  | cons e t ih =>
      by_cases he : e.1 = k
      · simp [dinsert, he]
      · simp only [List.map_cons, List.mem_cons] at h
        rcases h with h | h
        · exact absurd h.symm he
        · simp [dinsert, he, ih h]

theorem dlookup_mem {α : Type} (k : String) (d : List (String × α)) (b : α)
    (h : dlookup k d = some b) : (k, b) ∈ d := by
  induction d with
  | nil => simp [dlookup] at h
  | cons e t ih =>
      rw [dlookup] at h
      by_cases he : e.1 = k
      · rw [if_pos he] at h
        injection h with h
        rw [← he, ← h]
        exact List.mem_cons_self e t
      · rw [if_neg he] at h
        exact List.mem_cons_of_mem e (ih h)

theorem buck_dinsert_self (d : Pools) (k : String) (b : Bucket) :
    buck (dinsert k b d) k = b := by
  rw [buck, dlookup_dinsert_self]
  rfl

theorem buck_dinsert_ne (d : Pools) (k k' : String) (b : Bucket) (h : k' ≠ k) :
    buck (dinsert k' b d) k = buck d k := by
  rw [buck, dlookup_dinsert_ne _ _ _ _ h, buck]

/-! ### Sorting lemmas -/

theorem insort_perm (p : String × Rat) (b : Bucket) : (insort p b).Perm (p :: b) := by
  induction b with
  | nil => simp [insort]
  | cons q t ih =>
      rw [insort]
      by_cases h : q.2 > p.2
      · rw [if_pos h]
        exact (ih.cons q).trans (List.Perm.swap p q t)
      · rw [if_neg h]

theorem sortDesc_perm (b : Bucket) : (sortDesc b).Perm b := by
  induction b with
  | nil => simp [sortDesc]
  | cons q t ih =>
      rw [sortDesc, List.foldr_cons]
      exact (insort_perm q _).trans (ih.cons q)

theorem mem_insort (x p : String × Rat) (b : Bucket) :
    x ∈ insort p b ↔ x = p ∨ x ∈ b := by
  constructor
  · intro hx
    have := (insort_perm p b).mem_iff.mp hx
    simpa using this
  · intro hx
    exact (insort_perm p b).mem_iff.mpr (by simpa using hx)

theorem sortedD_insort (p : String × Rat) (b : Bucket) (h : SortedD b) :
    SortedD (insort p b) := by
  induction b with
  | nil => simp [insort, SortedD]
  | cons q t ih =>
      have h1 : ∀ x ∈ t, x.2 ≤ q.2 := (List.pairwise_cons.mp h).1
      have h2 : SortedD t := (List.pairwise_cons.mp h).2
      rw [insort]
      by_cases hq : q.2 > p.2
      · rw [if_pos hq]
        rw [SortedD, List.pairwise_cons]
        constructor
        · intro x hx
          rcases (mem_insort x p t).mp hx with hx | hx
          · rw [hx]; exact le_of_lt hq
          · exact h1 x hx
        · exact ih h2
      · rw [if_neg hq]
        push_neg at hq
        rw [SortedD, List.pairwise_cons]
        refine ⟨?_, h⟩
        intro x hx
        rcases List.mem_cons.mp hx with hx | hx
        · rw [hx]; exact hq
        · exact le_trans (h1 x hx) hq

theorem sortedD_sortDesc (b : Bucket) : SortedD (sortDesc b) := by
  induction b with
  | nil => simp [sortDesc, SortedD]
  | cons q t ih =>
      rw [sortDesc, List.foldr_cons]
      exact sortedD_insort q _ ih

theorem sortedD_take (b : Bucket) (k : Nat) (h : SortedD b) : SortedD (b.take k) :=
  h.sublist (List.take_sublist k b)

theorem sortedD_drop (b : Bucket) (k : Nat) (h : SortedD b) : SortedD (b.drop k) :=
  h.sublist (List.drop_sublist k b)

theorem bSum_append (b1 b2 : Bucket) : bSum (b1 ++ b2) = bSum b1 + bSum b2 := by
  simp [bSum]

theorem bSum_take_drop (b : Bucket) (k : Nat) : bSum (b.take k) + bSum (b.drop k) = bSum b := by
  rw [← bSum_append, List.take_append_drop]

/-! ### Top-k selection lemmas: a selection of exact size is dominated by the
sorted prefix of the same size -/

theorem bSum_cons (x : String × Rat) (b : Bucket) : bSum (x :: b) = x.2 + bSum b := by
  simp [bSum]

theorem eSum_coe (b : Bucket) : eSum (↑b : Multiset (String × Rat)) = bSum b := by
  simp [eSum, bSum]

theorem eSum_add (S T : Multiset (String × Rat)) : eSum (S + T) = eSum S + eSum T := by
  simp [eSum]

theorem eSum_cons (x : String × Rat) (S : Multiset (String × Rat)) :
    eSum (x ::ₘ S) = x.2 + eSum S := by
  simp [eSum]

theorem le_cons_of_not_mem {a : String × Rat} {S l : Multiset (String × Rat)}
    (hna : a ∉ S) (h : S ≤ a ::ₘ l) : S ≤ l := by
  rw [Multiset.le_iff_count] at h ⊢
  intro x
  have hx := h x
  rcases eq_or_ne x a with rfl | hne
  · simp [Multiset.count_eq_zero_of_not_mem hna]
  · simpa [Multiset.count_cons, hne] using hx

theorem eSum_le_bSum_take (l : Bucket) (k : Nat) (T : Multiset (String × Rat))
    (hs : SortedD l) (hT : T ≤ ↑l) (hc : Multiset.card T = min k l.length) :
    eSum T ≤ bSum (l.take k) := by
  induction l generalizing k T with
  | nil =>
      have hc0 : Multiset.card T ≤ 0 := by simpa using Multiset.card_le_card hT
      have h0 : T = 0 := Multiset.card_eq_zero.mp (Nat.le_zero.mp hc0)
      simp [h0, eSum, bSum]
  | cons a t ih =>
      have hhead : ∀ x ∈ t, x.2 ≤ a.2 := (List.pairwise_cons.mp hs).1
      have htail : SortedD t := (List.pairwise_cons.mp hs).2
      by_cases ha : a ∈ T
      · cases k with
        | zero =>
            rw [Nat.zero_min] at hc
            rw [Multiset.card_eq_zero.mp hc] at ha
            simp at ha
        | succ k' =>
            have hT' : T.erase a ≤ ↑t := by
              have h1 := Multiset.erase_le_erase a hT
              have h2 : ((a :: t : List (String × Rat)) : Multiset (String × Rat)).erase a
                  = (↑t : Multiset (String × Rat)) := by
                rw [← Multiset.cons_coe, Multiset.erase_cons_head]
              rwa [h2] at h1
            have hc' : Multiset.card (T.erase a) = min k' t.length := by
              rw [Multiset.card_erase_of_mem ha, hc]
              simp only [List.length_cons, Nat.succ_min_succ]
              rfl
            have hmain := ih k' (T.erase a) htail hT' hc'
            have hsplit : eSum T = a.2 + eSum (T.erase a) := by
              conv_lhs => rw [← Multiset.cons_erase ha]
              rw [eSum_cons]
            rw [hsplit, List.take_succ_cons, bSum_cons]
            exact add_le_add_left hmain a.2
      · have hT' : T ≤ ↑t := le_cons_of_not_mem ha (by simpa using hT)
        have hcard_le : Multiset.card T ≤ t.length := by
          simpa using Multiset.card_le_card hT'
        by_cases hk : k ≤ t.length
        · have hc' : Multiset.card T = min k t.length := by
            rw [hc]
            simp only [List.length_cons]
            omega
          have hmain := ih k T htail hT' hc'
          refine le_trans hmain ?_
          cases k with
          | zero => simp
          | succ k'' =>
              rw [List.take_succ_cons]
              have hlt : k'' < t.length := by omega
              rw [List.take_succ, List.getElem?_eq_getElem hlt]
              have hle : t[k''].2 ≤ a.2 := hhead _ (t.getElem_mem hlt)
              simp only [Option.toList_some, bSum, List.map_append, List.map_cons,
                List.map_nil, List.sum_append, List.sum_cons, List.sum_nil, add_zero]
              linarith
        · exfalso
          rw [hc] at hcard_le
          simp only [List.length_cons] at hcard_le
          omega

theorem take_eq_take_min (l : Bucket) (k : Nat) : l.take k = l.take (min k l.length) := by
  rcases le_total k l.length with h | h
  · rw [min_eq_left h]
  · rw [min_eq_right h, List.take_of_length_le h, List.take_length]

theorem drop_eq_drop_min (l : Bucket) (k : Nat) : l.drop k = l.drop (min k l.length) := by
  rcases le_total k l.length with h | h
  · rw [min_eq_left h]
  · rw [min_eq_right h, List.drop_eq_nil_of_le h, List.drop_length]

theorem coe_take_le (l : Bucket) (k : Nat) :
    (↑(l.take k) : Multiset (String × Rat)) ≤ ↑l :=
  (List.take_sublist k l).subperm

theorem bucket_selection_bound (s : Bucket) (c : Nat)
    (A B : Multiset (String × Rat)) (hs : SortedD s)
    (hA : Multiset.card A = min c s.length) (hAB : A + B ≤ ↑s) :
    eSum A + eSum B ≤ bSum (s.take c) + bSum ((s.drop c).take (Multiset.card B)) ∧
      Multiset.card B ≤ (s.drop c).length := by
  have hcard : Multiset.card A + Multiset.card B ≤ s.length := by
    have h1 := Multiset.card_le_card hAB
    simpa [Multiset.card_add] using h1
  have hdl : (s.drop c).length = s.length - c := List.length_drop c s
  have hBle : Multiset.card B ≤ (s.drop c).length := by
    rw [hdl]
    omega
  refine ⟨?_, hBle⟩
  have hk : min c s.length + Multiset.card B = min (min c s.length + Multiset.card B) s.length := by
    rw [hdl] at hBle
    omega
  have hcAB : Multiset.card (A + B) = min (min c s.length + Multiset.card B) s.length := by
    rw [Multiset.card_add, hA, ← hk]
  have hmain := eSum_le_bSum_take s (min c s.length + Multiset.card B) (A + B) hs hAB hcAB
  rw [eSum_add] at hmain
  rw [List.take_add s (min c s.length) (Multiset.card B), bSum_append] at hmain
  rw [← take_eq_take_min, ← drop_eq_drop_min] at hmain
  exact hmain

theorem sum_map_add_split {α : Type} (L : List α) (f g : α → Rat) :
    (L.map (fun x => f x + g x)).sum = (L.map f).sum + (L.map g).sum := by
  induction L with
  | nil => simp
  | cons x t ih => simp [ih]; ring

theorem eSum_flatten (Ls : List Bucket) :
    eSum ↑Ls.flatten = (Ls.map bSum).sum := by
  induction Ls with
  | nil => simp [eSum]
  | cons b t ih =>
      rw [List.flatten_cons]
      have hco : (↑(b ++ t.flatten) : Multiset (String × Rat)) = ↑b + ↑t.flatten := by
        simp
      rw [hco, eSum_add, eSum_coe, ih]
      simp

theorem coe_flatten_mono (L : List (Bucket × Bucket))
    (h : ∀ x ∈ L, (↑x.1 : Multiset (String × Rat)) ≤ ↑x.2) :
    (↑(L.map Prod.fst).flatten : Multiset (String × Rat)) ≤ ↑(L.map Prod.snd).flatten := by
  induction L with
  | nil => simp
  | cons x t ih =>
      simp only [List.map_cons, List.flatten_cons]
      have hco1 : (↑(x.1 ++ (t.map Prod.fst).flatten) : Multiset (String × Rat)) =
          ↑x.1 + ↑(t.map Prod.fst).flatten := by simp
      have hco2 : (↑(x.2 ++ (t.map Prod.snd).flatten) : Multiset (String × Rat)) =
          ↑x.2 + ↑(t.map Prod.snd).flatten := by simp
      rw [hco1, hco2]
      exact add_le_add (h x (List.mem_cons_self x t))
        (ih (fun y hy => h y (List.mem_cons_of_mem x hy)))

/-- Family bound: in a family of singular buckets with caps plus one flex
drawing from the leftovers, the greedy value dominates every selection that
uses the same cardinalities. -/
theorem familyA (L : List (Nat × Bucket × Multiset (String × Rat) × Multiset (String × Rat)))
    (f : Nat) (pool : Bucket)
    (hsorted : ∀ x ∈ L, SortedD x.2.1)
    (hA : ∀ x ∈ L, Multiset.card x.2.2.1 = min x.1 x.2.1.length)
    (hAB : ∀ x ∈ L, x.2.2.1 + x.2.2.2 ≤ ↑x.2.1)
    (hps : SortedD pool)
    (hpp : (↑pool : Multiset (String × Rat)) = ↑(L.map (fun x => x.2.1.drop x.1)).flatten)
    (hf : (L.map (fun x => Multiset.card x.2.2.2)).sum = min f pool.length) :
    (L.map (fun x => eSum x.2.2.1 + eSum x.2.2.2)).sum ≤
      (L.map (fun x => bSum (x.2.1.take x.1))).sum + bSum (pool.take f) := by
  have hstep : ∀ x ∈ L, eSum x.2.2.1 + eSum x.2.2.2 ≤
      bSum (x.2.1.take x.1) + bSum ((x.2.1.drop x.1).take (Multiset.card x.2.2.2)) :=
    fun x hx => (bucket_selection_bound x.2.1 x.1 x.2.2.1 x.2.2.2
      (hsorted x hx) (hA x hx) (hAB x hx)).1
  have hcards : ∀ x ∈ L, Multiset.card x.2.2.2 ≤ (x.2.1.drop x.1).length :=
    fun x hx => (bucket_selection_bound x.2.1 x.1 x.2.2.1 x.2.2.2
      (hsorted x hx) (hA x hx) (hAB x hx)).2
  have h1 : (L.map (fun x => eSum x.2.2.1 + eSum x.2.2.2)).sum ≤
      (L.map (fun x => bSum (x.2.1.take x.1) +
        bSum ((x.2.1.drop x.1).take (Multiset.card x.2.2.2)))).sum :=
    List.sum_le_sum hstep
  refine le_trans h1 ?_
  rw [sum_map_add_split]
  refine add_le_add_left ?_ _
  -- the concatenated flex extras form an exact selection from the pool
  have hTE : (L.map (fun x => bSum ((x.2.1.drop x.1).take (Multiset.card x.2.2.2)))).sum =
      eSum ↑(L.map (fun x => (x.2.1.drop x.1).take (Multiset.card x.2.2.2))).flatten := by
    rw [eSum_flatten, List.map_map]
    rfl
  rw [hTE]
  have hle : (↑(L.map (fun x => (x.2.1.drop x.1).take (Multiset.card x.2.2.2))).flatten :
      Multiset (String × Rat)) ≤ ↑pool := by
    rw [hpp]
    have h2 := coe_flatten_mono (L.map (fun x =>
      ((x.2.1.drop x.1).take (Multiset.card x.2.2.2), x.2.1.drop x.1)))
      (by
        intro y hy
        simp only [List.mem_map] at hy
        obtain ⟨x, hx, rfl⟩ := hy
        exact coe_take_le _ _)
    simpa [List.map_map, Function.comp] using h2
  have hcard : Multiset.card (↑(L.map (fun x =>
      (x.2.1.drop x.1).take (Multiset.card x.2.2.2))).flatten : Multiset (String × Rat)) =
      min f pool.length := by
    rw [← hf]
    simp only [Multiset.coe_card, List.length_flatten, List.map_map]
    congr 1
    refine List.map_congr_left ?_
    intro x hx
    simp only [Function.comp]
    rw [List.length_take]
    exact min_eq_left (hcards x hx)
  exact eSum_le_bSum_take pool f _ hps hle hcard

/-! ### Multiset decomposition and single-swap patching -/

theorem le_add_decomp (T A B : Multiset (String × Rat)) (h : T ≤ A + B) :
    ∃ U V, U ≤ A ∧ V ≤ B ∧ T = U + V := by
  refine ⟨T ∩ A, T - T ∩ A, Multiset.inter_le_right T A, ?_, ?_⟩
  · rw [Multiset.le_iff_count] at h ⊢
    intro z
    have hz := h z
    rw [Multiset.count_sub, Multiset.count_inter]
    simp only [Multiset.count_add] at hz
    omega
  · have hle : T ∩ A ≤ T := Multiset.inter_le_left T A
    rw [add_comm]
    exact (tsub_add_cancel_of_le hle).symm

theorem le_drops_decomp (L : List (Nat × Bucket)) (T : Multiset (String × Rat))
    (h : T ≤ ↑(L.map (fun x => x.2.drop x.1)).flatten) :
    ∃ parts : List (Multiset (String × Rat)),
      List.Forall₂ (fun P x => P ≤ (↑((x : Nat × Bucket).2.drop x.1) :
        Multiset (String × Rat))) parts L ∧
      T = parts.sum := by
  induction L generalizing T with
  | nil =>
      refine ⟨[], .nil, ?_⟩
      have h0 : T ≤ 0 := by simpa using h
      simpa using le_antisymm h0 (Multiset.zero_le T)
  | cons b t ih =>
      rw [List.map_cons, List.flatten_cons] at h
      have hco : (↑(b.2.drop b.1 ++ (t.map (fun x => x.2.drop x.1)).flatten) :
          Multiset (String × Rat)) = ↑(b.2.drop b.1) +
            ↑(t.map (fun x => x.2.drop x.1)).flatten := by simp
      rw [hco] at h
      obtain ⟨U, V, hU, hV, rfl⟩ := le_add_decomp _ _ _ h
      obtain ⟨parts, hp, rfl⟩ := ih V hV
      exact ⟨U :: parts, .cons hU hp, by simp⟩

theorem eSum_erase (A : Multiset (String × Rat)) (e : String × Rat) (h : e ∈ A) :
    eSum A = e.2 + eSum (A.erase e) := by
  conv_lhs => rw [← Multiset.cons_erase h]
  rw [eSum_cons]

/-- Patch a per-bucket selection across a one-element value increase of the
bucket: the new bucket admits a selection of the same shape with at least
the same value. -/
theorem patch_selection (x y : Bucket) (A B : Multiset (String × Rat))
    (hAB : A + B ≤ ↑x)
    (hrel : (↑x : Multiset (String × Rat)) = ↑y ∨
      ∃ e e2 : String × Rat, e.2 ≤ e2.2 ∧ e ∈ x ∧
        e2 ::ₘ ((↑x : Multiset (String × Rat)).erase e) = ↑y) :
    ∃ A2 B2, A2 + B2 ≤ ↑y ∧ Multiset.card A2 = Multiset.card A ∧
      Multiset.card B2 = Multiset.card B ∧ eSum A + eSum B ≤ eSum A2 + eSum B2 := by
  rcases hrel with heq | ⟨e, e2, hee, hex, hy⟩
  · exact ⟨A, B, heq ▸ hAB, rfl, rfl, le_refl _⟩
  · by_cases heA : e ∈ A
    · refine ⟨e2 ::ₘ A.erase e, B, ?_, ?_, rfl, ?_⟩
      · rw [← hy]
        have h1 : A.erase e + B ≤ (↑x : Multiset (String × Rat)).erase e := by
          have h2 : (A + B).erase e ≤ (↑x : Multiset (String × Rat)).erase e :=
            Multiset.erase_le_erase e hAB
          rwa [Multiset.erase_add_left_pos B heA] at h2
        calc (e2 ::ₘ A.erase e) + B = e2 ::ₘ (A.erase e + B) := by rw [Multiset.cons_add]
          _ ≤ e2 ::ₘ ((↑x : Multiset (String × Rat)).erase e) := Multiset.cons_le_cons e2 h1
      · rw [Multiset.card_cons, Multiset.card_erase_of_mem heA, Nat.pred_eq_sub_one]
        have hpos : 0 < Multiset.card A := Multiset.card_pos_iff_exists_mem.mpr ⟨e, heA⟩
        omega
      · rw [eSum_cons, eSum_erase A e heA]
        linarith
    · by_cases heB : e ∈ B
      · refine ⟨A, e2 ::ₘ B.erase e, ?_, rfl, ?_, ?_⟩
        · rw [← hy]
          have h1 : A + B.erase e ≤ (↑x : Multiset (String × Rat)).erase e := by
            have h2 : (A + B).erase e ≤ (↑x : Multiset (String × Rat)).erase e :=
              Multiset.erase_le_erase e hAB
            rwa [add_comm, Multiset.erase_add_left_pos A heB, add_comm] at h2
          calc A + (e2 ::ₘ B.erase e) = e2 ::ₘ (A + B.erase e) := by
                rw [Multiset.add_cons]
            _ ≤ e2 ::ₘ ((↑x : Multiset (String × Rat)).erase e) := Multiset.cons_le_cons e2 h1
        · rw [Multiset.card_cons, Multiset.card_erase_of_mem heB, Nat.pred_eq_sub_one]
          have hpos : 0 < Multiset.card B := Multiset.card_pos_iff_exists_mem.mpr ⟨e, heB⟩
          omega
        · rw [eSum_cons, eSum_erase B e heB]
          linarith
      · refine ⟨A, B, ?_, rfl, rfl, le_refl _⟩
        rw [← hy]
        have he : e ∉ A + B := by
          rw [Multiset.mem_add]
          rintro (h | h)
          exacts [heA h, heB h]
        have h1 : A + B ≤ (↑x : Multiset (String × Rat)).erase e := by
          rw [Multiset.le_iff_count] at hAB ⊢
          intro z
          rcases eq_or_ne z e with rfl | hz
          · simp [Multiset.count_eq_zero_of_not_mem he]
          · rw [Multiset.count_erase_of_ne hz]
            exact hAB z
        exact le_trans h1 (Multiset.le_cons_self _ _)

theorem eSum_list_sum (parts : List (Multiset (String × Rat))) :
    eSum parts.sum = (parts.map eSum).sum := by
  induction parts with
  | nil => simp [eSum]
  | cons P t ih => simp [eSum_add, ih]

/-- Build the greedy per-bucket selections of a family: the sorted prefix of
each bucket plus the decomposition of the flex take over the leftovers. -/
theorem greedy_fam (L : List (Nat × Bucket)) (parts : List (Multiset (String × Rat)))
    (hp : List.Forall₂ (fun P x => P ≤ (↑(x.2.drop x.1) : Multiset (String × Rat))) parts L) :
    ∃ Fam : List (Nat × Bucket × Multiset (String × Rat) × Multiset (String × Rat)),
      Fam.map (fun z => (z.1, z.2.1)) = L ∧
      Fam.map (fun z => z.2.2.2) = parts ∧
      (∀ z ∈ Fam, z.2.2.1 = (↑(z.2.1.take z.1) : Multiset (String × Rat))) ∧
      (∀ z ∈ Fam, z.2.2.1 + z.2.2.2 ≤ (↑z.2.1 : Multiset (String × Rat))) := by
  induction hp with
  | nil => exact ⟨[], rfl, rfl, by simp, by simp⟩
  | @cons P x pt lt hPx hrest ih =>
      obtain ⟨Fam, h1, h2, h3, h4⟩ := ih
      refine ⟨(x.1, x.2, (↑(x.2.take x.1) : Multiset (String × Rat)), P) :: Fam, ?_, ?_, ?_, ?_⟩
      · simp [h1]
      · simp [h2]
      · intro z hz
        rcases List.mem_cons.mp hz with rfl | hz
        · rfl
        · exact h3 z hz
      · intro z hz
        rcases List.mem_cons.mp hz with rfl | hz
        · have hsplit : (↑(x.2.take x.1) : Multiset (String × Rat)) + ↑(x.2.drop x.1) =
              ↑x.2 := by
            have h5 : ((x.2.take x.1 ++ x.2.drop x.1 : List (String × Rat)) :
                Multiset (String × Rat)) = ↑x.2 := by
              rw [List.take_append_drop]
            rw [← h5]
            simp
          calc (↑(x.2.take x.1) : Multiset (String × Rat)) + P ≤
              (↑(x.2.take x.1) : Multiset (String × Rat)) + ↑(x.2.drop x.1) :=
                add_le_add_left hPx _
            _ = ↑x.2 := hsplit
        · exact h4 z hz

/-- Transport a family's selections across pointwise value-increase swaps of
the buckets. -/
theorem patch_fam (Fam : List (Nat × Bucket × Multiset (String × Rat) × Multiset (String × Rat)))
    (L2 : List (Nat × Bucket))
    (hrel : List.Forall₂ (fun z y => z.1 = y.1 ∧ z.2.1.length = y.2.length ∧
        ((↑z.2.1 : Multiset (String × Rat)) = ↑y.2 ∨
         ∃ e e2 : String × Rat, e.2 ≤ e2.2 ∧ e ∈ z.2.1 ∧
           e2 ::ₘ ((↑z.2.1 : Multiset (String × Rat)).erase e) = ↑y.2)) Fam L2)
    (hsel : ∀ z ∈ Fam, z.2.2.1 + z.2.2.2 ≤ (↑z.2.1 : Multiset (String × Rat)))
    (hcards : ∀ z ∈ Fam, Multiset.card z.2.2.1 = min z.1 z.2.1.length) :
    ∃ Fam2 : List (Nat × Bucket × Multiset (String × Rat) × Multiset (String × Rat)),
      Fam2.map (fun z => (z.1, z.2.1)) = L2 ∧
      (∀ z ∈ Fam2, z.2.2.1 + z.2.2.2 ≤ (↑z.2.1 : Multiset (String × Rat))) ∧
      (∀ z ∈ Fam2, Multiset.card z.2.2.1 = min z.1 z.2.1.length) ∧
      (Fam2.map (fun z => Multiset.card z.2.2.2)).sum =
        (Fam.map (fun z => Multiset.card z.2.2.2)).sum ∧
      (Fam.map (fun z => eSum z.2.2.1 + eSum z.2.2.2)).sum ≤
        (Fam2.map (fun z => eSum z.2.2.1 + eSum z.2.2.2)).sum := by
  induction hrel with
  | nil => exact ⟨[], rfl, by simp, by simp, rfl, le_refl _⟩
  | @cons z y ft lt hzy hrest ih =>
      have hz0 : z ∈ z :: ft := List.mem_cons_self z ft
      obtain ⟨Fam2, h1, h2, h3, h4, h5⟩ := ih
        (fun w hw => hsel w (List.mem_cons_of_mem z hw))
        (fun w hw => hcards w (List.mem_cons_of_mem z hw))
      obtain ⟨A2, B2, hAB2, hcA2, hcB2, hsum2⟩ :=
        patch_selection z.2.1 y.2 z.2.2.1 z.2.2.2 (hsel z hz0) hzy.2.2
      refine ⟨(y.1, y.2, A2, B2) :: Fam2, ?_, ?_, ?_, ?_, ?_⟩
      · simp [h1]
      · intro w hw
        rcases List.mem_cons.mp hw with rfl | hw
        · exact hAB2
        · exact h2 w hw
      · intro w hw
        rcases List.mem_cons.mp hw with rfl | hw
        · have := hcards z hz0
          simp only []
          rw [hcA2, this, hzy.1, hzy.2.1]
        · exact h3 w hw
      · simp only [List.map_cons, List.sum_cons, h4, hcB2]
      · simp only [List.map_cons, List.sum_cons]
        exact add_le_add hsum2 h5

theorem card_list_sum (parts : List (Multiset (String × Rat))) :
    Multiset.card parts.sum = (parts.map Multiset.card).sum := by
  induction parts with
  | nil => simp
  | cons P t ih => simp [ih]

theorem forall₂_sum_eq {α β : Type} (L1 : List α) (L2 : List β) (f : α → Rat) (g : β → Rat)
    (h : List.Forall₂ (fun x y => f x = g y) L1 L2) : (L1.map f).sum = (L2.map g).sum := by
  induction h with
  | nil => rfl
  | cons hxy hrest ih => simp [hxy, ih]

theorem forall₂_nat_sum_eq {α β : Type} (L1 : List α) (L2 : List β)
    (f : α → Nat) (g : β → Nat)
    (h : List.Forall₂ (fun x y => f x = g y) L1 L2) : (L1.map f).sum = (L2.map g).sum := by
  induction h with
  | nil => rfl
  | cons hxy hrest ih => simp [hxy, ih]

/-- Family monotonicity: replacing bucket contents by pointwise value-increase
swaps cannot decrease the greedy value of the family (singular takes plus the
flex take from the pooled leftovers). -/
theorem familyB (L L2 : List (Nat × Bucket)) (f : Nat) (pool pool2 : Bucket)
    (hrel : List.Forall₂ (fun x y => x.1 = y.1 ∧ x.2.length = y.2.length ∧
        ((↑x.2 : Multiset (String × Rat)) = ↑y.2 ∨
         ∃ e e2 : String × Rat, e.2 ≤ e2.2 ∧ e ∈ x.2 ∧
           e2 ::ₘ ((↑x.2 : Multiset (String × Rat)).erase e) = ↑y.2)) L L2)
    (hsorted2 : ∀ y ∈ L2, SortedD y.2)
    (hps : SortedD pool) (hps2 : SortedD pool2)
    (hpp : (↑pool : Multiset (String × Rat)) = ↑(L.map (fun x => x.2.drop x.1)).flatten)
    (hpp2 : (↑pool2 : Multiset (String × Rat)) = ↑(L2.map (fun x => x.2.drop x.1)).flatten) :
    (L.map (fun x => bSum (x.2.take x.1))).sum + bSum (pool.take f) ≤
      (L2.map (fun x => bSum (x.2.take x.1))).sum + bSum (pool2.take f) := by
  -- decompose the flex take of the original pool over the leftovers
  have hFle : (↑(pool.take f) : Multiset (String × Rat)) ≤
      ↑(L.map (fun x => x.2.drop x.1)).flatten := by
    rw [← hpp]
    exact coe_take_le pool f
  obtain ⟨parts, hparts, hFeq⟩ := le_drops_decomp L _ hFle
  obtain ⟨Fam, hF1, hF2, hF3, hF4⟩ := greedy_fam L parts hparts
  -- the original family value is realised by the greedy selections
  have hcardsA : ∀ z ∈ Fam, Multiset.card z.2.2.1 = min z.1 z.2.1.length := by
    intro z hz
    rw [hF3 z hz]
    simp [List.length_take, Nat.min_comm]
  have hrelF : List.Forall₂ (fun z y => z.1 = y.1 ∧ z.2.1.length = y.2.length ∧
      ((↑z.2.1 : Multiset (String × Rat)) = ↑y.2 ∨
       ∃ e e2 : String × Rat, e.2 ≤ e2.2 ∧ e ∈ z.2.1 ∧
         e2 ::ₘ ((↑z.2.1 : Multiset (String × Rat)).erase e) = ↑y.2))
      Fam L2 := by
    rw [← hF1] at hrel
    exact List.forall₂_map_left_iff.mp hrel
  obtain ⟨Fam2, hG1, hG2, hG3, hG4, hG5⟩ := patch_fam Fam L2 hrelF hF4 hcardsA
  -- pool lengths agree
  have hsumlen : (L.map (fun x => (x.2.drop x.1).length)).sum =
      (L2.map (fun x => (x.2.drop x.1).length)).sum := by
    refine forall₂_nat_sum_eq L L2 _ _ ?_
    refine hrel.imp ?_
    intro x y hxy
    rw [List.length_drop, List.length_drop, hxy.1, hxy.2.1]
  have hlen : pool.length = pool2.length := by
    have e1 := congrArg Multiset.card hpp
    have e2 := congrArg Multiset.card hpp2
    simp only [Multiset.coe_card, List.length_flatten, List.map_map, Function.comp] at e1 e2
    rw [e1, e2]
    exact hsumlen
  -- cardinality of the flex selections
  have hfcard : (Fam2.map (fun z => Multiset.card z.2.2.2)).sum = min f pool2.length := by
    rw [hG4]
    have e3 : (Fam.map (fun z => Multiset.card z.2.2.2)).sum =
        (parts.map Multiset.card).sum := by
      rw [← hF2, List.map_map]
      rfl
    rw [e3, ← card_list_sum, ← hFeq]
    simp only [Multiset.coe_card, List.length_take]
    rw [hlen]
  -- apply the family bound to the patched selections
  have hfinal := familyA Fam2 f pool2
    (by
      intro z hz
      have hym : (z.1, z.2.1) ∈ L2 := by
        rw [← hG1]
        exact List.mem_map_of_mem _ hz
      exact hsorted2 _ hym)
    hG3 hG2 hps2
    (by
      rw [hpp2, ← hG1, List.map_map]
      rfl)
    hfcard
  -- rewrite both sides through the family representations
  have hL : (L.map (fun x => bSum (x.2.take x.1))).sum + bSum (pool.take f) =
      (Fam.map (fun z => eSum z.2.2.1 + eSum z.2.2.2)).sum := by
    rw [sum_map_add_split]
    congr 1
    · rw [← hF1, List.map_map]
      have e5 : Fam.map ((fun x => bSum (x.2.take x.1)) ∘ (fun z => (z.1, z.2.1))) =
          Fam.map (fun z => eSum z.2.2.1) := by
        refine List.map_congr_left ?_
        intro z hz
        simp only [Function.comp]
        rw [hF3 z hz, eSum_coe]
      rw [e5]
    · have e4 : (Fam.map (fun z => eSum z.2.2.2)).sum = (parts.map eSum).sum := by
        rw [← hF2, List.map_map]
        rfl
      rw [e4, ← eSum_list_sum, ← hFeq, eSum_coe]
  have hL2 : (Fam2.map (fun z => bSum (z.2.1.take z.1))).sum =
      (L2.map (fun x => bSum (x.2.take x.1))).sum := by
    rw [← hG1, List.map_map]
    rfl
  rw [hL]
  refine le_trans hG5 ?_
  rw [← hL2]
  exact hfinal

/-! ### Characterisation of the player loop -/

theorem scan_fst (l : List Player) : ∀ acc : Pools × Rat,
    (List.foldl scanStep acc l).1 = List.foldl add_player acc.1 l := by
  induction l with
  | nil => intro acc; rfl
  | cons pl t ih =>
      intro acc
      rw [List.foldl_cons, List.foldl_cons, ih]
      rfl

theorem foldl_scanStep_snd (l : List Player) : ∀ acc : Pools × Rat,
    (List.foldl scanStep acc l).2 = acc.2 + ((starters l).map Player.points).sum := by
  induction l with
  | nil => intro acc; simp [starters]
  | cons pl t ih =>
      intro acc
      rw [List.foldl_cons, ih]
      by_cases h : pl.slot_position ∈ ["BE", "IR"]
      · have h1 : starters (pl :: t) = starters t := by
          simp only [List.mem_cons, List.not_mem_nil, or_false] at h
          rcases h with h | h <;> simp [starters, h]
        have h2 : (scanStep acc pl).2 = acc.2 := by
          simp [scanStep, h]
        rw [h1, h2]
      · have h1 : starters (pl :: t) = pl :: starters t := by
          simp only [List.mem_cons, List.not_mem_nil, or_false, not_or] at h
          simp [starters, h.1, h.2]
        have h2 : (scanStep acc pl).2 = acc.2 + pl.points := by
          simp [scanStep, h]
        rw [h1, h2]
        simp only [List.map_cons, List.sum_cons]
        ring

theorem actual_score_starters (l : List Player) :
    actual_score_of l = ((starters l).map Player.points).sum := by
  rw [actual_score_of, scan_lineup, foldl_scanStep_snd]
  simp

theorem buck_add_player_pos (pp : Pools) (pl : Player)
    (h : pl.name ∉ (buck pp pl.position).map Prod.fst) :
    buck (add_player pp pl) pl.position = buck pp pl.position ++ [(pl.name, pl.points)] := by
  rw [add_player]
  cases hd : dlookup pl.position pp with
  | some b =>
      have hb : buck pp pl.position = b := by rw [buck, hd]; rfl
      rw [hb] at h ⊢
      rw [buck, dlookup_dinsert_self]
      have hfresh : dlookup pl.name b = none := (dlookup_eq_none_iff _ _).mpr h
      rw [Option.getD_some, dinsert_fresh _ _ _ hfresh]
  | none =>
      have hb : buck pp pl.position = [] := by rw [buck, hd]; rfl
      rw [hb, buck, dlookup_dinsert_self]
      rfl

theorem buck_add_player_ne (pp : Pools) (pl : Player) (q : String)
    (h : pl.position ≠ q) : buck (add_player pp pl) q = buck pp q := by
  rw [add_player]
  cases hd : dlookup pl.position pp with
  | some b => exact buck_dinsert_ne pp q pl.position _ h
  | none => exact buck_dinsert_ne pp q pl.position _ h

theorem pbucket_cons_pos (pl : Player) (l : List Player) (p : String)
    (h : pl.position = p) :
    pbucket (pl :: l) p = (pl.name, pl.points) :: pbucket l p := by
  simp [pbucket, h, entryOf]

theorem pbucket_cons_ne (pl : Player) (l : List Player) (p : String)
    (h : pl.position ≠ p) : pbucket (pl :: l) p = pbucket l p := by
  simp [pbucket, h]

theorem buck_foldl_add_player (l : List Player) : ∀ pp : Pools,
    (∀ pl ∈ l, ∀ q, pl.name ∉ (buck pp q).map Prod.fst) →
    (l.map Player.name).Nodup →
    ∀ p, buck (List.foldl add_player pp l) p = buck pp p ++ pbucket l p := by
  induction l with
  | nil =>
      intro pp hfresh hnodup p
      simp [pbucket]
  | cons pl t ih =>
      intro pp hfresh hnodup p
      have hplfresh : pl.name ∉ (buck pp pl.position).map Prod.fst :=
        hfresh pl (List.mem_cons_self pl t) pl.position
      have hnodup' : (t.map Player.name).Nodup := by
        simp only [List.map_cons, List.nodup_cons] at hnodup
        exact hnodup.2
      have hne : pl.name ∉ t.map Player.name := by
        simp only [List.map_cons, List.nodup_cons] at hnodup
        exact hnodup.1
      have hfresh' : ∀ pl' ∈ t, ∀ q, pl'.name ∉ (buck (add_player pp pl) q).map Prod.fst := by
        intro pl' h' q
        by_cases hq : pl.position = q
        · subst hq
          rw [buck_add_player_pos pp pl hplfresh]
          simp only [List.map_append, List.mem_append, List.map_cons, List.map_nil,
            List.mem_singleton, List.not_mem_nil]
          rintro (hmem | hmem)
          · exact hfresh pl' (List.mem_cons_of_mem pl h') _ hmem
          · exact hne (hmem ▸ List.mem_map_of_mem Player.name h')
        · rw [buck_add_player_ne pp pl q hq]
          exact hfresh pl' (List.mem_cons_of_mem pl h') q
      rw [List.foldl_cons, ih (add_player pp pl) hfresh' hnodup' p]
      by_cases hp : pl.position = p
      · rw [← hp, buck_add_player_pos pp pl hplfresh, hp, pbucket_cons_pos pl t p hp]
        simp
      · rw [buck_add_player_ne pp pl p hp, pbucket_cons_ne pl t p hp]

theorem buck_scan (l : List Player) (hnodup : (l.map Player.name).Nodup) (p : String) :
    buck (scan_lineup l).1 p = pbucket l p := by
  rw [scan_lineup, scan_fst]
  have h := buck_foldl_add_player l [] (by intro pl _ q; simp [buck, dlookup]) hnodup p
  simpa [buck, dlookup] using h

/-! ### Characterisation of the singular phase -/

theorem fill_singular_fst_general (cfg : Counts) : ∀ (bb pp : Pools),
    (∀ sc ∈ cfg, dlookup sc.1 bb = none) → (cfg.map Prod.fst).Nodup →
    (List.foldl singStep (bb, pp) cfg).1 =
      bb ++ cfg.map (fun sc => (sc.1, (sortDesc (buck pp sc.1)).take sc.2)) := by
  induction cfg with
  | nil => intro bb pp _ _; simp
  | cons sc t ih =>
      intro bb pp hfresh hnodup
      have hscfresh : dlookup sc.1 bb = none := hfresh sc (List.mem_cons_self sc t)
      have hnodup' : (t.map Prod.fst).Nodup := by
        simp only [List.map_cons, List.nodup_cons] at hnodup
        exact hnodup.2
      have hscne : sc.1 ∉ t.map Prod.fst := by
        simp only [List.map_cons, List.nodup_cons] at hnodup
        exact hnodup.1
      rw [List.foldl_cons]
      cases hd : dlookup sc.1 pp with
      | some b =>
          have hstep : singStep (bb, pp) sc =
              (dinsert sc.1 ((sortDesc b).take sc.2) bb,
               dinsert sc.1 ((sortDesc b).drop sc.2) pp) := by
            rw [singStep, hd]
          rw [hstep]
          have hfresh' : ∀ sc' ∈ t, dlookup sc'.1 (dinsert sc.1 ((sortDesc b).take sc.2) bb)
              = none := by
            intro sc' h'
            have hne : sc.1 ≠ sc'.1 := by
              intro hcon
              exact hscne (hcon ▸ List.mem_map_of_mem Prod.fst h')
            rw [dlookup_dinsert_ne _ _ _ _ hne]
            exact hfresh sc' (List.mem_cons_of_mem sc h')
          rw [ih _ _ hfresh' hnodup']
          have hbuckeq : ∀ sc' ∈ t,
              buck (dinsert sc.1 ((sortDesc b).drop sc.2) pp) sc'.1 = buck pp sc'.1 := by
            intro sc' h'
            refine buck_dinsert_ne pp sc'.1 sc.1 _ ?_
            intro hcon
            exact hscne (hcon ▸ List.mem_map_of_mem Prod.fst h')
          have hmap : t.map (fun sc' =>
              (sc'.1, (sortDesc (buck (dinsert sc.1 ((sortDesc b).drop sc.2) pp) sc'.1)).take sc'.2)) =
              t.map (fun sc' => (sc'.1, (sortDesc (buck pp sc'.1)).take sc'.2)) := by
            refine List.map_congr_left ?_
            intro sc' h'
            rw [hbuckeq sc' h']
          rw [hmap]
          have hb : buck pp sc.1 = b := by rw [buck, hd]; rfl
          rw [dinsert_fresh _ _ _ hscfresh]
          simp [hb]
      | none =>
          have hstep : singStep (bb, pp) sc = (dinsert sc.1 [] bb, pp) := by
            rw [singStep, hd]
          rw [hstep]
          have hfresh' : ∀ sc' ∈ t, dlookup sc'.1 (dinsert sc.1 [] bb) = none := by
            intro sc' h'
            have hne : sc.1 ≠ sc'.1 := by
              intro hcon
              exact hscne (hcon ▸ List.mem_map_of_mem Prod.fst h')
            rw [dlookup_dinsert_ne _ _ _ _ hne]
            exact hfresh sc' (List.mem_cons_of_mem sc h')
          rw [ih _ _ hfresh' hnodup']
          have hb : buck pp sc.1 = [] := by rw [buck, hd]; rfl
          rw [dinsert_fresh _ _ _ hscfresh]
          simp [hb, sortDesc]

theorem fill_singular_snd_frame (cfg : Counts) : ∀ (bb pp : Pools) (q : String),
    q ∉ cfg.map Prod.fst →
    buck (List.foldl singStep (bb, pp) cfg).2 q = buck pp q := by
  induction cfg with
  | nil => intro bb pp q _; rfl
  | cons sc t ih =>
      intro bb pp q hq
      have hne : sc.1 ≠ q := by
        intro hcon
        exact hq (hcon ▸ List.mem_map_of_mem Prod.fst (List.mem_cons_self sc t))
      have hq' : q ∉ t.map Prod.fst := by
        intro hcon
        exact hq (List.mem_cons_of_mem _ hcon)
      rw [List.foldl_cons]
      cases hd : dlookup sc.1 pp with
      | some b =>
          have hstep : singStep (bb, pp) sc =
              (dinsert sc.1 ((sortDesc b).take sc.2) bb,
               dinsert sc.1 ((sortDesc b).drop sc.2) pp) := by
            rw [singStep, hd]
          rw [hstep, ih _ _ q hq', buck_dinsert_ne pp q sc.1 _ hne]
      | none =>
          have hstep : singStep (bb, pp) sc = (dinsert sc.1 [] bb, pp) := by
            rw [singStep, hd]
          rw [hstep, ih _ _ q hq']

theorem fill_singular_snd_general (cfg : Counts) : ∀ (bb pp : Pools) (q : String),
    (cfg.map Prod.fst).Nodup →
    buck (List.foldl singStep (bb, pp) cfg).2 q =
      (match dlookup q cfg with
       | some c => (sortDesc (buck pp q)).drop c
       | none => buck pp q) := by
  induction cfg with
  | nil => intro bb pp q _; rfl
  | cons sc t ih =>
      intro bb pp q hnodup
      have hnodup' : (t.map Prod.fst).Nodup := by
        simp only [List.map_cons, List.nodup_cons] at hnodup
        exact hnodup.2
      have hscne : sc.1 ∉ t.map Prod.fst := by
        simp only [List.map_cons, List.nodup_cons] at hnodup
        exact hnodup.1
      rw [List.foldl_cons]
      by_cases hq : sc.1 = q
      · subst hq
        have hlk : dlookup sc.1 (sc :: t) = some sc.2 := by
          rw [dlookup, if_pos rfl]
        rw [hlk]
        cases hd : dlookup sc.1 pp with
        | some b =>
            have hstep : singStep (bb, pp) sc =
                (dinsert sc.1 ((sortDesc b).take sc.2) bb,
                 dinsert sc.1 ((sortDesc b).drop sc.2) pp) := by
              rw [singStep, hd]
            rw [hstep, fill_singular_snd_frame t _ _ sc.1 hscne,
              buck_dinsert_self, buck, hd]
            rfl
        | none =>
            have hstep : singStep (bb, pp) sc = (dinsert sc.1 [] bb, pp) := by
              rw [singStep, hd]
            have hb : buck pp sc.1 = [] := by rw [buck, hd]; rfl
            rw [hstep, fill_singular_snd_frame t _ _ sc.1 hscne, hb]
            simp [sortDesc]
      · have hlk : dlookup q (sc :: t) = dlookup q t := by
          rw [dlookup, if_neg hq]
        rw [hlk]
        cases hd : dlookup sc.1 pp with
        | some b =>
            have hstep : singStep (bb, pp) sc =
                (dinsert sc.1 ((sortDesc b).take sc.2) bb,
                 dinsert sc.1 ((sortDesc b).drop sc.2) pp) := by
              rw [singStep, hd]
            rw [hstep, ih _ _ q hnodup', buck_dinsert_ne pp q sc.1 _ hq]
        | none =>
            have hstep : singStep (bb, pp) sc = (dinsert sc.1 [] bb, pp) := by
              rw [singStep, hd]
            rw [hstep, ih _ _ q hnodup']

/-! ### Singular slots are untouched by the flex phases -/

theorem foldl_flexStep_frame_sing (cfg : Counts) (s : String) (hs : flexCond s = false) :
    ∀ st : Pools × Pools, dlookup s (List.foldl flexStep st cfg).1 = dlookup s st.1 := by
  induction cfg with
  | nil => intro st; rfl
  | cons sc t ih =>
      intro st
      rw [List.foldl_cons]
      rw [ih (flexStep st sc)]
      by_cases hc : flexCond sc.1
      · have hne : sc.1 ≠ s := by
          intro hcon
          rw [hcon, hs] at hc
          exact Bool.noConfusion hc
        rw [flexStep, if_pos hc]
        exact dlookup_dinsert_ne s sc.1 _ st.1 hne
      · rw [flexStep, if_neg hc]

theorem fill_flex_frame_sing (cfg : Counts) (s : String) (hs : flexCond s = false)
    (st : Pools × Pools) : dlookup s (fill_flex cfg st).1 = dlookup s st.1 := by
  rw [fill_flex]
  exact foldl_flexStep_frame_sing cfg s hs st

theorem fill_op_frame_sing (cfg : Counts) (s : String) (hs : s ≠ "OP")
    (st : Pools × Pools) : dlookup s (fill_op cfg st).1 = dlookup s st.1 := by
  rw [fill_op]
  cases dlookup "OP" cfg with
  | some n => exact dlookup_dinsert_ne s "OP" _ st.1 (Ne.symm hs)
  | none => rfl

theorem fill_dp_frame_sing (cfg : Counts) (s : String) (hs : s ≠ "DP")
    (st : Pools × Pools) : dlookup s (fill_dp cfg st).1 = dlookup s st.1 := by
  rw [fill_dp]
  cases dlookup "DP" cfg with
  | some n => exact dlookup_dinsert_ne s "DP" _ st.1 (Ne.symm hs)
  | none => rfl

theorem dlookup_map_entry {β : Type} (cfg : Counts) (k : String)
    (g : String × Nat → β) :
    dlookup k (cfg.map (fun sc => (sc.1, g sc))) =
      (match dlookup k cfg with
       | some c => some (g (k, c))
       | none => none) := by
  induction cfg with
  | nil => rfl
  | cons sc t ih =>
      rw [List.map_cons, dlookup, dlookup]
      by_cases hk : sc.1 = k
      · rw [if_pos hk, if_pos hk]
        subst hk
        rfl
      · rw [if_neg hk, if_neg hk, ih]

/-- The final `best_lineup` entry of a slot that is neither flex-shaped nor
`OP`/`DP` is exactly the singular phase's pick: the top `count` of the
bucket of players carrying that position. -/
theorem best_lineup_sing_entry (lineup : List Player) (cfg : Counts) (s : String) (c : Nat)
    (hnames : (lineup.map Player.name).Nodup)
    (hkeys : (cfg.map Prod.fst).Nodup)
    (hsing : isSingKey s = true)
    (hc : dlookup s cfg = some c) :
    dlookup s (best_lineup_of lineup cfg) =
      some ((sortDesc (pbucket lineup s)).take c) := by
  have hflex : flexCond s = false := by
    rcases h : flexCond s with hf | ht
    · rfl
    · rw [isSingKey, h] at hsing
      simp at hsing
  have hop : s ≠ "OP" := by
    intro hcon
    rw [isSingKey, hcon] at hsing
    simp at hsing
  have hdp : s ≠ "DP" := by
    intro hcon
    rw [isSingKey, hcon] at hsing
    simp at hsing
  rw [best_lineup_of, fill_dp_frame_sing cfg s hdp, fill_op_frame_sing cfg s hop,
    fill_flex_frame_sing cfg s hflex]
  rw [fill_singular, fill_singular_fst_general cfg [] _ (by intro sc _; rfl) hkeys,
    List.nil_append, dlookup_map_entry cfg s
      (fun sc => (sortDesc (buck (scan_lineup lineup).1 sc.1)).take sc.2), hc]
  simp [buck_scan lineup hnames s]

theorem pool_fold_filter (pp : Pools) (flexes : List String) : ∀ acc : Bucket,
    flexes.foldl (fun pool fp =>
      match dlookup fp pp with
      | some b => dmerge pool b
      | none => pool) acc =
    (flexes.filter (fun fp => (dlookup fp pp).isSome)).foldl (fun pool fp =>
      match dlookup fp pp with
      | some b => dmerge pool b
      | none => pool) acc := by
  induction flexes with
  | nil => intro acc; rfl
  | cons fp t ih =>
      intro acc
      cases hd : dlookup fp pp with
      | some b =>
          have hf : (fp :: t).filter (fun fp => (dlookup fp pp).isSome) =
              fp :: t.filter (fun fp => (dlookup fp pp).isSome) := by
            simp [List.filter_cons, hd]
          rw [hf, List.foldl_cons, List.foldl_cons]
          exact ih _
      | none =>
          have hf : (fp :: t).filter (fun fp => (dlookup fp pp).isSome) =
              t.filter (fun fp => (dlookup fp pp).isSome) := by
            simp [List.filter_cons, hd]
          have hstep : (match dlookup fp pp with
              | some b => dmerge acc b
              | none => acc) = acc := by
            rw [hd]
          rw [hf, List.foldl_cons, hstep]
          exact ih _

/-- C10: the slot-filling phases are total.  A singular slot naming a
position with no player on the roster is assigned the empty bucket by the
singular phase; `best_flex` silently skips flex components with no bucket
(it computes the same result as if they were filtered away); and the only
possible failure of the whole call is the final percentage division, which
fails exactly when the optimal score is zero. -/
theorem C10_slot_filling_total (lineup : List Player) (cfg : Counts) (s : String) (c : Nat)
    (flexes : List String) (pool : Pools) (num : Nat)
    (hnames : (lineup.map Player.name).Nodup)
    (hkeys : (cfg.map Prod.fst).Nodup)
    (hc : dlookup s cfg = some c)
    (hnone : pbucket lineup s = []) :
    dlookup s (fill_singular cfg (scan_lineup lineup).1).1 = some [] ∧
    best_flex flexes pool num =
      best_flex (flexes.filter (fun fp => (dlookup fp pool).isSome)) pool num ∧
    ((optimal_lineup_score lineup cfg).isSome ↔ best_score_of lineup cfg ≠ 0) := by
  refine ⟨?_, ?_, ?_⟩
  · rw [fill_singular, fill_singular_fst_general cfg [] _ (by intro sc _; rfl) hkeys,
      List.nil_append, dlookup_map_entry cfg s
        (fun sc => (sortDesc (buck (scan_lineup lineup).1 sc.1)).take sc.2), hc]
    simp [buck_scan lineup hnames s, hnone, sortDesc]
  · rw [best_flex, best_flex, pool_fold_filter pool flexes]
  · rw [optimal_lineup_score]
    by_cases h : best_score_of lineup cfg = 0
    · simp [h]
    · simp [h]

/-- C10 witness: configured kicker slot with no kicker on the roster, a flex
list with a missing bucket, and a call whose optimal score is nonzero. -/
theorem C10_slot_filling_total_witness :
    dlookup "K" (fill_singular [("QB", 1), ("K", 1)]
        (scan_lineup [⟨"q", "QB", "QB", 3, 0, 0⟩]).1).1 = some [] ∧
    best_flex ["RB", "WR"] [("RB", [("r", 1)])] 1 =
      best_flex (["RB", "WR"].filter
        (fun fp => (dlookup fp [("RB", [("r", 1)])]).isSome)) [("RB", [("r", 1)])] 1 := by
  have h := C10_slot_filling_total [⟨"q", "QB", "QB", 3, 0, 0⟩] [("QB", 1), ("K", 1)]
    "K" 1 ["RB", "WR"] [("RB", [("r", 1)])] 1
    (by decide) (by decide) (by decide) (by decide)
  exact ⟨h.1, h.2.1⟩

/-! ### Name bookkeeping for the conservation invariant -/

theorem poolNames_nil : poolNames [] = [] := rfl

theorem poolNames_cons (e : String × Bucket) (t : Pools) :
    poolNames (e :: t) = e.2.map Prod.fst ++ poolNames t := by
  simp [poolNames]

theorem coe_append_ms (a b : List String) :
    (↑(a ++ b) : Multiset String) = ↑a + ↑b := by simp

theorem poolNames_dinsert_ms (d : Pools) (k : String) (v : Bucket) :
    (↑(poolNames (dinsert k v d)) : Multiset String) + ↑((buck d k).map Prod.fst) =
      ↑(poolNames d) + ↑(v.map Prod.fst) := by
  induction d with
  | nil =>
      simp [poolNames, dinsert, buck, dlookup]
  | cons e t ih =>
      by_cases he : e.1 = k
      · have hb : buck (e :: t) k = e.2 := by
          rw [buck, dlookup, if_pos he]
          rfl
        have hd : dinsert k v (e :: t) = (k, v) :: t := by
          rw [dinsert, if_pos he]
        rw [hd, hb, poolNames_cons, poolNames_cons, coe_append_ms, coe_append_ms]
        abel
      · have hb : buck (e :: t) k = buck t k := by
          rw [buck, dlookup, if_neg he]
          rfl
        have hd : dinsert k v (e :: t) = e :: dinsert k v t := by
          rw [dinsert, if_neg he]
        rw [hd, hb, poolNames_cons, poolNames_cons, coe_append_ms, coe_append_ms]
        calc (↑(e.2.map Prod.fst) : Multiset String) + ↑(poolNames (dinsert k v t)) +
              ↑((buck t k).map Prod.fst)
            = (↑(e.2.map Prod.fst) : Multiset String) + ((↑(poolNames (dinsert k v t)) :
              Multiset String) + ↑((buck t k).map Prod.fst)) := by abel
          _ = (↑(e.2.map Prod.fst) : Multiset String) + ((↑(poolNames t) : Multiset String) +
              ↑(v.map Prod.fst)) := by rw [ih]
          _ = (↑(e.2.map Prod.fst) : Multiset String) + ↑(poolNames t) + ↑(v.map Prod.fst) := by
              abel

theorem names_dinsert_le {α : Type} (d : List (String × α)) (k : String) (v : α) :
    (↑((dinsert k v d).map Prod.fst) : Multiset String) ≤ ↑(d.map Prod.fst) + ↑([k]) := by
  induction d with
  | nil => simp [dinsert]
  | cons e t ih =>
      by_cases he : e.1 = k
      · rw [dinsert, if_pos he]
        simp only [List.map_cons]
        have h1 : (↑(k :: t.map Prod.fst) : Multiset String) = k ::ₘ ↑(t.map Prod.fst) := rfl
        have h2 : (↑(e.1 :: t.map Prod.fst) : Multiset String) = e.1 ::ₘ ↑(t.map Prod.fst) := rfl
        rw [h1, h2, he]
        exact self_le_add_right _ _
      · rw [dinsert, if_neg he]
        simp only [List.map_cons]
        have h1 : (↑(e.1 :: (dinsert k v t).map Prod.fst) : Multiset String) =
            e.1 ::ₘ ↑((dinsert k v t).map Prod.fst) := rfl
        have h2 : (↑(e.1 :: t.map Prod.fst) : Multiset String) =
            e.1 ::ₘ ↑(t.map Prod.fst) := rfl
        rw [h1, h2]
        calc e.1 ::ₘ (↑((dinsert k v t).map Prod.fst) : Multiset String)
            ≤ e.1 ::ₘ ((↑(t.map Prod.fst) : Multiset String) + ↑([k])) :=
              Multiset.cons_le_cons e.1 ih
          _ = e.1 ::ₘ (↑(t.map Prod.fst) : Multiset String) + ↑([k]) := by
              rw [Multiset.cons_add]

theorem buck_names_le (d : Pools) (k : String) :
    (↑((buck d k).map Prod.fst) : Multiset String) ≤ ↑(poolNames d) := by
  induction d with
  | nil => simp [buck, dlookup, poolNames]
  | cons e t ih =>
      by_cases he : e.1 = k
      · have hb : buck (e :: t) k = e.2 := by
          rw [buck, dlookup, if_pos he]
          rfl
        rw [hb, poolNames_cons, coe_append_ms]
        exact self_le_add_right _ _
      · have hb : buck (e :: t) k = buck t k := by
          rw [buck, dlookup, if_neg he]
          rfl
        rw [hb, poolNames_cons, coe_append_ms]
        exact le_trans ih (le_add_self)

theorem poolNames_scan_le (l : List Player) : ∀ pp : Pools,
    (↑(poolNames (List.foldl add_player pp l)) : Multiset String) ≤
      ↑(poolNames pp) + ↑(l.map Player.name) := by
  induction l with
  | nil => intro pp; simp
  | cons pl t ih =>
      intro pp
      rw [List.foldl_cons]
      refine le_trans (ih (add_player pp pl)) ?_
      have hstep : (↑(poolNames (add_player pp pl)) : Multiset String) ≤
          ↑(poolNames pp) + ↑([pl.name]) := by
        rw [add_player]
        cases hd : dlookup pl.position pp with
        | some b =>
            have hkey := poolNames_dinsert_ms pp pl.position (dinsert pl.name pl.points b)
            have hb : buck pp pl.position = b := by rw [buck, hd]; rfl
            rw [hb] at hkey
            have hv : (↑((dinsert pl.name pl.points b).map Prod.fst) : Multiset String) ≤
                ↑(b.map Prod.fst) + ↑([pl.name]) := names_dinsert_le b pl.name pl.points
            have h2 : (↑(poolNames (dinsert pl.position (dinsert pl.name pl.points b) pp)) :
                Multiset String) + ↑(b.map Prod.fst) ≤
                ↑(poolNames pp) + (↑(b.map Prod.fst) + ↑([pl.name])) := by
              rw [hkey]
              exact add_le_add_left hv _
            have h3 : (↑(poolNames pp) : Multiset String) + (↑(b.map Prod.fst) + ↑([pl.name]))
                = ↑(poolNames pp) + ↑([pl.name]) + ↑(b.map Prod.fst) := by abel
            rw [h3] at h2
            exact le_of_add_le_add_right h2
        | none =>
            have hkey := poolNames_dinsert_ms pp pl.position [(pl.name, pl.points)]
            have hb : buck pp pl.position = [] := by rw [buck, hd]; rfl
            rw [hb] at hkey
            simp only [List.map_nil, Multiset.coe_nil, add_zero] at hkey
            rw [hkey]
            rfl
      have hmono : (↑(poolNames (add_player pp pl)) : Multiset String) + ↑(t.map Player.name) ≤
          ↑(poolNames pp) + ↑([pl.name]) + ↑(t.map Player.name) :=
        add_le_add_right hstep _
      refine le_trans hmono ?_
      have heq : (↑(poolNames pp) : Multiset String) + ↑([pl.name]) + ↑(t.map Player.name) =
          ↑(poolNames pp) + ↑((pl :: t).map Player.name) := by
        simp only [List.map_cons]
        have h4 : (↑(pl.name :: t.map Player.name) : Multiset String) =
            pl.name ::ₘ ↑(t.map Player.name) := rfl
        rw [h4]
        have h6 : (↑([pl.name]) : Multiset String) + ↑(t.map Player.name) =
            pl.name ::ₘ ↑(t.map Player.name) := by
          have h7 : (↑([pl.name]) : Multiset String) = {pl.name} := rfl
          rw [h7, Multiset.singleton_add]
        rw [add_assoc, h6]
      rw [heq]

theorem nodup_poolNames_scan (l : List Player) (h : (l.map Player.name).Nodup) :
    (poolNames (scan_lineup l).1).Nodup := by
  rw [scan_lineup, scan_fst]
  have hle := poolNames_scan_le l []
  simp only [poolNames_nil, Multiset.coe_nil, zero_add] at hle
  have hnd : (↑(l.map Player.name) : Multiset String).Nodup := by
    rw [Multiset.coe_nodup]
    exact h
  have h7 := Multiset.nodup_of_le hle hnd
  rw [Multiset.coe_nodup] at h7
  exact h7

theorem names_dinsert_mem {α : Type} (d : List (String × α)) (k n : String) (v : α)
    (h : n ∈ (dinsert k v d).map Prod.fst) : n = k ∨ n ∈ d.map Prod.fst := by
  induction d with
  | nil => simpa [dinsert] using h
  | cons e t ih =>
      by_cases he : e.1 = k
      · rw [dinsert, if_pos he] at h
        simp only [List.map_cons, List.mem_cons] at h ⊢
        rcases h with h | h
        · exact Or.inl h
        · exact Or.inr (Or.inr h)
      · rw [dinsert, if_neg he] at h
        simp only [List.map_cons, List.mem_cons] at h ⊢
        rcases h with h | h
        · exact Or.inr (Or.inl h)
        · rcases ih h with h | h
          · exact Or.inl h
          · exact Or.inr (Or.inr h)

theorem nodup_names_dinsert {α : Type} (d : List (String × α)) (k : String) (v : α)
    (h : (d.map Prod.fst).Nodup) : ((dinsert k v d).map Prod.fst).Nodup := by
  induction d with
  | nil => simp [dinsert]
  | cons e t ih =>
      by_cases he : e.1 = k
      · rw [dinsert, if_pos he]
        simp only [List.map_cons, List.nodup_cons] at h ⊢
        rw [← he]
        exact h
      · rw [dinsert, if_neg he]
        simp only [List.map_cons, List.nodup_cons] at h ⊢
        refine ⟨?_, ih h.2⟩
        intro hcon
        rcases names_dinsert_mem t k e.1 v hcon with hcon | hcon
        · exact he hcon
        · exact h.1 hcon

theorem mem_names_dmerge (acc b : Bucket) (n : String)
    (h : n ∈ (dmerge acc b).map Prod.fst) :
    n ∈ acc.map Prod.fst ∨ n ∈ b.map Prod.fst := by
  rw [dmerge] at h
  induction b generalizing acc with
  | nil => exact Or.inl h
  | cons e t ih =>
      rw [List.foldl_cons] at h
      rcases ih (dinsert e.1 e.2 acc) h with h2 | h2
      · rcases names_dinsert_mem acc e.1 n e.2 h2 with h3 | h3
        · refine Or.inr ?_
          rw [h3]
          exact List.mem_map_of_mem Prod.fst (List.mem_cons_self e t)
        · exact Or.inl h3
      · refine Or.inr ?_
        simp only [List.map_cons, List.mem_cons]
        exact Or.inr h2

theorem nodup_names_dmerge (acc b : Bucket) (h : (acc.map Prod.fst).Nodup) :
    ((dmerge acc b).map Prod.fst).Nodup := by
  rw [dmerge]
  induction b generalizing acc with
  | nil => exact h
  | cons e t ih =>
      rw [List.foldl_cons]
      exact ih (dinsert e.1 e.2 acc) (nodup_names_dinsert acc e.1 e.2 h)

theorem mem_pool_fold_names (flexes : List String) (pp : Pools) : ∀ (acc : Bucket) (n : String),
    n ∈ ((flexes.foldl (fun pool fp =>
      match dlookup fp pp with
      | some b => dmerge pool b
      | none => pool) acc).map Prod.fst) →
    n ∈ acc.map Prod.fst ∨ n ∈ poolNames pp := by
  induction flexes with
  | nil => intro acc n h; exact Or.inl h
  | cons fp t ih =>
      intro acc n h
      rw [List.foldl_cons] at h
      cases hd : dlookup fp pp with
      | some b =>
          rw [hd] at h
          rcases ih (dmerge acc b) n h with h2 | h2
          · rcases mem_names_dmerge acc b n h2 with h3 | h3
            · exact Or.inl h3
            · refine Or.inr ?_
              have hble := buck_names_le pp fp
              have hb : buck pp fp = b := by rw [buck, hd]; rfl
              rw [hb] at hble
              have h4 : n ∈ (↑(poolNames pp) : Multiset String) :=
                Multiset.mem_of_le hble (by simpa using h3)
              simpa using h4
          · exact Or.inr h2
      | none =>
          rw [hd] at h
          exact ih acc n h

theorem nodup_pool_fold_names (flexes : List String) (pp : Pools) : ∀ acc : Bucket,
    (acc.map Prod.fst).Nodup →
    ((flexes.foldl (fun pool fp =>
      match dlookup fp pp with
      | some b => dmerge pool b
      | none => pool) acc).map Prod.fst).Nodup := by
  induction flexes with
  | nil => intro acc h; exact h
  | cons fp t ih =>
      intro acc h
      cases hd : dlookup fp pp with
      | some b =>
          have hstep : (match dlookup fp pp with
              | some b => dmerge acc b
              | none => acc) = dmerge acc b := by rw [hd]
          rw [List.foldl_cons, hstep]
          exact ih (dmerge acc b) (nodup_names_dmerge acc b h)
      | none =>
          have hstep : (match dlookup fp pp with
              | some b => dmerge acc b
              | none => acc) = acc := by rw [hd]
          rw [List.foldl_cons, hstep]
          exact ih acc h

theorem le_of_nodup_subset (l m : List String) (hnd : l.Nodup)
    (hsub : ∀ n ∈ l, n ∈ m) : (↑l : Multiset String) ≤ ↑m := by
  rw [Multiset.le_iff_count]
  intro n
  by_cases hn : n ∈ l
  · have h1 : (↑l : Multiset String).count n ≤ 1 := by
      rw [Multiset.coe_count]
      exact List.nodup_iff_count_le_one.mp hnd n
    have h2 : 1 ≤ (↑m : Multiset String).count n := by
      rw [Multiset.coe_count]
      exact List.count_pos_iff_mem.mpr (hsub n hn)
    omega
  · have h1 : (↑l : Multiset String).count n = 0 := by
      rw [Multiset.coe_count]
      exact List.count_eq_zero_of_not_mem hn
    omega

theorem bucket_filter_names (b : Bucket) (g : String → Bool) :
    (b.filter (fun e => g e.1)).map Prod.fst = (b.map Prod.fst).filter g := by
  induction b with
  | nil => rfl
  | cons e t ih =>
      by_cases hg : g e.1
      · rw [List.filter_cons, if_pos (by simpa using hg), List.map_cons, List.map_cons,
          List.filter_cons, if_pos (by simpa using hg), ih]
      · rw [List.filter_cons, if_neg (by simpa using hg), List.map_cons,
          List.filter_cons, if_neg (by simpa using hg), ih]

theorem poolNames_map_filter (pp : Pools) (g : String → Bool) :
    poolNames (pp.map (fun pb => (pb.1, pb.2.filter (fun e => g e.1)))) =
      (poolNames pp).filter g := by
  induction pp with
  | nil => rfl
  | cons e t ih =>
      rw [List.map_cons, poolNames_cons, poolNames_cons, List.filter_append, ih,
        bucket_filter_names]

theorem foldl_preserve {σ α : Type} (P : σ → Prop) (f : σ → α → σ)
    (hf : ∀ s a, P s → P (f s a)) : ∀ (l : List α) (s : σ), P s → P (List.foldl f s l) := by
  intro l
  induction l with
  | nil => intro s hs; exact hs
  | cons a t ih =>
      intro s hs
      rw [List.foldl_cons]
      exact ih (f s a) (hf s a hs)

theorem inv_singStep (bb pp : Pools) (sc : String × Nat)
    (h : ((↑(poolNames bb) : Multiset String) + ↑(poolNames pp)).Nodup) :
    ((↑(poolNames (singStep (bb, pp) sc).1) : Multiset String) +
      ↑(poolNames (singStep (bb, pp) sc).2)).Nodup := by
  cases hd : dlookup sc.1 pp with
  | some b =>
      have hstep : singStep (bb, pp) sc = (dinsert sc.1 ((sortDesc b).take sc.2) bb,
          dinsert sc.1 ((sortDesc b).drop sc.2) pp) := by rw [singStep, hd]
      rw [hstep]
      have hA := poolNames_dinsert_ms bb sc.1 ((sortDesc b).take sc.2)
      have hB := poolNames_dinsert_ms pp sc.1 ((sortDesc b).drop sc.2)
      have hbpp : buck pp sc.1 = b := by rw [buck, hd]; rfl
      rw [hbpp] at hB
      have hsplit : (↑(((sortDesc b).take sc.2).map Prod.fst) : Multiset String) +
          ↑(((sortDesc b).drop sc.2).map Prod.fst) = ↑(b.map Prod.fst) := by
        rw [← coe_append_ms, ← List.map_append, List.take_append_drop]
        exact Multiset.coe_eq_coe.mpr ((sortDesc_perm b).map Prod.fst)
      have hkey : ((↑(poolNames (dinsert sc.1 ((sortDesc b).take sc.2) bb)) :
            Multiset String) + ↑(poolNames (dinsert sc.1 ((sortDesc b).drop sc.2) pp))) +
            (↑((buck bb sc.1).map Prod.fst) + ↑(b.map Prod.fst)) =
          ((↑(poolNames bb) : Multiset String) + ↑(poolNames pp)) + ↑(b.map Prod.fst) := by
        calc ((↑(poolNames (dinsert sc.1 ((sortDesc b).take sc.2) bb)) : Multiset String) +
              ↑(poolNames (dinsert sc.1 ((sortDesc b).drop sc.2) pp))) +
              (↑((buck bb sc.1).map Prod.fst) + ↑(b.map Prod.fst))
            = ((↑(poolNames (dinsert sc.1 ((sortDesc b).take sc.2) bb)) : Multiset String) +
              ↑((buck bb sc.1).map Prod.fst)) +
              ((↑(poolNames (dinsert sc.1 ((sortDesc b).drop sc.2) pp)) : Multiset String) +
              ↑(b.map Prod.fst)) := by abel
          _ = ((↑(poolNames bb) : Multiset String) +
              ↑(((sortDesc b).take sc.2).map Prod.fst)) +
              ((↑(poolNames pp) : Multiset String) +
              ↑(((sortDesc b).drop sc.2).map Prod.fst)) := by rw [hA, hB]
          _ = ((↑(poolNames bb) : Multiset String) + ↑(poolNames pp)) +
              ((↑(((sortDesc b).take sc.2).map Prod.fst) : Multiset String) +
              ↑(((sortDesc b).drop sc.2).map Prod.fst)) := by abel
          _ = ((↑(poolNames bb) : Multiset String) + ↑(poolNames pp)) +
              ↑(b.map Prod.fst) := by rw [hsplit]
      have hkey2 : ((↑(poolNames (dinsert sc.1 ((sortDesc b).take sc.2) bb)) :
            Multiset String) + ↑(poolNames (dinsert sc.1 ((sortDesc b).drop sc.2) pp))) +
            ↑((buck bb sc.1).map Prod.fst) =
          (↑(poolNames bb) : Multiset String) + ↑(poolNames pp) := by
        have h6 : ((↑(poolNames (dinsert sc.1 ((sortDesc b).take sc.2) bb)) :
              Multiset String) + ↑(poolNames (dinsert sc.1 ((sortDesc b).drop sc.2) pp))) +
              (↑((buck bb sc.1).map Prod.fst) + ↑(b.map Prod.fst)) =
            (((↑(poolNames (dinsert sc.1 ((sortDesc b).take sc.2) bb)) :
              Multiset String) + ↑(poolNames (dinsert sc.1 ((sortDesc b).drop sc.2) pp))) +
              ↑((buck bb sc.1).map Prod.fst)) + ↑(b.map Prod.fst) := by abel
        rw [h6] at hkey
        exact add_right_cancel hkey
      have hle : (↑(poolNames (dinsert sc.1 ((sortDesc b).take sc.2) bb)) :
            Multiset String) + ↑(poolNames (dinsert sc.1 ((sortDesc b).drop sc.2) pp)) ≤
          (↑(poolNames bb) : Multiset String) + ↑(poolNames pp) :=
        Multiset.le_iff_exists_add.mpr ⟨_, hkey2.symm⟩
      exact Multiset.nodup_of_le hle h
  | none =>
      have hstep : singStep (bb, pp) sc = (dinsert sc.1 [] bb, pp) := by rw [singStep, hd]
      rw [hstep]
      have hA := poolNames_dinsert_ms bb sc.1 []
      simp only [List.map_nil, Multiset.coe_nil, add_zero] at hA
      have hle : (↑(poolNames (dinsert sc.1 [] bb)) : Multiset String) +
          ↑(poolNames pp) ≤ (↑(poolNames bb) : Multiset String) + ↑(poolNames pp) := by
        refine add_le_add_right ?_ _
        exact Multiset.le_iff_exists_add.mpr ⟨_, hA.symm⟩
      exact Multiset.nodup_of_le hle h

theorem inv_flex_update (bb pp : Pools) (k : String) (best : Bucket)
    (h : ((↑(poolNames bb) : Multiset String) + ↑(poolNames pp)).Nodup)
    (hbn : (best.map Prod.fst).Nodup)
    (hbm : ∀ n ∈ best.map Prod.fst, n ∈ poolNames pp) :
    ((↑(poolNames (dinsert k best bb)) : Multiset String) +
      ↑(poolNames (pp.map (fun pb =>
        (pb.1, pb.2.filter (fun e => (dlookup e.1 best).isNone)))))).Nodup := by
  have hA := poolNames_dinsert_ms bb k best
  have hBeq : poolNames (pp.map (fun pb =>
      (pb.1, pb.2.filter (fun e => (dlookup e.1 best).isNone)))) =
      (poolNames pp).filter (fun n => (dlookup n best).isNone) :=
    poolNames_map_filter pp (fun n => (dlookup n best).isNone)
  rw [hBeq]
  obtain ⟨hAnd, hPNnd, hdisjAP⟩ := Multiset.nodup_add.mp h
  have hbestle : (↑(best.map Prod.fst) : Multiset String) ≤ ↑(poolNames pp) :=
    le_of_nodup_subset _ _ hbn hbm
  have hA'le : (↑(poolNames (dinsert k best bb)) : Multiset String) ≤
      ↑(poolNames bb) + ↑(best.map Prod.fst) :=
    Multiset.le_iff_exists_add.mpr ⟨_, hA.symm⟩
  have hABnd : ((↑(poolNames bb) : Multiset String) + ↑(best.map Prod.fst)).Nodup := by
    rw [Multiset.nodup_add]
    refine ⟨hAnd, by rwa [Multiset.coe_nodup], ?_⟩
    rw [Multiset.disjoint_left]
    intro a ha hmem
    exact (Multiset.disjoint_left.mp hdisjAP) ha (Multiset.mem_of_le hbestle hmem)
  have hA'nd := Multiset.nodup_of_le hA'le hABnd
  have hB'nd : (↑((poolNames pp).filter (fun n => (dlookup n best).isNone)) :
      Multiset String).Nodup := by
    rw [Multiset.coe_nodup]
    refine List.Nodup.filter _ ?_
    rwa [Multiset.coe_nodup] at hPNnd
  rw [Multiset.nodup_add]
  refine ⟨hA'nd, hB'nd, ?_⟩
  rw [Multiset.disjoint_left]
  intro a ha hmem
  have ha2 := Multiset.mem_of_le hA'le ha
  rw [Multiset.mem_add] at ha2
  have hmem2 : a ∈ (poolNames pp).filter (fun n => (dlookup n best).isNone) := by
    simpa using hmem
  have hmem3 : a ∈ poolNames pp := List.mem_of_mem_filter hmem2
  have hcond : (dlookup a best).isNone = true := by
    have h8 := List.of_mem_filter hmem2
    simpa using h8
  rcases ha2 with ha2 | ha2
  · exact (Multiset.disjoint_left.mp hdisjAP) ha2 (by simpa using hmem3)
  · have h9 : dlookup a best = none := by
      cases hcase : dlookup a best with
      | none => rfl
      | some v => rw [hcase] at hcond; simp at hcond
    rw [dlookup_eq_none_iff] at h9
    exact h9 (by simpa using ha2)

theorem inv_jobStep (bb pp : Pools) (j : String × List String × Nat)
    (h : ((↑(poolNames bb) : Multiset String) + ↑(poolNames pp)).Nodup) :
    ((↑(poolNames (jobStep (bb, pp) j).1) : Multiset String) +
      ↑(poolNames (jobStep (bb, pp) j).2)).Nodup := by
  have hpoolnd : ((j.2.1.foldl (fun pool fp =>
      match dlookup fp pp with
      | some b => dmerge pool b
      | none => pool) []).map Prod.fst).Nodup :=
    nodup_pool_fold_names j.2.1 pp [] (by simp)
  have hperm : ((sortDesc (j.2.1.foldl (fun pool fp =>
      match dlookup fp pp with
      | some b => dmerge pool b
      | none => pool) [])).map Prod.fst).Perm
      ((j.2.1.foldl (fun pool fp =>
      match dlookup fp pp with
      | some b => dmerge pool b
      | none => pool) []).map Prod.fst) :=
    (sortDesc_perm _).map Prod.fst
  have hsortnd := hperm.nodup_iff.mpr hpoolnd
  have hbn : (((sortDesc (j.2.1.foldl (fun pool fp =>
      match dlookup fp pp with
      | some b => dmerge pool b
      | none => pool) [])).take j.2.2).map Prod.fst).Nodup := by
    refine List.Nodup.sublist ?_ hsortnd
    exact (List.take_sublist _ _).map Prod.fst
  have hbm : ∀ n ∈ (((sortDesc (j.2.1.foldl (fun pool fp =>
      match dlookup fp pp with
      | some b => dmerge pool b
      | none => pool) [])).take j.2.2).map Prod.fst), n ∈ poolNames pp := by
    intro n hn
    have h1 : n ∈ ((sortDesc (j.2.1.foldl (fun pool fp =>
        match dlookup fp pp with
        | some b => dmerge pool b
        | none => pool) [])).map Prod.fst) :=
      ((List.take_sublist _ _).map Prod.fst).subset hn
    have h2 := hperm.mem_iff.mp h1
    rcases mem_pool_fold_names j.2.1 pp [] n h2 with h3 | h3
    · simp at h3
    · exact h3
  exact inv_flex_update bb pp j.1 _ h hbn hbm

theorem inv_jobStep_st (st : Pools × Pools) (j : String × List String × Nat)
    (h : ((↑(poolNames st.1) : Multiset String) + ↑(poolNames st.2)).Nodup) :
    ((↑(poolNames (jobStep st j).1) : Multiset String) +
      ↑(poolNames (jobStep st j).2)).Nodup := by
  obtain ⟨bb, pp⟩ := st
  exact inv_jobStep bb pp j h

/-- C6: with names unique within the lineup, every player appears at most
once across all buckets of the final optimal allocation — no player is
counted twice, within the singular phase, across the singular and flex
phases, or across two flex slots. -/
theorem C6_conservation (lineup : List Player) (starter_counts : Counts)
    (hnames : (lineup.map Player.name).Nodup) :
    (poolNames (best_lineup_of lineup starter_counts)).Nodup := by
  have hstep_sing : ∀ (st : Pools × Pools) (sc : String × Nat),
      ((↑(poolNames st.1) : Multiset String) + ↑(poolNames st.2)).Nodup →
      ((↑(poolNames (singStep st sc).1) : Multiset String) +
        ↑(poolNames (singStep st sc).2)).Nodup := by
    intro st sc hst
    obtain ⟨bb, pp⟩ := st
    exact inv_singStep bb pp sc hst
  have hstep_flex : ∀ (st : Pools × Pools) (sc : String × Nat),
      ((↑(poolNames st.1) : Multiset String) + ↑(poolNames st.2)).Nodup →
      ((↑(poolNames (flexStep st sc).1) : Multiset String) +
        ↑(poolNames (flexStep st sc).2)).Nodup := by
    intro st sc hst
    by_cases hc : flexCond sc.1
    · have heq : flexStep st sc = jobStep st (sc.1, splitSlash sc.1, sc.2) := by
        rw [flexStep, if_pos hc]
        rfl
      rw [heq]
      exact inv_jobStep_st st _ hst
    · rw [flexStep, if_neg hc]
      exact hst
  have h0 : ((↑(poolNames (([] : Pools), (scan_lineup lineup).1).1) : Multiset String) +
      ↑(poolNames (([] : Pools), (scan_lineup lineup).1).2)).Nodup := by
    simp only [poolNames_nil, Multiset.coe_nil, zero_add]
    rw [Multiset.coe_nodup]
    exact nodup_poolNames_scan lineup hnames
  have h1 := foldl_preserve
    (fun st : Pools × Pools =>
      ((↑(poolNames st.1) : Multiset String) + ↑(poolNames st.2)).Nodup)
    singStep hstep_sing starter_counts ([], (scan_lineup lineup).1) h0
  have h2 := foldl_preserve
    (fun st : Pools × Pools =>
      ((↑(poolNames st.1) : Multiset String) + ↑(poolNames st.2)).Nodup)
    flexStep hstep_flex starter_counts _ h1
  have h3 : ((↑(poolNames (fill_op starter_counts (fill_flex starter_counts
      (fill_singular starter_counts (scan_lineup lineup).1))).1) : Multiset String) +
      ↑(poolNames (fill_op starter_counts (fill_flex starter_counts
      (fill_singular starter_counts (scan_lineup lineup).1))).2)).Nodup := by
    cases hd : dlookup "OP" starter_counts with
    | some n =>
        have heq : fill_op starter_counts (fill_flex starter_counts
            (fill_singular starter_counts (scan_lineup lineup).1)) =
            jobStep (fill_flex starter_counts
              (fill_singular starter_counts (scan_lineup lineup).1))
              ("OP", ["RB", "WR", "TE", "QB"], n) := by
          rw [fill_op, hd]
          rfl
        rw [heq]
        exact inv_jobStep_st _ _ h2
    | none =>
        have heq : fill_op starter_counts (fill_flex starter_counts
            (fill_singular starter_counts (scan_lineup lineup).1)) =
            fill_flex starter_counts (fill_singular starter_counts (scan_lineup lineup).1) := by
          rw [fill_op, hd]
        rw [heq]
        exact h2
  have h4 : ((↑(poolNames (best_lineup_of lineup starter_counts)) : Multiset String) +
      ↑(poolNames (fill_dp starter_counts (fill_op starter_counts (fill_flex starter_counts
      (fill_singular starter_counts (scan_lineup lineup).1)))).2)).Nodup := by
    rw [best_lineup_of]
    cases hd : dlookup "DP" starter_counts with
    | some n =>
        have heq : fill_dp starter_counts (fill_op starter_counts (fill_flex starter_counts
            (fill_singular starter_counts (scan_lineup lineup).1))) =
            jobStep (fill_op starter_counts (fill_flex starter_counts
              (fill_singular starter_counts (scan_lineup lineup).1)))
              ("DP", ["DT", "DE", "LB", "CB", "S"], n) := by
          rw [fill_dp, hd]
          rfl
        rw [heq]
        exact inv_jobStep_st _ _ h3
    | none =>
        have heq : fill_dp starter_counts (fill_op starter_counts (fill_flex starter_counts
            (fill_singular starter_counts (scan_lineup lineup).1))) =
            fill_op starter_counts (fill_flex starter_counts
              (fill_singular starter_counts (scan_lineup lineup).1)) := by
          rw [fill_dp, hd]
        rw [heq]
        exact h3
  have h5 := (Multiset.nodup_add.mp h4).1
  rwa [Multiset.coe_nodup] at h5

/-- C6 witness: the Scenario A roster with distinct names. -/
theorem C6_conservation_witness :
    (poolNames (best_lineup_of
      [⟨"q", "QB", "QB", 12, 0, 0⟩, ⟨"r1", "RB", "RB", 10, 0, 0⟩,
       ⟨"r2", "RB", "BE", 8, 0, 0⟩]
      [("QB", 1), ("RB", 1), ("RB/WR/TE", 1)])).Nodup :=
  C6_conservation _ _ (by decide)

/-! ### Generic list and dictionary helpers for the flex-phase characterisation -/

theorem filter_sublist_of_imp {α : Type} (l : List α) (P Q : α → Bool)
    (h : ∀ a ∈ l, P a = true → Q a = true) : (l.filter P).Sublist (l.filter Q) := by
  induction l with
  | nil => simp
  | cons a t ih =>
      have iht := ih (fun b hb => h b (List.mem_cons_of_mem a hb))
      rw [List.filter_cons, List.filter_cons]
      by_cases hp : P a = true
      · rw [if_pos hp, if_pos (h a (List.mem_cons_self a t) hp)]
        exact iht.cons₂ a
      · rw [if_neg hp]
        by_cases hq : Q a = true
        · rw [if_pos hq]
          exact iht.cons a
        · rw [if_neg hq]
          exact iht

theorem sum_map_filter_split {α : Type} (L : List α) (P : α → Bool) (f : α → Rat) :
    (L.map f).sum = ((L.filter P).map f).sum + ((L.filter (fun x => !P x)).map f).sum := by
  induction L with
  | nil => simp
  | cons a t ih =>
      cases hP : P a with
      | true =>
          simp [List.filter_cons, hP, ih]
          ring
      | false =>
          simp [List.filter_cons, hP, ih]
          ring

theorem sum_map_filter_of_zero {α : Type} (L : List α) (P : α → Bool) (f : α → Rat)
    (h : ∀ x ∈ L, P x = false → f x = 0) :
    (L.map f).sum = ((L.filter P).map f).sum := by
  rw [sum_map_filter_split L P f]
  have hz : ((L.filter (fun x => !P x)).map f).sum = 0 := by
    refine List.sum_eq_zero ?_
    intro y hy
    simp only [List.mem_map, List.mem_filter] at hy
    obtain ⟨x, ⟨hxL, hxP⟩, rfl⟩ := hy
    exact h x hxL (by simpa using hxP)
  rw [hz, add_zero]

theorem map_fst_filter_comm {α : Type} (d : List (String × α)) (g : String → Bool) :
    (d.filter (fun e => g e.1)).map Prod.fst = (d.map Prod.fst).filter g := by
  induction d with
  | nil => rfl
  | cons e t ih =>
      rw [List.filter_cons, List.map_cons, List.filter_cons]
      by_cases hg : g e.1 = true
      · rw [if_pos hg, if_pos hg, List.map_cons, ih]
      · rw [if_neg hg, if_neg hg, ih]

theorem coe_append_b (a b : Bucket) :
    (↑(a ++ b) : Multiset (String × Rat)) = ↑a + ↑b := by simp

theorem flatten_coe_congr (L1 : List Bucket) : ∀ L2 : List Bucket,
    List.Forall₂ (fun (a b : Bucket) => (↑a : Multiset (String × Rat)) = ↑b) L1 L2 →
    ((↑(L1.flatten) : Multiset (String × Rat)) = ↑(L2.flatten)) := by
  induction L1 with
  | nil =>
      intro L2 h
      cases h
      rfl
  | cons a t ih =>
      intro L2 h
      cases h with
      | cons hab hrest =>
          rw [List.flatten_cons, List.flatten_cons, coe_append_b, coe_append_b,
            hab, ih _ hrest]

theorem bSum_flatten (Ls : List Bucket) : bSum Ls.flatten = (Ls.map bSum).sum := by
  induction Ls with
  | nil => rfl
  | cons b t ih => rw [List.flatten_cons, bSum_append, List.map_cons, List.sum_cons, ih]

theorem map_flatten_h {α β : Type} (f : α → β) (Ls : List (List α)) :
    Ls.flatten.map f = (Ls.map (List.map f)).flatten := by
  induction Ls with
  | nil => rfl
  | cons a t ih => rw [List.flatten_cons, List.map_append, List.map_cons, List.flatten_cons, ih]

theorem sum_flatten_rat (Ls : List (List Rat)) : Ls.flatten.sum = (Ls.map List.sum).sum := by
  induction Ls with
  | nil => rfl
  | cons a t ih => rw [List.flatten_cons, List.sum_append, List.map_cons, List.sum_cons, ih]

theorem filter_filter_not {α : Type} (g : α → String) (S : List α) (k k' : String)
    (hne : k' ≠ k) :
    (S.filter (fun x => !(g x == k))).filter (fun x => g x == k') =
      S.filter (fun x => g x == k') := by
  induction S with
  | nil => rfl
  | cons a t ih =>
      by_cases hk : g a = k
      · have h2 : (g a == k') = false := by
          refine Bool.eq_false_iff.mpr ?_
          intro hcon
          have h3 : g a = k' := by simpa using hcon
          exact hne (h3 ▸ hk)
      -- the head is filtered out on both sides
        simp [List.filter_cons, hk, h2, ih, Ne.symm hne]
      · simp [List.filter_cons, hk, ih]

/-- A list of players whose keys all lie in a duplicate-free key list is a
permutation of the concatenation of its per-key filters. -/
theorem partition_perm {α : Type} (g : α → String) : ∀ (keys : List String) (S : List α),
    keys.Nodup → (∀ x ∈ S, g x ∈ keys) →
    ((keys.map (fun k => S.filter (fun x => g x == k))).flatten).Perm S := by
  intro keys
  induction keys with
  | nil =>
      intro S _ hall
      cases S with
      | nil => simp
      | cons a t => exact absurd (hall a (List.mem_cons_self a t)) (List.not_mem_nil _)
  | cons k t ih =>
      intro S hnd hall
      rw [List.map_cons, List.flatten_cons]
      have hnd' : t.Nodup := (List.nodup_cons.mp hnd).2
      have hknt : k ∉ t := (List.nodup_cons.mp hnd).1
      have hrest : (t.map (fun q => S.filter (fun x => g x == q))).flatten =
          (t.map (fun q => (S.filter (fun x => !(g x == k))).filter
            (fun x => g x == q))).flatten := by
        refine congrArg List.flatten (List.map_congr_left ?_)
        intro q hq
        have hne : q ≠ k := fun hcon => hknt (hcon ▸ hq)
        exact (filter_filter_not g S k q hne).symm
      have hallR : ∀ x ∈ S.filter (fun x => !(g x == k)), g x ∈ t := by
        intro x hx
        rcases List.mem_filter.mp hx with ⟨hxS, hxk⟩
        rcases List.mem_cons.mp (hall x hxS) with h1 | h1
        · have h2 : (g x == k) = true := by simpa using h1
          rw [h2] at hxk
          exact absurd hxk (by simp)
        · exact h1
      have hih := ih (S.filter (fun x => !(g x == k))) hnd' hallR
      rw [hrest]
      exact List.Perm.trans (List.Perm.append_left _ hih) (List.filter_append_perm _ S)

theorem partition_sum {α : Type} (g : α → String) (f : α → Rat) (S : List α)
    (keys : List String) (hnd : keys.Nodup) (hall : ∀ x ∈ S, g x ∈ keys) :
    (S.map f).sum = (keys.map (fun k => ((S.filter (fun x => g x == k)).map f).sum)).sum := by
  have hp := partition_perm g keys S hnd hall
  have h1 := (hp.map f).sum_eq
  rw [← h1, map_flatten_h, sum_flatten_rat, List.map_map, List.map_map]
  rfl

theorem partition_length {α : Type} (g : α → String) (S : List α) (keys : List String)
    (hnd : keys.Nodup) (hall : ∀ x ∈ S, g x ∈ keys) :
    S.length = (keys.map (fun k => (S.filter (fun x => g x == k)).length)).sum := by
  have hp := partition_perm g keys S hnd hall
  rw [← hp.length_eq, List.length_flatten, List.map_map]
  rfl

/-- Two duplicate-free lists sum a function over their common elements the
same way, provided the function vanishes on the first list off the second. -/
theorem sum_nodup_inter (l1 l2 : List String) (F : String → Rat)
    (h1 : l1.Nodup) (h2 : l2.Nodup) (hz : ∀ p ∈ l1, p ∉ l2 → F p = 0) :
    (l1.map F).sum = ((l2.filter (fun k => decide (k ∈ l1))).map F).sum := by
  have hstep : (l1.map F).sum = ((l1.filter (fun p => decide (p ∈ l2))).map F).sum := by
    refine sum_map_filter_of_zero l1 _ F ?_
    intro x hx hfx
    exact hz x hx (by simpa using hfx)
  rw [hstep]
  have hperm : (l1.filter (fun p => decide (p ∈ l2))).Perm
      (l2.filter (fun k => decide (k ∈ l1))) := by
    refine (List.perm_ext_iff_of_nodup (h1.filter _) (h2.filter _)).mpr ?_
    intro a
    simp only [List.mem_filter, decide_eq_true_eq]
    exact ⟨fun h => ⟨h.2, h.1⟩, fun h => ⟨h.2, h.1⟩⟩
  exact (hperm.map F).sum_eq

theorem splitSlashChars_no_slash : ∀ (cs : List Char) (piece : List Char),
    piece ∈ splitSlashChars cs → '/' ∉ piece := by
  intro cs
  induction cs with
  | nil =>
      intro piece hp
      rw [splitSlashChars] at hp
      rcases List.mem_cons.mp hp with rfl | hp
      · simp
      · simp at hp
  | cons c t ih =>
      intro piece hp
      rw [splitSlashChars] at hp
      by_cases hc : c = '/'
      · rw [if_pos hc] at hp
        rcases List.mem_cons.mp hp with rfl | hp
        · simp
        · exact ih piece hp
      · rw [if_neg hc] at hp
        cases hrec : splitSlashChars t with
        | nil =>
            rw [hrec] at hp
            simp only [] at hp
            rcases List.mem_cons.mp hp with rfl | hp
            · intro hmem
              rcases List.mem_cons.mp hmem with heq | hmem
              · exact hc heq.symm
              · simp at hmem
            · simp at hp
        | cons hh r =>
            rw [hrec] at hp
            simp only [] at hp
            rcases List.mem_cons.mp hp with rfl | hp
            · intro hmem
              rcases List.mem_cons.mp hmem with heq | hmem
              · exact hc heq.symm
              · exact ih hh (hrec ▸ List.mem_cons_self hh r) hmem
            · exact ih piece (hrec ▸ List.mem_cons_of_mem hh hp)

theorem splitSlash_no_slash (s p : String) (hp : p ∈ splitSlash s) :
    p.data.contains '/' = false := by
  rw [splitSlash] at hp
  obtain ⟨l, hl, rfl⟩ := List.mem_map.mp hp
  have h := splitSlashChars_no_slash s.data l hl
  refine Bool.eq_false_iff.mpr ?_
  intro hcon
  exact h (by simpa using hcon)

/-! ### The flex pipeline as a fold over flex-type jobs -/

theorem dlookup_of_mem_nodup {α : Type} (d : List (String × α)) (sc : String × α)
    (hmem : sc ∈ d) (hnd : (d.map Prod.fst).Nodup) : dlookup sc.1 d = some sc.2 := by
  induction d with
  | nil => simp at hmem
  | cons e t ih =>
      rcases List.mem_cons.mp hmem with rfl | hmem
      · rw [dlookup, if_pos rfl]
      · have hne : e.1 ≠ sc.1 := by
          intro hcon
          have h1 : e.1 ∈ t.map Prod.fst := hcon ▸ List.mem_map_of_mem Prod.fst hmem
          exact (List.nodup_cons.mp (by simpa using hnd)).1 h1
        rw [dlookup, if_neg hne]
        exact ih hmem (List.nodup_cons.mp (by simpa using hnd)).2

theorem buck_map_filter (pp : Pools) (g : String → Bool) (k : String) :
    buck (pp.map (fun pb => (pb.1, pb.2.filter (fun e => g e.1)))) k =
      (buck pp k).filter (fun e => g e.1) := by
  induction pp with
  | nil => rfl
  | cons e t ih =>
      by_cases he : e.1 = k
      · simp [buck, dlookup, he]
      · simpa [buck, dlookup, he] using ih

theorem dmerge_append (b : Bucket) : ∀ acc : Bucket,
    (∀ e ∈ b, e.1 ∉ acc.map Prod.fst) → (b.map Prod.fst).Nodup →
    dmerge acc b = acc ++ b := by
  induction b with
  | nil => intro acc _ _; simp [dmerge]
  | cons e t ih =>
      intro acc hfresh hnd
      simp only [List.map_cons, List.nodup_cons] at hnd
      have h1 : dlookup e.1 acc = none :=
        (dlookup_eq_none_iff e.1 acc).mpr (hfresh e (List.mem_cons_self e t))
      have h2 : dmerge acc (e :: t) = dmerge (acc ++ [e]) t := by
        rw [dmerge, List.foldl_cons, dinsert_fresh _ _ _ h1]
        rfl
      have hfresh2 : ∀ e2 ∈ t, e2.1 ∉ (acc ++ [e]).map Prod.fst := by
        intro e2 he2 hcon
        rw [List.map_append] at hcon
        rcases List.mem_append.mp hcon with hcon | hcon
        · exact hfresh e2 (List.mem_cons_of_mem e he2) hcon
        · have h3 : e2.1 = e.1 := by simpa using hcon
          exact hnd.1 (h3 ▸ List.mem_map_of_mem Prod.fst he2)
      rw [h2, ih (acc ++ [e]) hfresh2 hnd.2, List.append_assoc]
      rfl

theorem pool_fold_flatten (pp : Pools) : ∀ (comps : List String) (acc : Bucket),
    (acc.map Prod.fst ++ (comps.map (fun p => (buck pp p).map Prod.fst)).flatten).Nodup →
    comps.foldl (fun pool fp =>
      match dlookup fp pp with
      | some b => dmerge pool b
      | none => pool) acc = acc ++ (comps.map (buck pp)).flatten := by
  intro comps
  induction comps with
  | nil => intro acc _; simp
  | cons p t ih =>
      intro acc hnd
      rw [List.foldl_cons]
      rw [List.map_cons, List.flatten_cons] at hnd
      cases hd : dlookup p pp with
      | some b =>
          have hb : buck pp p = b := by rw [buck, hd]; rfl
          rw [hb] at hnd
          have hnd2 : ((acc.map Prod.fst ++ b.map Prod.fst) ++
              (t.map (fun p => (buck pp p).map Prod.fst)).flatten).Nodup := by
            rwa [List.append_assoc]
          have hdisj : ∀ e ∈ b, e.1 ∉ acc.map Prod.fst := by
            rcases List.nodup_append.mp hnd with ⟨hA, hBR, hABR⟩
            intro e he hcon
            exact hABR hcon (List.mem_append_left _ (List.mem_map_of_mem Prod.fst he))
          have hBnd : (b.map Prod.fst).Nodup := by
            rcases List.nodup_append.mp hnd with ⟨hA, hBR, hABR⟩
            exact (List.nodup_append.mp hBR).1
          have hndx : ((acc ++ b).map Prod.fst ++
              (t.map (fun p => (buck pp p).map Prod.fst)).flatten).Nodup := by
            rw [List.map_append]
            exact hnd2
          simp only [hd]
          rw [dmerge_append b acc hdisj hBnd, ih (acc ++ b) hndx,
            List.map_cons, List.flatten_cons, hb, List.append_assoc]
      | none =>
          have hb : buck pp p = [] := by rw [buck, hd]; rfl
          rw [hb] at hnd
          simp only [List.map_nil, List.nil_append] at hnd
          simp only [hd]
          rw [ih acc hnd, List.map_cons, List.flatten_cons, hb, List.nil_append]

theorem pbucket_names (lineup : List Player) (p : String) :
    (pbucket lineup p).map Prod.fst =
      (lineup.filter (fun pl => pl.position == p)).map Player.name := by
  rw [pbucket, List.map_map]
  rfl

theorem mem_pbucket_names (lineup : List Player) (p n : String)
    (h : n ∈ (pbucket lineup p).map Prod.fst) :
    ∃ pl ∈ lineup, pl.name = n ∧ pl.position = p := by
  rw [pbucket_names] at h
  obtain ⟨pl, hpl, rfl⟩ := List.mem_map.mp h
  rcases List.mem_filter.mp hpl with ⟨h1, h2⟩
  exact ⟨pl, h1, rfl, by simpa using h2⟩

theorem pbucket_names_nodup (lineup : List Player) (p : String)
    (hnames : (lineup.map Player.name).Nodup) :
    ((pbucket lineup p).map Prod.fst).Nodup := by
  rw [pbucket_names]
  exact hnames.sublist ((List.filter_sublist lineup).map Player.name)

theorem pbucket_disjoint (lineup : List Player) (p q : String)
    (hnames : (lineup.map Player.name).Nodup) (hpq : p ≠ q) (n : String)
    (hp : n ∈ (pbucket lineup p).map Prod.fst)
    (hq : n ∈ (pbucket lineup q).map Prod.fst) : False := by
  obtain ⟨pl1, h1, hn1, hp1⟩ := mem_pbucket_names lineup p n hp
  obtain ⟨pl2, h2, hn2, hp2⟩ := mem_pbucket_names lineup q n hq
  have heq : pl1 = pl2 :=
    List.inj_on_of_nodup_map hnames h1 h2 (by rw [hn1, hn2])
  exact hpq (by rw [← hp1, ← hp2, heq])

theorem origRest_names_sub (lineup : List Player) (cfg : Counts) (p n : String)
    (h : n ∈ (origRest lineup cfg p).map Prod.fst) :
    n ∈ (pbucket lineup p).map Prod.fst := by
  cases hd : dlookup p cfg with
  | some c =>
      have he : origRest lineup cfg p = (sortDesc (pbucket lineup p)).drop c := by
        rw [origRest, hd]
      rw [he] at h
      obtain ⟨e, he2, rfl⟩ := List.mem_map.mp h
      have h3 : e ∈ sortDesc (pbucket lineup p) := List.drop_subset _ _ he2
      have h4 : e ∈ pbucket lineup p := (sortDesc_perm _).mem_iff.mp h3
      exact List.mem_map_of_mem Prod.fst h4
  | none =>
      have he : origRest lineup cfg p = pbucket lineup p := by rw [origRest, hd]
      rwa [he] at h

theorem origRest_names_nodup (lineup : List Player) (cfg : Counts) (p : String)
    (hnames : (lineup.map Player.name).Nodup) :
    ((origRest lineup cfg p).map Prod.fst).Nodup := by
  have h1 : ((sortDesc (pbucket lineup p)).map Prod.fst).Nodup := by
    have hperm := (sortDesc_perm (pbucket lineup p)).map Prod.fst
    exact hperm.nodup_iff.mpr (pbucket_names_nodup lineup p hnames)
  cases hd : dlookup p cfg with
  | some c =>
      have he : origRest lineup cfg p = (sortDesc (pbucket lineup p)).drop c := by
        rw [origRest, hd]
      rw [he]
      exact h1.sublist ((List.drop_sublist _ _).map Prod.fst)
  | none =>
      have he : origRest lineup cfg p = pbucket lineup p := by rw [origRest, hd]
      rw [he]
      exact pbucket_names_nodup lineup p hnames

theorem jobPool_names_nodup (lineup : List Player) (cfg : Counts) (comps : List String)
    (hnames : (lineup.map Player.name).Nodup) (hc : comps.Nodup) :
    ((comps.map (fun p => (origRest lineup cfg p).map Prod.fst)).flatten).Nodup := by
  rw [List.nodup_flatten]
  constructor
  · intro l hl
    obtain ⟨p, hp, rfl⟩ := List.mem_map.mp hl
    exact origRest_names_nodup lineup cfg p hnames
  · rw [List.pairwise_map]
    refine hc.imp ?_
    intro p q hpq n hn1 hn2
    exact pbucket_disjoint lineup p q hnames hpq n
      (origRest_names_sub lineup cfg p n hn1) (origRest_names_sub lineup cfg q n hn2)

theorem jobPool_eq (lineup : List Player) (cfg : Counts) (pp : Pools)
    (comps : List String)
    (hb : ∀ p ∈ comps, buck pp p = origRest lineup cfg p)
    (hnames : (lineup.map Player.name).Nodup) (hc : comps.Nodup) :
    comps.foldl (fun pool fp =>
      match dlookup fp pp with
      | some b => dmerge pool b
      | none => pool) [] = jobPool lineup cfg comps := by
  have hmap : comps.map (fun p => (buck pp p).map Prod.fst) =
      comps.map (fun p => (origRest lineup cfg p).map Prod.fst) :=
    List.map_congr_left (fun p hp => by rw [hb p hp])
  have hnd : (([] : Bucket).map Prod.fst ++
      (comps.map (fun p => (buck pp p).map Prod.fst)).flatten).Nodup := by
    rw [hmap]
    simpa using jobPool_names_nodup lineup cfg comps hnames hc
  rw [pool_fold_flatten pp comps [] hnd, List.nil_append, jobPool]
  exact congrArg List.flatten (List.map_congr_left (fun p hp => hb p hp))

theorem jobTake_names_sub (lineup : List Player) (cfg : Counts)
    (j : String × List String × Nat) (n : String)
    (h : n ∈ (jobTake lineup cfg j).map Prod.fst) :
    ∃ p ∈ j.2.1, n ∈ (origRest lineup cfg p).map Prod.fst := by
  rw [jobTake] at h
  obtain ⟨e, he, rfl⟩ := List.mem_map.mp h
  have h2 : e ∈ sortDesc (jobPool lineup cfg j.2.1) := List.take_subset _ _ he
  have h3 : e ∈ jobPool lineup cfg j.2.1 := (sortDesc_perm _).mem_iff.mp h2
  rw [jobPool] at h3
  obtain ⟨l, hl, hel⟩ := List.mem_flatten.mp h3
  obtain ⟨p, hp, rfl⟩ := List.mem_map.mp hl
  exact ⟨p, hp, List.mem_map_of_mem Prod.fst hel⟩

/-- The flex-type jobs fold: with pairwise disjoint duplicate-free eligible
sets and the pool holding the singular phase's leftovers, each job records
exactly its closed-form take. -/
theorem jobs_fold_fst (lineup : List Player) (cfg : Counts)
    (hnames : (lineup.map Player.name).Nodup) :
    ∀ (js : List (String × List String × Nat)) (bb pp : Pools),
    (∀ j ∈ js, j.2.1.Nodup) →
    jobsPairwiseDisjoint js = true →
    (∀ j ∈ js, ∀ p ∈ j.2.1, buck pp p = origRest lineup cfg p) →
    (js.foldl jobStep (bb, pp)).1 =
      js.foldl (fun b j => dinsert j.1 (jobTake lineup cfg j) b) bb := by
  intro js
  induction js with
  | nil => intro bb pp _ _ _; rfl
  | cons j t ih =>
      intro bb pp hcnd hpd hbk
      rw [List.foldl_cons, List.foldl_cons]
      have hj := hbk j (List.mem_cons_self j t)
      have hpool := jobPool_eq lineup cfg pp j.2.1 hj hnames (hcnd j (List.mem_cons_self j t))
      have hbf : best_flex j.2.1 pp j.2.2 =
          (jobTake lineup cfg j,
           pp.map (fun pb => (pb.1, pb.2.filter
             (fun e => (dlookup e.1 (jobTake lineup cfg j)).isNone)))) := by
        simp only [best_flex, hpool]
        rfl
      have hstep : jobStep (bb, pp) j =
          (dinsert j.1 (jobTake lineup cfg j) bb,
           pp.map (fun pb => (pb.1, pb.2.filter
             (fun e => (dlookup e.1 (jobTake lineup cfg j)).isNone)))) := by
        simp only [jobStep, hbf]
      rw [hstep]
      rw [jobsPairwiseDisjoint] at hpd
      simp only [Bool.and_eq_true] at hpd
      refine ih _ _ (fun j2 h2 => hcnd j2 (List.mem_cons_of_mem j h2)) hpd.2 ?_
      intro j2 h2 q hq
      have hbk2 := hbk j2 (List.mem_cons_of_mem j h2) q hq
      rw [buck_map_filter pp (fun n => (dlookup n (jobTake lineup cfg j)).isNone) q, hbk2]
      refine List.filter_eq_self.mpr ?_
      intro e he
      rw [Option.isNone_iff_eq_none, dlookup_eq_none_iff]
      intro hcon
      obtain ⟨p, hp, hpn⟩ := jobTake_names_sub lineup cfg j e.1 hcon
      have hpq : p ≠ q := by
        have h3 := List.all_eq_true.mp hpd.1 j2 h2
        rw [compsDisjoint] at h3
        have h4 := List.all_eq_true.mp h3 p hp
        intro hcon2
        rw [hcon2] at h4
        simp [hq] at h4
      exact pbucket_disjoint lineup p q hnames hpq e.1
        (origRest_names_sub lineup cfg p e.1 hpn)
        (origRest_names_sub lineup cfg q e.1
          (List.mem_map_of_mem Prod.fst he))

theorem foldl_flexStep_jobs (cfg : Counts) : ∀ st : Pools × Pools,
    List.foldl flexStep st cfg = ((cfg.filter (fun sc => flexCond sc.1)).map
      (fun sc => (sc.1, splitSlash sc.1, sc.2))).foldl jobStep st := by
  induction cfg with
  | nil => intro st; rfl
  | cons sc t ih =>
      intro st
      rw [List.foldl_cons]
      by_cases hc : flexCond sc.1 = true
      · have hf : (sc :: t).filter (fun sc => flexCond sc.1) =
            sc :: t.filter (fun sc => flexCond sc.1) := by
          rw [List.filter_cons, if_pos hc]
        rw [hf, List.map_cons, List.foldl_cons, ih]
        have hstep : flexStep st sc = jobStep st (sc.1, splitSlash sc.1, sc.2) := by
          rw [flexStep, if_pos hc]
          rfl
        rw [hstep]
      · have hf : (sc :: t).filter (fun sc => flexCond sc.1) =
            t.filter (fun sc => flexCond sc.1) := by
          rw [List.filter_cons, if_neg hc]
        rw [hf, ih]
        have hstep : flexStep st sc = st := by rw [flexStep, if_neg hc]
        rw [hstep]

theorem fill_op_jobs (cfg : Counts) (st : Pools × Pools) :
    fill_op cfg st = (match dlookup "OP" cfg with
      | some n => [("OP", ["RB", "WR", "TE", "QB"], n)]
      | none => ([] : List (String × List String × Nat))).foldl jobStep st := by
  cases hd : dlookup "OP" cfg with
  | some n =>
      simp only [fill_op, hd, List.foldl_cons, List.foldl_nil]
      rfl
  | none =>
      simp only [fill_op, hd, List.foldl_nil]

theorem fill_dp_jobs (cfg : Counts) (st : Pools × Pools) :
    fill_dp cfg st = (match dlookup "DP" cfg with
      | some n => [("DP", ["DT", "DE", "LB", "CB", "S"], n)]
      | none => ([] : List (String × List String × Nat))).foldl jobStep st := by
  cases hd : dlookup "DP" cfg with
  | some n =>
      simp only [fill_dp, hd, List.foldl_cons, List.foldl_nil]
      rfl
  | none =>
      simp only [fill_dp, hd, List.foldl_nil]

theorem pipeline_jobs (cfg : Counts) (st : Pools × Pools) :
    fill_dp cfg (fill_op cfg (fill_flex cfg st)) = (flexJobs cfg).foldl jobStep st := by
  rw [flexJobs, List.foldl_append, List.foldl_append, fill_flex, foldl_flexStep_jobs,
    fill_op_jobs, fill_dp_jobs]

theorem mem_flexJobs (cfg : Counts) (j : String × List String × Nat)
    (h : j ∈ flexJobs cfg) :
    (∃ sc ∈ cfg, flexCond sc.1 = true ∧ j = (sc.1, splitSlash sc.1, sc.2)) ∨
    (∃ n, dlookup "OP" cfg = some n ∧ j = ("OP", ["RB", "WR", "TE", "QB"], n)) ∨
    (∃ n, dlookup "DP" cfg = some n ∧ j = ("DP", ["DT", "DE", "LB", "CB", "S"], n)) := by
  rw [flexJobs] at h
  rcases List.mem_append.mp h with h | h
  · rcases List.mem_append.mp h with h | h
    · left
      obtain ⟨sc, hsc, rfl⟩ := List.mem_map.mp h
      rcases List.mem_filter.mp hsc with ⟨h1, h2⟩
      exact ⟨sc, h1, h2, rfl⟩
    · right; left
      cases hd : dlookup "OP" cfg with
      | some n =>
          rw [hd] at h
          simp only [List.mem_singleton] at h
          exact ⟨n, rfl, h⟩
      | none =>
          rw [hd] at h
          simp at h
  · right; right
    cases hd : dlookup "DP" cfg with
    | some n =>
        rw [hd] at h
        simp only [List.mem_singleton] at h
        exact ⟨n, rfl, h⟩
    | none =>
        rw [hd] at h
        simp at h

theorem jobsOK_parts (cfg : Counts) (hjobs : jobsOK cfg = true) :
    (∀ j ∈ flexJobs cfg, j.2.1.Nodup ∧ ∀ p ∈ j.2.1, p ≠ "OP" ∧ p ≠ "DP") ∧
    jobsPairwiseDisjoint (flexJobs cfg) = true := by
  rw [jobsOK] at hjobs
  simp only [Bool.and_eq_true] at hjobs
  refine ⟨?_, hjobs.2⟩
  intro j hj
  have h1 := List.all_eq_true.mp hjobs.1 j hj
  simp only [Bool.and_eq_true] at h1
  refine ⟨of_decide_eq_true h1.1, ?_⟩
  intro p hp
  have h2 := List.all_eq_true.mp h1.2 p hp
  simp only [Bool.and_eq_true, bne_iff_ne] at h2
  exact h2

theorem flexJobs_comps_noslash (cfg : Counts) (j : String × List String × Nat)
    (hj : j ∈ flexJobs cfg) (p : String) (hp : p ∈ j.2.1) :
    p.data.contains '/' = false := by
  rcases mem_flexJobs cfg j hj with ⟨sc, hsc, hfc, rfl⟩ | ⟨n, hd, rfl⟩ | ⟨n, hd, rfl⟩
  · exact splitSlash_no_slash sc.1 p hp
  · have h4 : p = "RB" ∨ p = "WR" ∨ p = "TE" ∨ p = "QB" := by simpa using hp
    rcases h4 with rfl | rfl | rfl | rfl <;> decide
  · have h4 : p = "DT" ∨ p = "DE" ∨ p = "LB" ∨ p = "CB" ∨ p = "S" := by simpa using hp
    rcases h4 with rfl | rfl | rfl | rfl | rfl <;> decide

theorem isSingKey_of_noslash (p : String) (hns : p.data.contains '/' = false)
    (hop : p ≠ "OP") (hdp : p ≠ "DP") : isSingKey p = true := by
  have hfc : flexCond p = false := by
    rw [flexCond, hns]
    simp
  rw [isSingKey, hfc]
  simp only [Bool.not_false, Bool.true_and, Bool.and_eq_true, bne_iff_ne]
  exact ⟨hop, hdp⟩

theorem flexJobs_key_ne_comps (cfg : Counts) (j : String × List String × Nat)
    (hj : j ∈ flexJobs cfg) (hjobs : jobsOK cfg = true) (p : String) (hp : p ∈ j.2.1) :
    p ≠ j.1 := by
  have hns := flexJobs_comps_noslash cfg j hj p hp
  rcases mem_flexJobs cfg j hj with ⟨sc, hsc, hfc, rfl⟩ | ⟨n, hd, rfl⟩ | ⟨n, hd, rfl⟩
  · intro hcon
    rw [flexCond, Bool.and_eq_true] at hfc
    have hsl : sc.1.data.contains '/' = true := hfc.2
    rw [hcon] at hns
    rw [hns] at hsl
    exact Bool.noConfusion hsl
  · exact ((jobsOK_parts cfg hjobs).1 _ hj).2 p hp |>.1
  · exact ((jobsOK_parts cfg hjobs).1 _ hj).2 p hp |>.2

theorem flexJobs_key_nonsing (cfg : Counts) (j : String × List String × Nat)
    (h : j ∈ flexJobs cfg) : isSingKey j.1 = false ∧ (j.1, j.2.2) ∈ cfg := by
  rcases mem_flexJobs cfg j h with ⟨sc, hsc, hfc, rfl⟩ | ⟨n, hd, rfl⟩ | ⟨n, hd, rfl⟩
  · refine ⟨?_, hsc⟩
    simp [isSingKey, hfc]
  · exact ⟨(by decide : isSingKey "OP" = false), dlookup_mem "OP" cfg n hd⟩
  · exact ⟨(by decide : isSingKey "DP" = false), dlookup_mem "DP" cfg n hd⟩

theorem flexJobs_keys_nodup (cfg : Counts) (hkeys : (cfg.map Prod.fst).Nodup) :
    ((flexJobs cfg).map (fun j => j.1)).Nodup := by
  have he : ((cfg.filter (fun sc => flexCond sc.1)).map
      (fun sc => (sc.1, splitSlash sc.1, sc.2))).map (fun j => j.1) =
      (cfg.map Prod.fst).filter flexCond := by
    rw [List.map_map, ← map_fst_filter_comm]
    rfl
  have hFnd : ((cfg.map Prod.fst).filter flexCond).Nodup := hkeys.filter _
  have hFflex : ∀ k ∈ (cfg.map Prod.fst).filter flexCond, flexCond k = true :=
    fun k hk => (List.mem_filter.mp hk).2
  rw [flexJobs, List.map_append, List.map_append, he]
  cases hop : dlookup "OP" cfg with
  | some n =>
      cases hdp : dlookup "DP" cfg with
      | some m =>
          simp only [List.map_cons, List.map_nil]
          rw [List.nodup_append, List.nodup_append]
          refine ⟨⟨hFnd, by simp, ?_⟩, by simp, ?_⟩
          · intro k hk1 hk2
            have hk3 : k = "OP" := by simpa using hk2
            rw [hk3] at hk1
            exact absurd (hFflex _ hk1) (by decide)
          · intro k hk1 hk2
            have hk3 : k = "DP" := by simpa using hk2
            rcases List.mem_append.mp hk1 with hk1 | hk1
            · rw [hk3] at hk1
              exact absurd (hFflex _ hk1) (by decide)
            · have hk4 : k = "OP" := by simpa using hk1
              rw [hk4] at hk3
              exact absurd hk3 (by decide)
      | none =>
          simp only [List.map_cons, List.map_nil, List.append_nil]
          rw [List.nodup_append]
          refine ⟨hFnd, by simp, ?_⟩
          intro k hk1 hk2
          have hk3 : k = "OP" := by simpa using hk2
          rw [hk3] at hk1
          exact absurd (hFflex _ hk1) (by decide)
  | none =>
      cases hdp : dlookup "DP" cfg with
      | some m =>
          simp only [List.map_cons, List.map_nil, List.append_nil]
          rw [List.nodup_append]
          refine ⟨hFnd, by simp, ?_⟩
          intro k hk1 hk2
          have hk3 : k = "DP" := by simpa using hk2
          rw [hk3] at hk1
          exact absurd (hFflex _ hk1) (by decide)
      | none =>
          simpa using hFnd

theorem buck_after_singular (lineup : List Player) (cfg : Counts)
    (hnames : (lineup.map Player.name).Nodup)
    (hkeys : (cfg.map Prod.fst).Nodup) (q : String) :
    buck (fill_singular cfg (scan_lineup lineup).1).2 q = origRest lineup cfg q := by
  rw [fill_singular]
  have h := fill_singular_snd_general cfg [] (scan_lineup lineup).1 q hkeys
  rw [h, origRest]
  cases hd : dlookup q cfg with
  | some c => rw [buck_scan lineup hnames q]
  | none => rw [buck_scan lineup hnames q]

theorem fill_singular_fst_scan (lineup : List Player) (cfg : Counts)
    (hnames : (lineup.map Player.name).Nodup)
    (hkeys : (cfg.map Prod.fst).Nodup) :
    (fill_singular cfg (scan_lineup lineup).1).1 =
      cfg.map (fun sc => (sc.1, (sortDesc (pbucket lineup sc.1)).take sc.2)) := by
  rw [fill_singular, fill_singular_fst_general cfg [] _ (by intro sc _; rfl) hkeys,
    List.nil_append]
  refine List.map_congr_left ?_
  intro sc _
  rw [buck_scan lineup hnames sc.1]

/-- The final `best_lineup`: the singular picks per configured slot, with
each flex-type job's slot overwritten by its closed-form take. -/
theorem best_lineup_jobs (lineup : List Player) (cfg : Counts)
    (hnames : (lineup.map Player.name).Nodup)
    (hkeys : (cfg.map Prod.fst).Nodup)
    (hjobs : jobsOK cfg = true) :
    best_lineup_of lineup cfg = (flexJobs cfg).foldl
      (fun b j => dinsert j.1 (jobTake lineup cfg j) b)
      (cfg.map (fun sc => (sc.1, (sortDesc (pbucket lineup sc.1)).take sc.2))) := by
  rw [best_lineup_of, pipeline_jobs]
  have hst : fill_singular cfg (scan_lineup lineup).1 =
      ((fill_singular cfg (scan_lineup lineup).1).1,
       (fill_singular cfg (scan_lineup lineup).1).2) := rfl
  rw [hst, jobs_fold_fst lineup cfg hnames (flexJobs cfg) _ _
    (fun j hj => ((jobsOK_parts cfg hjobs).1 j hj).1)
    (jobsOK_parts cfg hjobs).2
    (fun j hj p hp => buck_after_singular lineup cfg hnames hkeys p),
    fill_singular_fst_scan lineup cfg hnames hkeys]

theorem pSum_dinsert_nil (d : Pools) (k : String) (v : Bucket)
    (h : dlookup k d = some []) : pSum (dinsert k v d) = pSum d + bSum v := by
  induction d with
  | nil => simp [dlookup] at h
  | cons e t ih =>
      rw [dlookup] at h
      by_cases he : e.1 = k
      · rw [if_pos he] at h
        injection h with h
        rw [dinsert, if_pos he]
        simp only [pSum, List.map_cons, List.sum_cons, h]
        simp [bSum]
        ring
      · rw [if_neg he] at h
        rw [dinsert, if_neg he]
        simp only [pSum, List.map_cons, List.sum_cons]
        have h2 := ih h
        simp only [pSum] at h2
        rw [h2]
        ring

theorem pSum_jobs_fold (lineup : List Player) (cfg : Counts) :
    ∀ (js : List (String × List String × Nat)) (bb : Pools),
    (∀ j ∈ js, dlookup j.1 bb = some []) →
    (js.map (fun j => j.1)).Nodup →
    pSum (js.foldl (fun b j => dinsert j.1 (jobTake lineup cfg j) b) bb) =
      pSum bb + (js.map (fun j => bSum (jobTake lineup cfg j))).sum := by
  intro js
  induction js with
  | nil => intro bb _ _; simp
  | cons j t ih =>
      intro bb hnil hnd
      rw [List.foldl_cons]
      have hj := hnil j (List.mem_cons_self j t)
      have hkeep : ∀ j2 ∈ t,
          dlookup j2.1 (dinsert j.1 (jobTake lineup cfg j) bb) = some [] := by
        intro j2 h2
        have hne : j.1 ≠ j2.1 := by
          simp only [List.map_cons, List.nodup_cons] at hnd
          intro hcon
          exact hnd.1 (hcon ▸ List.mem_map_of_mem (fun x => x.1) h2)
        rw [dlookup_dinsert_ne j2.1 j.1 _ bb hne]
        exact hnil j2 (List.mem_cons_of_mem j h2)
      have hnd2 : (t.map (fun j => j.1)).Nodup := by
        simp only [List.map_cons, List.nodup_cons] at hnd
        exact hnd.2
      rw [ih _ hkeep hnd2, pSum_dinsert_nil bb j.1 _ hj]
      simp only [List.map_cons, List.sum_cons]
      ring

theorem pbucket_nonsing_nil (lineup : List Player) (k : String)
    (hsane : sanePositions lineup = true) (hns : isSingKey k = false) :
    pbucket lineup k = [] := by
  rw [pbucket]
  have hflt : lineup.filter (fun pl => pl.position == k) = [] := by
    rw [List.filter_eq_nil_iff]
    intro pl hpl hcon
    have hpk : pl.position = k := by simpa using hcon
    rw [sanePositions] at hsane
    have hsp := List.all_eq_true.mp hsane pl hpl
    simp only [Bool.and_eq_true, bne_iff_ne] at hsp
    have hOPk : k ≠ "OP" := fun hcon2 => hsp.1.2 (hpk.trans hcon2)
    have hDPk : k ≠ "DP" := fun hcon2 => hsp.2 (hpk.trans hcon2)
    have hA : (!(pl.position.data.contains '/') || pl.position == "D/ST") = true := hsp.1.1
    have hfc : flexCond k = true := by
      cases hval : flexCond k with
      | false =>
          rw [isSingKey, hval] at hns
          simp [hOPk, hDPk] at hns
      | true => rfl
    rw [flexCond, Bool.and_eq_true] at hfc
    have hslash : k.data.contains '/' = true := hfc.2
    rw [Bool.or_eq_true] at hA
    rcases hA with hA | hA
    · rw [hpk] at hA
      have h5 : k.data.contains '/' = false := by simpa using hA
      rw [h5] at hslash
      exact Bool.noConfusion hslash
    · have hD : pl.position = "D/ST" := by simpa using hA
      rw [hpk] at hD
      have h6 := hfc.1
      rw [hD] at h6
      exact absurd h6 (by decide)
  rw [hflt]
  rfl

theorem bb0_lookup_nil (lineup : List Player) (cfg : Counts)
    (hkeys : (cfg.map Prod.fst).Nodup)
    (hsane : sanePositions lineup = true)
    (j : String × List String × Nat) (hj : j ∈ flexJobs cfg) :
    dlookup j.1 (cfg.map (fun sc => (sc.1, (sortDesc (pbucket lineup sc.1)).take sc.2)))
      = some [] := by
  have h1 := flexJobs_key_nonsing cfg j hj
  have h2 : dlookup j.1 cfg = some j.2.2 :=
    dlookup_of_mem_nodup cfg (j.1, j.2.2) h1.2 hkeys
  rw [dlookup_map_entry cfg j.1
    (fun sc => (sortDesc (pbucket lineup sc.1)).take sc.2), h2]
  have h3 : pbucket lineup j.1 = [] := pbucket_nonsing_nil lineup j.1 hsane h1.1
  simp [h3, sortDesc]

/-- The optimal score in closed form: under duplicate-free names and keys,
sane position tags and a well-formed flex structure, `best_score` equals the
singular picks plus the flex-type jobs' picks from the leftovers. -/
theorem best_score_spec (lineup : List Player) (cfg : Counts)
    (hnames : (lineup.map Player.name).Nodup)
    (hkeys : (cfg.map Prod.fst).Nodup)
    (hsane : sanePositions lineup = true)
    (hjobs : jobsOK cfg = true) :
    best_score_of lineup cfg = specScore lineup cfg := by
  have hbl := best_lineup_jobs lineup cfg hnames hkeys hjobs
  have h1 : best_score_of lineup cfg = pSum (best_lineup_of lineup cfg) := rfl
  rw [h1, hbl, pSum_jobs_fold lineup cfg (flexJobs cfg) _
    (fun j hj => bb0_lookup_nil lineup cfg hkeys hsane j hj)
    (flexJobs_keys_nodup cfg hkeys)]
  have h2 : pSum (cfg.map (fun sc => (sc.1, (sortDesc (pbucket lineup sc.1)).take sc.2))) =
      ((cfg.filter (fun sc => isSingKey sc.1)).map
        (fun sc => bSum (singTake lineup sc))).sum := by
    rw [pSum, List.map_map]
    have h3 : (cfg.map ((fun pb : String × Bucket => bSum pb.2) ∘
        (fun sc => (sc.1, (sortDesc (pbucket lineup sc.1)).take sc.2)))).sum =
        (cfg.map (fun sc => bSum ((sortDesc (pbucket lineup sc.1)).take sc.2))).sum := rfl
    rw [h3, sum_map_filter_of_zero cfg (fun sc => isSingKey sc.1) _ ?_]
    · rfl
    · intro sc hsc hns
      rw [pbucket_nonsing_nil lineup sc.1 hsane hns]
      simp [sortDesc, bSum]
  rw [h2, specScore]

/-! ### Legality of the actual lineup, per slot -/

theorem legal_parts (lineup : List Player) (cfg : Counts)
    (hlegal : legalActual lineup cfg = true) :
    (∀ pl ∈ starters lineup, pl.slot_position ∈ cfg.map Prod.fst ∧
      eligibleB pl.position pl.slot_position = true) ∧
    (∀ sc ∈ cfg, ((starters lineup).filter
      (fun pl => pl.slot_position == sc.1)).length = sc.2) := by
  rw [legalActual, Bool.and_eq_true] at hlegal
  constructor
  · intro pl hpl
    have h1 := List.all_eq_true.mp hlegal.1 pl hpl
    rw [Bool.and_eq_true] at h1
    refine ⟨?_, h1.2⟩
    have h2 := h1.1
    simpa using h2
  · intro sc hsc
    have h2 := List.all_eq_true.mp hlegal.2 sc hsc
    simpa using h2

theorem eligibleB_sing (pos k : String) (hsing : isSingKey k = true)
    (h : eligibleB pos k = true) : pos = k := by
  rw [isSingKey] at hsing
  simp only [Bool.and_eq_true, bne_iff_ne] at hsing
  have hOP : k ≠ "OP" := hsing.1.2
  have hDP : k ≠ "DP" := hsing.2
  have hfc : flexCond k = false := by
    have h2 := hsing.1.1
    simpa using h2
  rw [eligibleB, if_neg hOP, if_neg hDP, if_neg (by simp [hfc])] at h
  simpa using h

theorem starters_slot_sing (lineup : List Player) (cfg : Counts) (k : String)
    (hlegal : legalActual lineup cfg = true) (hsing : isSingKey k = true) :
    (starters lineup).filter (fun pl => pl.slot_position == k) =
      (starters lineup).filter (fun pl => pl.slot_position == k && pl.position == k) := by
  refine List.filter_congr ?_
  intro pl hpl
  cases hsl : (pl.slot_position == k) with
  | false => simp [hsl]
  | true =>
      have hslp : pl.slot_position = k := by simpa using hsl
      have he := ((legal_parts lineup cfg hlegal).1 pl hpl).2
      rw [hslp] at he
      have hpos : pl.position = k := eligibleB_sing _ _ hsing he
      simp [hsl, hpos]

theorem blist_comm (lineup : List Player) (key p : String) :
    (starters lineup).filter (fun pl => pl.slot_position == key && pl.position == p) =
      ((starters lineup).filter (fun pl => pl.slot_position == key)).filter
        (fun x => Player.position x == p) := by
  rw [List.filter_filter]
  refine List.filter_congr ?_
  intro x _
  exact Bool.and_comm _ _

theorem spp_sub (lineup : List Player) (p : String) :
    ((starters lineup).filter (fun pl => Player.position pl == p)).Sublist
      (lineup.filter (fun pl => pl.position == p)) := by
  rw [starters, List.filter_filter]
  refine filter_sublist_of_imp lineup _ _ ?_
  intro a _ h
  simp only [Bool.and_eq_true] at h
  exact h.1

theorem coe_map_m {α β : Type} (f : α → β) (l : List α) :
    (↑(l.map f) : Multiset β) = Multiset.map f ↑l := by simp

theorem filter_disj_le {α : Type} (P1 P2 : α → Bool) : ∀ (S : List α),
    (∀ a ∈ S, P1 a = true → P2 a = false) →
    ((↑(S.filter P1) + ↑(S.filter P2) : Multiset α) ≤ ↑S) := by
  intro S
  induction S with
  | nil => intro _; simp
  | cons a t ih =>
      intro hdisj
      have iht := ih (fun b hb => hdisj b (List.mem_cons_of_mem a hb))
      rw [List.filter_cons, List.filter_cons]
      have hc : (↑(a :: t) : Multiset α) = a ::ₘ ↑t := by simp
      by_cases h1 : P1 a = true
      · rw [if_pos h1, if_neg (by rw [hdisj a (List.mem_cons_self a t) h1]; simp)]
        have e1 : (↑(a :: t.filter P1) : Multiset α) + ↑(t.filter P2) =
            a ::ₘ (↑(t.filter P1) + ↑(t.filter P2)) := by
          simp [Multiset.cons_add]
        rw [e1, hc]
        exact Multiset.cons_le_cons a iht
      · rw [if_neg h1]
        by_cases h2 : P2 a = true
        · rw [if_pos h2]
          have e1 : (↑(t.filter P1) : Multiset α) + ↑(a :: t.filter P2) =
              a ::ₘ (↑(t.filter P1) + ↑(t.filter P2)) := by
            simp [Multiset.add_cons]
          rw [e1, hc]
          exact Multiset.cons_le_cons a iht
        · rw [if_neg h2]
          refine le_trans iht ?_
          rw [hc]
          exact Multiset.le_cons_self _ _

theorem starterEntries_coe_le (lineup : List Player) (cfg : Counts) (k : String)
    (hlegal : legalActual lineup cfg = true) (hsing : isSingKey k = true) :
    (↑(starterEntries lineup k) : Multiset (String × Rat)) ≤
      ↑(sortDesc (pbucket lineup k)) := by
  have h1 : starterEntries lineup k = (((starters lineup).filter
      (fun pl => pl.slot_position == k && pl.position == k))).map entryOf := by
    rw [starterEntries, starters_slot_sing lineup cfg k hlegal hsing]
  rw [h1, blist_comm]
  have hsub : ((((starters lineup).filter (fun pl => pl.slot_position == k)).filter
      (fun x => Player.position x == k)).map entryOf).Sublist (pbucket lineup k) := by
    rw [pbucket]
    refine List.Sublist.map entryOf ?_
    have hs1 : (((starters lineup).filter (fun pl => pl.slot_position == k)).filter
        (fun x => Player.position x == k)).Sublist
        ((starters lineup).filter (fun x => Player.position x == k)) := by
      rw [List.filter_filter]
      refine filter_sublist_of_imp (starters lineup) _ _ ?_
      intro a _ h
      simp only [Bool.and_eq_true] at h
      exact h.1
    exact hs1.trans (spp_sub lineup k)
  have h2 : (↑(pbucket lineup k) : Multiset (String × Rat)) =
      ↑(sortDesc (pbucket lineup k)) :=
    (Multiset.coe_eq_coe.mpr (sortDesc_perm _)).symm
  rw [← h2]
  exact Multiset.coe_le.mpr hsub.subperm

theorem starterEntries_card (lineup : List Player) (cfg : Counts) (k : String) (c : Nat)
    (hlegal : legalActual lineup cfg = true) (hc : dlookup k cfg = some c) :
    (starterEntries lineup k).length = c := by
  have h2 := (legal_parts lineup cfg hlegal).2 (k, c) (dlookup_mem k cfg c hc)
  rw [starterEntries, List.length_map]
  exact h2

theorem starterEntries_nil (lineup : List Player) (cfg : Counts) (k : String)
    (hlegal : legalActual lineup cfg = true) (hk : k ∉ cfg.map Prod.fst) :
    starterEntries lineup k = [] := by
  rw [starterEntries]
  have hflt : (starters lineup).filter (fun pl => pl.slot_position == k) = [] := by
    rw [List.filter_eq_nil_iff]
    intro pl hpl hcon
    have h1 := ((legal_parts lineup cfg hlegal).1 pl hpl).1
    have h2 : pl.slot_position = k := by simpa using hcon
    exact hk (h2 ▸ h1)
  rw [hflt]
  rfl

theorem singCap_lookup (cfg : Counts) (k : String) (c : Nat)
    (hc : dlookup k cfg = some c) : singCap cfg k = c := by
  rw [singCap, hc]
  rfl

theorem singCap_none (cfg : Counts) (k : String) (hk : k ∉ cfg.map Prod.fst) :
    singCap cfg k = 0 := by
  rw [singCap, (dlookup_eq_none_iff k cfg).mpr hk]
  rfl

theorem origRest_length (lineup : List Player) (cfg : Counts) (p : String) :
    (origRest lineup cfg p).length = (pbucket lineup p).length - singCap cfg p := by
  cases hd : dlookup p cfg with
  | some c =>
      have he : origRest lineup cfg p = (sortDesc (pbucket lineup p)).drop c := by
        rw [origRest, hd]
      rw [he, List.length_drop, (sortDesc_perm _).length_eq, singCap_lookup cfg p c hd]
  | none =>
      have he : origRest lineup cfg p = pbucket lineup p := by rw [origRest, hd]
      rw [he, singCap_none cfg p ((dlookup_eq_none_iff p cfg).mp hd)]
      omega

theorem jobPool_coe (lineup : List Player) (cfg : Counts) (comps : List String) :
    (↑(sortDesc (jobPool lineup cfg comps)) : Multiset (String × Rat)) =
      ↑((comps.map (fun p => (sortDesc (pbucket lineup p)).drop (singCap cfg p))).flatten) := by
  have h1 : (↑(sortDesc (jobPool lineup cfg comps)) : Multiset (String × Rat)) =
      ↑(jobPool lineup cfg comps) := Multiset.coe_eq_coe.mpr (sortDesc_perm _)
  rw [h1, jobPool]
  refine flatten_coe_congr _ _ ?_
  rw [List.forall₂_map_left_iff, List.forall₂_map_right_iff]
  rw [List.forall₂_same]
  intro p _
  cases hd : dlookup p cfg with
  | some c =>
      have he : origRest lineup cfg p = (sortDesc (pbucket lineup p)).drop c := by
        rw [origRest, hd]
      rw [he, singCap_lookup cfg p c hd]
  | none =>
      have he : origRest lineup cfg p = pbucket lineup p := by rw [origRest, hd]
      rw [he, singCap_none cfg p ((dlookup_eq_none_iff p cfg).mp hd)]
      simp only [List.drop_zero]
      exact Multiset.coe_eq_coe.mpr (sortDesc_perm _).symm

theorem blist_comm2 (lineup : List Player) (key p : String) :
    (starters lineup).filter (fun pl => pl.slot_position == key && pl.position == p) =
      ((starters lineup).filter (fun x => Player.position x == p)).filter
        (fun pl => pl.slot_position == key) := by
  rw [List.filter_filter]

/-- Per-job bound: the actual starters of a flex-type slot together with the
actual starters of its component singular slots are dominated by the
singular picks plus the job's take from the pooled leftovers. -/
theorem job_bound (lineup : List Player) (cfg : Counts) (j : String × List String × Nat)
    (hlegal : legalActual lineup cfg = true)
    (hcnd : j.2.1.Nodup)
    (hsing : ∀ p ∈ j.2.1, isSingKey p = true)
    (hne : ∀ p ∈ j.2.1, p ≠ j.1)
    (helig : ∀ pos : String, eligibleB pos j.1 = true → pos ∈ j.2.1)
    (hkey : (j.1, j.2.2) ∈ cfg) :
    (j.2.1.map (aScore lineup)).sum + aScore lineup j.1 ≤
      (j.2.1.map (oScore lineup cfg)).sum + bSum (jobTake lineup cfg j) := by
  have hsize : ∀ p ∈ j.2.1, (starterEntries lineup p).length = singCap cfg p ∧
      singCap cfg p ≤ (pbucket lineup p).length := by
    intro p hp
    by_cases hk : p ∈ cfg.map Prod.fst
    · cases hd : dlookup p cfg with
      | none => exact absurd hk ((dlookup_eq_none_iff p cfg).mp hd)
      | some c =>
          have hlen := starterEntries_card lineup cfg p c hlegal hd
          have hle := starterEntries_coe_le lineup cfg p hlegal (hsing p hp)
          have h2 := Multiset.card_le_card hle
          simp only [Multiset.coe_card] at h2
          rw [hlen, (sortDesc_perm _).length_eq] at h2
          rw [singCap_lookup cfg p c hd]
          exact ⟨hlen, h2⟩
    · rw [starterEntries_nil lineup cfg p hlegal hk, singCap_none cfg p hk]
      exact ⟨rfl, Nat.zero_le _⟩
  have hAB : ∀ p ∈ j.2.1,
      (↑(starterEntries lineup p) : Multiset (String × Rat)) +
        ↑(((starters lineup).filter (fun pl => pl.slot_position == j.1 &&
          pl.position == p)).map entryOf) ≤ ↑(sortDesc (pbucket lineup p)) := by
    intro p hp
    have hA1 : starterEntries lineup p = (((starters lineup).filter
        (fun x => Player.position x == p)).filter
          (fun pl => pl.slot_position == p)).map entryOf := by
      rw [starterEntries, starters_slot_sing lineup cfg p hlegal (hsing p hp), blist_comm2]
    have hB1 : (starters lineup).filter (fun pl => pl.slot_position == j.1 &&
        pl.position == p) = ((starters lineup).filter
        (fun x => Player.position x == p)).filter
          (fun pl => pl.slot_position == j.1) := blist_comm2 lineup j.1 p
    have hdisj : ∀ a ∈ (starters lineup).filter (fun x => Player.position x == p),
        (a.slot_position == p) = true → (a.slot_position == j.1) = false := by
      intro a _ h1
      refine Bool.eq_false_iff.mpr ?_
      intro h2
      have e1 : a.slot_position = p := by simpa using h1
      have e2 : a.slot_position = j.1 := by simpa using h2
      exact hne p hp (e1 ▸ e2)
    have hd2 := filter_disj_le (fun pl => pl.slot_position == p)
      (fun pl => pl.slot_position == j.1)
      ((starters lineup).filter (fun x => Player.position x == p)) hdisj
    rw [hA1, hB1]
    have hmap : (↑((((starters lineup).filter (fun x => Player.position x == p)).filter
        (fun pl => pl.slot_position == p)).map entryOf) : Multiset (String × Rat)) +
        ↑((((starters lineup).filter (fun x => Player.position x == p)).filter
          (fun pl => pl.slot_position == j.1)).map entryOf) ≤
        Multiset.map entryOf ↑((starters lineup).filter
          (fun x => Player.position x == p)) := by
      rw [coe_map_m, coe_map_m, ← Multiset.map_add]
      exact Multiset.map_le_map hd2
    refine le_trans hmap ?_
    have h4 : Multiset.map entryOf
        (↑((starters lineup).filter (fun x => Player.position x == p))) ≤
        Multiset.map entryOf ↑(lineup.filter (fun pl => pl.position == p)) :=
      Multiset.map_le_map (Multiset.coe_le.mpr (spp_sub lineup p).subperm)
    refine le_trans h4 ?_
    rw [← coe_map_m]
    have h5 : (↑((lineup.filter (fun pl => pl.position == p)).map entryOf) :
        Multiset (String × Rat)) = ↑(sortDesc (pbucket lineup p)) := by
      rw [← pbucket]
      exact (Multiset.coe_eq_coe.mpr (sortDesc_perm _)).symm
    rw [h5]
  have hAcard : ∀ p ∈ j.2.1,
      Multiset.card (↑(starterEntries lineup p) : Multiset (String × Rat)) =
        min (singCap cfg p) (sortDesc (pbucket lineup p)).length := by
    intro p hp
    rw [Multiset.coe_card, (hsize p hp).1, (sortDesc_perm _).length_eq]
    exact (min_eq_left (hsize p hp).2).symm
  have hall : ∀ x ∈ (starters lineup).filter (fun pl => pl.slot_position == j.1),
      Player.position x ∈ j.2.1 := by
    intro x hx
    rcases List.mem_filter.mp hx with ⟨hx1, hx2⟩
    have hsl : x.slot_position = j.1 := by simpa using hx2
    have he := ((legal_parts lineup cfg hlegal).1 x hx1).2
    rw [hsl] at he
    exact helig _ he
  have hScount : ((starters lineup).filter
      (fun pl => pl.slot_position == j.1)).length = j.2.2 :=
    (legal_parts lineup cfg hlegal).2 (j.1, j.2.2) hkey
  have hpart := partition_length Player.position
    ((starters lineup).filter (fun pl => pl.slot_position == j.1)) j.2.1 hcnd hall
  have hfsum : (j.2.1.map (fun p => (((starters lineup).filter
      (fun pl => pl.slot_position == j.1 && pl.position == p)).map entryOf).length)).sum
      = j.2.2 := by
    have h1 : j.2.1.map (fun p => (((starters lineup).filter
        (fun pl => pl.slot_position == j.1 && pl.position == p)).map entryOf).length) =
        j.2.1.map (fun k => (((starters lineup).filter
          (fun pl => pl.slot_position == j.1)).filter
            (fun x => Player.position x == k)).length) := by
      refine List.map_congr_left ?_
      intro p _
      rw [List.length_map, blist_comm]
    rw [h1, ← hpart]
    exact hScount
  have hpoollen : (sortDesc (jobPool lineup cfg j.2.1)).length =
      (j.2.1.map (fun p => (pbucket lineup p).length - singCap cfg p)).sum := by
    rw [(sortDesc_perm _).length_eq, jobPool, List.length_flatten, List.map_map]
    congr 1
    refine List.map_congr_left ?_
    intro p _
    simp only [Function.comp]
    exact origRest_length lineup cfg p
  have hcardB : ∀ p ∈ j.2.1, (((starters lineup).filter
      (fun pl => pl.slot_position == j.1 && pl.position == p)).map entryOf).length ≤
      (pbucket lineup p).length - singCap cfg p := by
    intro p hp
    have h1 := Multiset.card_le_card (hAB p hp)
    simp only [Multiset.card_add, Multiset.coe_card] at h1
    rw [(sortDesc_perm _).length_eq] at h1
    obtain ⟨h2a, h2b⟩ := hsize p hp
    omega
  have hfle : j.2.2 ≤ (sortDesc (jobPool lineup cfg j.2.1)).length := by
    rw [hpoollen, ← hfsum]
    exact List.sum_le_sum (fun p hp => hcardB p hp)
  have hfam := familyA (j.2.1.map (fun p => (singCap cfg p, sortDesc (pbucket lineup p),
      (↑(starterEntries lineup p) : Multiset (String × Rat)),
      (↑(((starters lineup).filter (fun pl => pl.slot_position == j.1 &&
        pl.position == p)).map entryOf) : Multiset (String × Rat)))))
    j.2.2 (sortDesc (jobPool lineup cfg j.2.1))
    (by
      intro x hx
      obtain ⟨p, hp, rfl⟩ := List.mem_map.mp hx
      exact sortedD_sortDesc _)
    (by
      intro x hx
      obtain ⟨p, hp, rfl⟩ := List.mem_map.mp hx
      exact hAcard p hp)
    (by
      intro x hx
      obtain ⟨p, hp, rfl⟩ := List.mem_map.mp hx
      exact hAB p hp)
    (sortedD_sortDesc _)
    (by
      rw [jobPool_coe, List.map_map]
      rfl)
    (by
      rw [min_eq_left hfle, List.map_map, ← hfsum]
      rfl)
  have hbs : ∀ S : List Player, bSum (S.map entryOf) = (S.map Player.points).sum := by
    intro S
    rw [bSum, List.map_map]
    rfl
  have hL : ((j.2.1.map (fun p => (singCap cfg p, sortDesc (pbucket lineup p),
      (↑(starterEntries lineup p) : Multiset (String × Rat)),
      (↑(((starters lineup).filter (fun pl => pl.slot_position == j.1 &&
        pl.position == p)).map entryOf) : Multiset (String × Rat))))).map
      (fun x => eSum x.2.2.1 + eSum x.2.2.2)).sum =
      (j.2.1.map (aScore lineup)).sum + aScore lineup j.1 := by
    rw [List.map_map]
    have h1 : j.2.1.map ((fun x : Nat × Bucket × Multiset (String × Rat) ×
        Multiset (String × Rat) => eSum x.2.2.1 + eSum x.2.2.2) ∘
        (fun p => (singCap cfg p, sortDesc (pbucket lineup p),
          (↑(starterEntries lineup p) : Multiset (String × Rat)),
          (↑(((starters lineup).filter (fun pl => pl.slot_position == j.1 &&
            pl.position == p)).map entryOf) : Multiset (String × Rat))))) =
        j.2.1.map (fun p => aScore lineup p +
          bSum (((starters lineup).filter (fun pl => pl.slot_position == j.1 &&
            pl.position == p)).map entryOf)) := by
      refine List.map_congr_left ?_
      intro p _
      simp only [Function.comp]
      rw [eSum_coe, eSum_coe]
      rfl
    rw [h1, sum_map_add_split]
    congr 1
    rw [aScore, starterEntries, hbs, partition_sum Player.position Player.points
      ((starters lineup).filter (fun pl => pl.slot_position == j.1)) j.2.1 hcnd hall]
    refine congrArg List.sum (List.map_congr_left ?_)
    intro p _
    rw [hbs, blist_comm]
  have hR : ((j.2.1.map (fun p => (singCap cfg p, sortDesc (pbucket lineup p),
      (↑(starterEntries lineup p) : Multiset (String × Rat)),
      (↑(((starters lineup).filter (fun pl => pl.slot_position == j.1 &&
        pl.position == p)).map entryOf) : Multiset (String × Rat))))).map
      (fun x => bSum (x.2.1.take x.1))).sum =
      (j.2.1.map (oScore lineup cfg)).sum := by
    rw [List.map_map]
    rfl
  rw [hL, hR] at hfam
  exact hfam

theorem bSum_entries (S : List Player) :
    bSum (S.map entryOf) = (S.map Player.points).sum := by
  rw [bSum, List.map_map]
  rfl

/-- A singular slot untouched by any flex job: its actual starters are
dominated by the top `count` of its sorted bucket. -/
theorem sing_bound (lineup : List Player) (cfg : Counts) (k : String)
    (hlegal : legalActual lineup cfg = true) (hsing : isSingKey k = true) :
    aScore lineup k ≤ oScore lineup cfg k := by
  by_cases hk : k ∈ cfg.map Prod.fst
  · cases hd : dlookup k cfg with
    | none => exact absurd hk ((dlookup_eq_none_iff k cfg).mp hd)
    | some c =>
        have hle := starterEntries_coe_le lineup cfg k hlegal hsing
        have hlen : (starterEntries lineup k).length = c :=
          starterEntries_card lineup cfg k c hlegal hd
        have h2 := Multiset.card_le_card hle
        simp only [Multiset.coe_card] at h2
        rw [hlen] at h2
        have hcard : Multiset.card (↑(starterEntries lineup k) : Multiset (String × Rat)) =
            min (singCap cfg k) (sortDesc (pbucket lineup k)).length := by
          rw [Multiset.coe_card, hlen, singCap_lookup cfg k c hd]
          exact (min_eq_left h2).symm
        have hb := eSum_le_bSum_take (sortDesc (pbucket lineup k)) (singCap cfg k)
          (↑(starterEntries lineup k)) (sortedD_sortDesc _) hle hcard
        rw [aScore, oScore, ← eSum_coe]
        exact hb
  · rw [aScore, starterEntries_nil lineup cfg k hlegal hk, oScore, singCap_none cfg k hk]
    simp [bSum]

theorem aScore_off_keys (lineup : List Player) (cfg : Counts) (k : String)
    (hlegal : legalActual lineup cfg = true) (hk : k ∉ cfg.map Prod.fst) :
    aScore lineup k = 0 := by
  rw [aScore, starterEntries_nil lineup cfg k hlegal hk]
  rfl

theorem oScore_off_keys (lineup : List Player) (cfg : Counts) (k : String)
    (hk : k ∉ cfg.map Prod.fst) : oScore lineup cfg k = 0 := by
  rw [oScore, singCap_none cfg k hk]
  simp [bSum]

theorem jobsPD_pairwise : ∀ js : List (String × List String × Nat),
    jobsPairwiseDisjoint js = true →
    js.Pairwise (fun a b => List.Disjoint a.2.1 b.2.1) := by
  intro js
  induction js with
  | nil => intro _; exact List.Pairwise.nil
  | cons a t ih =>
      intro h
      rw [jobsPairwiseDisjoint] at h
      simp only [Bool.and_eq_true] at h
      refine List.Pairwise.cons ?_ (ih h.2)
      intro b hb
      have h2 := List.all_eq_true.mp h.1 b hb
      rw [compsDisjoint] at h2
      intro x hx1 hx2
      have h3 := List.all_eq_true.mp h2 x hx1
      have h4 : x ∉ b.2.1 := by simpa using h3
      exact h4 hx2

theorem allComps_nodup (cfg : Counts) (hjobs : jobsOK cfg = true) :
    (allComps cfg).Nodup := by
  rw [allComps, List.nodup_flatten]
  constructor
  · intro l hl
    obtain ⟨jj, hj, rfl⟩ := List.mem_map.mp hl
    exact ((jobsOK_parts cfg hjobs).1 jj hj).1
  · rw [List.pairwise_map]
    exact jobsPD_pairwise (flexJobs cfg) (jobsOK_parts cfg hjobs).2

theorem allComps_sing (cfg : Counts) (hjobs : jobsOK cfg = true) (p : String)
    (hp : p ∈ allComps cfg) : isSingKey p = true := by
  rw [allComps] at hp
  obtain ⟨l, hl, hpl⟩ := List.mem_flatten.mp hp
  obtain ⟨jj, hj, rfl⟩ := List.mem_map.mp hl
  refine isSingKey_of_noslash p (flexJobs_comps_noslash cfg jj hj p hpl) ?_ ?_
  · exact (((jobsOK_parts cfg hjobs).1 jj hj).2 p hpl).1
  · exact (((jobsOK_parts cfg hjobs).1 jj hj).2 p hpl).2

theorem flexJobs_elig (cfg : Counts) (jj : String × List String × Nat)
    (hj : jj ∈ flexJobs cfg) (pos : String)
    (h : eligibleB pos jj.1 = true) : pos ∈ jj.2.1 := by
  rcases mem_flexJobs cfg jj hj with ⟨sc, hsc, hfc, rfl⟩ | ⟨n, hd, rfl⟩ | ⟨n, hd, rfl⟩
  · have hOP : sc.1 ≠ "OP" := by
      intro hcon
      rw [hcon] at hfc
      exact absurd hfc (by decide)
    have hDP : sc.1 ≠ "DP" := by
      intro hcon
      rw [hcon] at hfc
      exact absurd hfc (by decide)
    rw [eligibleB, if_neg hOP, if_neg hDP, if_pos hfc] at h
    simpa using h
  · rw [eligibleB, if_pos rfl] at h
    simpa using h
  · rw [eligibleB, if_neg (by decide : ¬("DP" : String) = "OP"), if_pos rfl] at h
    simpa using h

theorem nonsing_key_job (cfg : Counts) (k : String) (hk : k ∈ cfg.map Prod.fst)
    (hns : isSingKey k = false) : ∃ jj ∈ flexJobs cfg, jj.1 = k := by
  by_cases hOP : k = "OP"
  · subst hOP
    cases hd : dlookup "OP" cfg with
    | none => exact absurd hk ((dlookup_eq_none_iff _ cfg).mp hd)
    | some n =>
        refine ⟨("OP", ["RB", "WR", "TE", "QB"], n), ?_, rfl⟩
        rw [flexJobs]
        refine List.mem_append.mpr (Or.inl (List.mem_append.mpr (Or.inr ?_)))
        rw [hd]
        exact List.mem_singleton.mpr rfl
  by_cases hDP : k = "DP"
  · subst hDP
    cases hd : dlookup "DP" cfg with
    | none => exact absurd hk ((dlookup_eq_none_iff _ cfg).mp hd)
    | some n =>
        refine ⟨("DP", ["DT", "DE", "LB", "CB", "S"], n), ?_, rfl⟩
        rw [flexJobs]
        refine List.mem_append.mpr (Or.inr ?_)
        rw [hd]
        exact List.mem_singleton.mpr rfl
  have hfc : flexCond k = true := by
    cases hval : flexCond k with
    | true => rfl
    | false =>
        rw [isSingKey, hval] at hns
        simp [hOP, hDP] at hns
  obtain ⟨sc, hsc, hsceq⟩ := List.mem_map.mp hk
  refine ⟨(sc.1, splitSlash sc.1, sc.2), ?_, hsceq⟩
  rw [flexJobs]
  refine List.mem_append.mpr (Or.inl (List.mem_append.mpr (Or.inl ?_)))
  refine List.mem_map.mpr ⟨sc, ?_, rfl⟩
  refine List.mem_filter.mpr ⟨hsc, ?_⟩
  rw [hsceq]
  exact hfc

theorem regroup_sum (cfg : Counts) (F : String → Rat)
    (hkeys : (cfg.map Prod.fst).Nodup) (hjobs : jobsOK cfg = true)
    (hzero : ∀ p ∈ allComps cfg, p ∉ cfg.map Prod.fst → F p = 0) :
    (((cfg.map Prod.fst).filter isSingKey).map F).sum =
      ((((cfg.map Prod.fst).filter isSingKey).filter
        (fun k => !(decide (k ∈ allComps cfg)))).map F).sum +
      ((flexJobs cfg).map (fun jj => (jj.2.1.map F).sum)).sum := by
  rw [sum_map_filter_split ((cfg.map Prod.fst).filter isSingKey)
    (fun k => decide (k ∈ allComps cfg)) F, add_comm]
  congr 1
  have h1 := sum_nodup_inter (allComps cfg) ((cfg.map Prod.fst).filter isSingKey) F
    (allComps_nodup cfg hjobs) (hkeys.filter _) ?_
  · rw [← h1, allComps, map_flatten_h, sum_flatten_rat, List.map_map, List.map_map]
    rfl
  · intro p hp hpn
    refine hzero p hp ?_
    intro hk
    exact hpn (List.mem_filter.mpr ⟨hk, allComps_sing cfg hjobs p hp⟩)

theorem actual_keys (lineup : List Player) (cfg : Counts)
    (hkeys : (cfg.map Prod.fst).Nodup)
    (hlegal : legalActual lineup cfg = true) :
    actual_score_of lineup = ((cfg.map Prod.fst).map (aScore lineup)).sum := by
  rw [actual_score_starters, partition_sum Player.slot_position Player.points
    (starters lineup) (cfg.map Prod.fst) hkeys
    (fun pl hpl => ((legal_parts lineup cfg hlegal).1 pl hpl).1)]
  refine congrArg List.sum (List.map_congr_left ?_)
  intro k _
  rw [aScore, starterEntries, bSum_entries]

theorem nonsing_sum_jobs (lineup : List Player) (cfg : Counts)
    (hkeys : (cfg.map Prod.fst).Nodup) :
    (((cfg.map Prod.fst).filter (fun x => !(isSingKey x))).map (aScore lineup)).sum =
      ((flexJobs cfg).map (fun jj => aScore lineup jj.1)).sum := by
  have hperm : ((cfg.map Prod.fst).filter (fun x => !(isSingKey x))).Perm
      ((flexJobs cfg).map (fun jj => jj.1)) := by
    refine (List.perm_ext_iff_of_nodup (hkeys.filter _)
      (flexJobs_keys_nodup cfg hkeys)).mpr ?_
    intro k
    constructor
    · intro hk
      rcases List.mem_filter.mp hk with ⟨hk1, hk2⟩
      have hns : isSingKey k = false := by simpa using hk2
      obtain ⟨jj, hj, heq⟩ := nonsing_key_job cfg k hk1 hns
      exact List.mem_map.mpr ⟨jj, hj, heq⟩
    · intro hk
      obtain ⟨jj, hj, rfl⟩ := List.mem_map.mp hk
      have h2 := flexJobs_key_nonsing cfg jj hj
      refine List.mem_filter.mpr ⟨List.mem_map_of_mem Prod.fst h2.2, ?_⟩
      rw [h2.1]
      rfl
  have h3 := (hperm.map (aScore lineup)).sum_eq
  rw [h3, List.map_map]
  rfl

theorem specScore_keys (lineup : List Player) (cfg : Counts)
    (hkeys : (cfg.map Prod.fst).Nodup) :
    specScore lineup cfg = (((cfg.map Prod.fst).filter isSingKey).map
      (oScore lineup cfg)).sum +
      ((flexJobs cfg).map (fun jj => bSum (jobTake lineup cfg jj))).sum := by
  rw [specScore]
  congr 1
  rw [← map_fst_filter_comm, List.map_map]
  refine congrArg List.sum (List.map_congr_left ?_)
  intro sc hsc
  simp only [Function.comp]
  rw [oScore, singTake, singCap_lookup cfg sc.1 sc.2
    (dlookup_of_mem_nodup cfg sc (List.mem_filter.mp hsc).1 hkeys)]

/-- Under a well-formed configuration, the legal actual lineup's score is
dominated by the closed-form optimal score. -/
theorem actual_le_spec (lineup : List Player) (cfg : Counts)
    (hkeys : (cfg.map Prod.fst).Nodup)
    (hjobs : jobsOK cfg = true)
    (hlegal : legalActual lineup cfg = true) :
    actual_score_of lineup ≤ specScore lineup cfg := by
  have hsingP : ∀ jj ∈ flexJobs cfg, ∀ p ∈ jj.2.1, isSingKey p = true := by
    intro jj hj p hp
    refine allComps_sing cfg hjobs p ?_
    rw [allComps]
    exact List.mem_flatten.mpr ⟨jj.2.1, List.mem_map_of_mem (fun x => x.2.1) hj, hp⟩
  have hjb : ∀ jj ∈ flexJobs cfg,
      (jj.2.1.map (aScore lineup)).sum + aScore lineup jj.1 ≤
      (jj.2.1.map (oScore lineup cfg)).sum + bSum (jobTake lineup cfg jj) := by
    intro jj hj
    exact job_bound lineup cfg jj hlegal ((jobsOK_parts cfg hjobs).1 jj hj).1
      (hsingP jj hj) (fun p hp => flexJobs_key_ne_comps cfg jj hj hjobs p hp)
      (fun pos h => flexJobs_elig cfg jj hj pos h)
      (flexJobs_key_nonsing cfg jj hj).2
  have hregA := regroup_sum cfg (aScore lineup) hkeys hjobs
    (fun p _ hk => aScore_off_keys lineup cfg p hlegal hk)
  have hregO := regroup_sum cfg (oScore lineup cfg) hkeys hjobs
    (fun p _ hk => oScore_off_keys lineup cfg p hk)
  have hact : actual_score_of lineup =
      ((((cfg.map Prod.fst).filter isSingKey).filter
        (fun k => !(decide (k ∈ allComps cfg)))).map (aScore lineup)).sum +
      ((flexJobs cfg).map (fun jj => (jj.2.1.map (aScore lineup)).sum)).sum +
      ((flexJobs cfg).map (fun jj => aScore lineup jj.1)).sum := by
    rw [actual_keys lineup cfg hkeys hlegal,
      sum_map_filter_split (cfg.map Prod.fst) isSingKey (aScore lineup),
      hregA, nonsing_sum_jobs lineup cfg hkeys]
  have hspec : specScore lineup cfg =
      ((((cfg.map Prod.fst).filter isSingKey).filter
        (fun k => !(decide (k ∈ allComps cfg)))).map (oScore lineup cfg)).sum +
      ((flexJobs cfg).map (fun jj => (jj.2.1.map (oScore lineup cfg)).sum)).sum +
      ((flexJobs cfg).map (fun jj => bSum (jobTake lineup cfg jj))).sum := by
    rw [specScore_keys lineup cfg hkeys, hregO]
  rw [hact, hspec]
  have h1 : ((((cfg.map Prod.fst).filter isSingKey).filter
      (fun k => !(decide (k ∈ allComps cfg)))).map (aScore lineup)).sum ≤
      ((((cfg.map Prod.fst).filter isSingKey).filter
        (fun k => !(decide (k ∈ allComps cfg)))).map (oScore lineup cfg)).sum := by
    refine List.sum_le_sum ?_
    intro k hk
    have hk2 := (List.mem_filter.mp hk).1
    exact sing_bound lineup cfg k hlegal (List.mem_filter.mp hk2).2
  have h2 : ((flexJobs cfg).map (fun jj => (jj.2.1.map (aScore lineup)).sum)).sum +
      ((flexJobs cfg).map (fun jj => aScore lineup jj.1)).sum ≤
      ((flexJobs cfg).map (fun jj => (jj.2.1.map (oScore lineup cfg)).sum)).sum +
      ((flexJobs cfg).map (fun jj => bSum (jobTake lineup cfg jj))).sum := by
    rw [← sum_map_add_split, ← sum_map_add_split]
    exact List.sum_le_sum hjb
  linarith

/-- C1 (amended): for every roster with duplicate-free player names and sane
position tags, and every slot configuration with duplicate-free keys whose
flex-type slots (composite flexes, `OP`, `DP`) have duplicate-free and
pairwise-disjoint eligible position sets, if the actual starters form a
legal assignment respecting the slot counts and eligibility then the
optimal score computed by `optimal_lineup_score` is greater than or equal
to the actual score. -/
theorem C1_optimal_ge_actual (lineup : List Player) (cfg : Counts)
    (hnames : (lineup.map Player.name).Nodup)
    (hsane : sanePositions lineup = true)
    (hkeys : (cfg.map Prod.fst).Nodup)
    (hjobs : jobsOK cfg = true)
    (hlegal : legalActual lineup cfg = true) :
    actual_score_of lineup ≤ best_score_of lineup cfg := by
  rw [best_score_spec lineup cfg hnames hkeys hsane hjobs]
  exact actual_le_spec lineup cfg hkeys hjobs hlegal

/-- C1 witness: the Scenario A roster, fully and legally started, under the
configuration `{QB: 1, RB: 1, RB/WR/TE: 1}`. -/
theorem C1_optimal_ge_actual_witness :
    ((([⟨"q", "QB", "QB", 12, 0, 0⟩, ⟨"r1", "RB", "RB", 10, 0, 0⟩,
        ⟨"r2", "RB", "RB/WR/TE", 8, 0, 0⟩] : List Player).map Player.name).Nodup ∧
     sanePositions [⟨"q", "QB", "QB", 12, 0, 0⟩, ⟨"r1", "RB", "RB", 10, 0, 0⟩,
        ⟨"r2", "RB", "RB/WR/TE", 8, 0, 0⟩] = true ∧
     (([("QB", 1), ("RB", 1), ("RB/WR/TE", 1)] : Counts).map Prod.fst).Nodup ∧
     jobsOK [("QB", 1), ("RB", 1), ("RB/WR/TE", 1)] = true ∧
     legalActual [⟨"q", "QB", "QB", 12, 0, 0⟩, ⟨"r1", "RB", "RB", 10, 0, 0⟩,
        ⟨"r2", "RB", "RB/WR/TE", 8, 0, 0⟩]
       [("QB", 1), ("RB", 1), ("RB/WR/TE", 1)] = true) ∧
    actual_score_of [⟨"q", "QB", "QB", 12, 0, 0⟩, ⟨"r1", "RB", "RB", 10, 0, 0⟩,
        ⟨"r2", "RB", "RB/WR/TE", 8, 0, 0⟩] ≤
      best_score_of [⟨"q", "QB", "QB", 12, 0, 0⟩, ⟨"r1", "RB", "RB", 10, 0, 0⟩,
        ⟨"r2", "RB", "RB/WR/TE", 8, 0, 0⟩] [("QB", 1), ("RB", 1), ("RB/WR/TE", 1)] :=
  ⟨⟨by decide, by decide, by decide, by decide, by decide⟩,
   C1_optimal_ge_actual _ _ (by decide) (by decide) (by decide) (by decide) (by decide)⟩

/-! ### Monotonicity of the optimal score in a single player's points -/

theorem specScore_regroup (lineup : List Player) (cfg : Counts)
    (hkeys : (cfg.map Prod.fst).Nodup) (hjobs : jobsOK cfg = true) :
    specScore lineup cfg =
      ((((cfg.map Prod.fst).filter isSingKey).filter
        (fun k => !(decide (k ∈ allComps cfg)))).map (oScore lineup cfg)).sum +
      ((flexJobs cfg).map (fun jj => (jj.2.1.map (oScore lineup cfg)).sum +
        bSum (jobTake lineup cfg jj))).sum := by
  rw [specScore_keys lineup cfg hkeys,
    regroup_sum cfg (oScore lineup cfg) hkeys hjobs
      (fun p _ hk => oScore_off_keys lineup cfg p hk), sum_map_add_split]
  ring

theorem pbucket_swap_ne (l₁ l₂ : List Player) (pl pl2 : Player) (p : String)
    (hpos : pl2.position = pl.position) (hp : p ≠ pl.position) :
    pbucket (l₁ ++ pl :: l₂) p = pbucket (l₁ ++ pl2 :: l₂) p := by
  rw [pbucket, pbucket, List.filter_append, List.filter_append,
    List.filter_cons, List.filter_cons]
  have h1 : (pl.position == p) = false := by
    refine Bool.eq_false_iff.mpr ?_
    intro hcon
    have hcon2 : pl.position = p := by simpa using hcon
    exact hp hcon2.symm
  have h2 : (pl2.position == p) = false := by
    rw [hpos]
    exact h1
  rw [if_neg (Bool.eq_false_iff.mp h1), if_neg (Bool.eq_false_iff.mp h2)]

theorem pbucket_swap_pos (l₁ l₂ : List Player) (pl pl2 : Player)
    (hpos : pl2.position = pl.position) :
    (↑(pbucket (l₁ ++ pl2 :: l₂) pl.position) : Multiset (String × Rat)) =
      entryOf pl2 ::ₘ ((↑(pbucket (l₁ ++ pl :: l₂) pl.position) :
        Multiset (String × Rat)).erase (entryOf pl)) ∧
    entryOf pl ∈ pbucket (l₁ ++ pl :: l₂) pl.position ∧
    (pbucket (l₁ ++ pl :: l₂) pl.position).length =
      (pbucket (l₁ ++ pl2 :: l₂) pl.position).length := by
  have hin : (pl.position == pl.position) = true := by simp
  have hin2 : (pl2.position == pl.position) = true := by
    rw [hpos]
    exact hin
  have e1 : pbucket (l₁ ++ pl :: l₂) pl.position =
      pbucket l₁ pl.position ++ entryOf pl :: pbucket l₂ pl.position := by
    rw [pbucket, pbucket, pbucket, List.filter_append, List.filter_cons, if_pos hin,
      List.map_append, List.map_cons]
  have e2 : pbucket (l₁ ++ pl2 :: l₂) pl.position =
      pbucket l₁ pl.position ++ entryOf pl2 :: pbucket l₂ pl.position := by
    rw [pbucket, pbucket, pbucket, List.filter_append, List.filter_cons, if_pos hin2,
      List.map_append, List.map_cons]
  have hc1 : (↑(pbucket l₁ pl.position ++ entryOf pl :: pbucket l₂ pl.position) :
      Multiset (String × Rat)) = entryOf pl ::ₘ
      (↑(pbucket l₁ pl.position) + ↑(pbucket l₂ pl.position)) := by
    simp [Multiset.add_cons]
  have hc2 : (↑(pbucket l₁ pl.position ++ entryOf pl2 :: pbucket l₂ pl.position) :
      Multiset (String × Rat)) = entryOf pl2 ::ₘ
      (↑(pbucket l₁ pl.position) + ↑(pbucket l₂ pl.position)) := by
    simp [Multiset.add_cons]
  refine ⟨?_, ?_, ?_⟩
  · rw [e1, e2, hc1, hc2, Multiset.erase_cons_head]
  · rw [e1]
    exact List.mem_append_right _ (List.mem_cons_self _ _)
  · rw [e1, e2]
    simp

theorem bucket_rel (l₁ l₂ : List Player) (pl pl2 : Player)
    (hpos : pl2.position = pl.position)
    (hv : pl.points ≤ pl2.points) (p : String) :
    (sortDesc (pbucket (l₁ ++ pl :: l₂) p)).length =
      (sortDesc (pbucket (l₁ ++ pl2 :: l₂) p)).length ∧
    ((↑(sortDesc (pbucket (l₁ ++ pl :: l₂) p)) : Multiset (String × Rat)) =
       ↑(sortDesc (pbucket (l₁ ++ pl2 :: l₂) p)) ∨
     ∃ e e2 : String × Rat, e.2 ≤ e2.2 ∧ e ∈ sortDesc (pbucket (l₁ ++ pl :: l₂) p) ∧
       e2 ::ₘ ((↑(sortDesc (pbucket (l₁ ++ pl :: l₂) p)) :
         Multiset (String × Rat)).erase e) = ↑(sortDesc (pbucket (l₁ ++ pl2 :: l₂) p))) := by
  by_cases hp : p = pl.position
  · subst hp
    have hsw := pbucket_swap_pos l₁ l₂ pl pl2 hpos
    constructor
    · rw [(sortDesc_perm _).length_eq, (sortDesc_perm _).length_eq]
      exact hsw.2.2
    · right
      refine ⟨entryOf pl, entryOf pl2, hv, ?_, ?_⟩
      · exact (sortDesc_perm _).mem_iff.mpr hsw.2.1
      · have hc : (↑(sortDesc (pbucket (l₁ ++ pl :: l₂) pl.position)) :
            Multiset (String × Rat)) = ↑(pbucket (l₁ ++ pl :: l₂) pl.position) :=
          Multiset.coe_eq_coe.mpr (sortDesc_perm _)
        have hc2 : (↑(sortDesc (pbucket (l₁ ++ pl2 :: l₂) pl.position)) :
            Multiset (String × Rat)) = ↑(pbucket (l₁ ++ pl2 :: l₂) pl.position) :=
          Multiset.coe_eq_coe.mpr (sortDesc_perm _)
        rw [hc, hc2, hsw.1]
  · have he := pbucket_swap_ne l₁ l₂ pl pl2 p hpos hp
    rw [he]
    exact ⟨rfl, Or.inl rfl⟩

theorem oScore_mono (l₁ l₂ : List Player) (pl pl2 : Player) (cfg : Counts)
    (hpos : pl2.position = pl.position)
    (hv : pl.points ≤ pl2.points) (k : String) :
    oScore (l₁ ++ pl :: l₂) cfg k ≤ oScore (l₁ ++ pl2 :: l₂) cfg k := by
  have hrel := bucket_rel l₁ l₂ pl pl2 hpos hv k
  have hfam := familyB [(singCap cfg k, sortDesc (pbucket (l₁ ++ pl :: l₂) k))]
    [(singCap cfg k, sortDesc (pbucket (l₁ ++ pl2 :: l₂) k))] 0
    ((sortDesc (pbucket (l₁ ++ pl :: l₂) k)).drop (singCap cfg k))
    ((sortDesc (pbucket (l₁ ++ pl2 :: l₂) k)).drop (singCap cfg k))
    (List.Forall₂.cons ⟨rfl, hrel.1, hrel.2⟩ List.Forall₂.nil)
    (by
      intro y hy
      rcases List.mem_cons.mp hy with rfl | hy
      · exact sortedD_sortDesc _
      · simp at hy)
    (sortedD_drop _ _ (sortedD_sortDesc _))
    (sortedD_drop _ _ (sortedD_sortDesc _))
    (by simp)
    (by simp)
  simpa [oScore] using hfam

theorem jobTerm_mono (l₁ l₂ : List Player) (pl pl2 : Player) (cfg : Counts)
    (hpos : pl2.position = pl.position)
    (hv : pl.points ≤ pl2.points) (jj : String × List String × Nat) :
    (jj.2.1.map (oScore (l₁ ++ pl :: l₂) cfg)).sum +
      bSum (jobTake (l₁ ++ pl :: l₂) cfg jj) ≤
    (jj.2.1.map (oScore (l₁ ++ pl2 :: l₂) cfg)).sum +
      bSum (jobTake (l₁ ++ pl2 :: l₂) cfg jj) := by
  have hfam := familyB
    (jj.2.1.map (fun p => (singCap cfg p, sortDesc (pbucket (l₁ ++ pl :: l₂) p))))
    (jj.2.1.map (fun p => (singCap cfg p, sortDesc (pbucket (l₁ ++ pl2 :: l₂) p))))
    jj.2.2
    (sortDesc (jobPool (l₁ ++ pl :: l₂) cfg jj.2.1))
    (sortDesc (jobPool (l₁ ++ pl2 :: l₂) cfg jj.2.1))
    (by
      rw [List.forall₂_map_left_iff, List.forall₂_map_right_iff, List.forall₂_same]
      intro p _
      have hrel := bucket_rel l₁ l₂ pl pl2 hpos hv p
      exact ⟨rfl, hrel.1, hrel.2⟩)
    (by
      intro y hy
      obtain ⟨p, hp, rfl⟩ := List.mem_map.mp hy
      exact sortedD_sortDesc _)
    (sortedD_sortDesc _)
    (sortedD_sortDesc _)
    (by
      rw [jobPool_coe, List.map_map]
      rfl)
    (by
      rw [jobPool_coe, List.map_map]
      rfl)
  rw [List.map_map, List.map_map] at hfam
  exact hfam

theorem spec_mono (l₁ l₂ : List Player) (pl pl2 : Player) (cfg : Counts)
    (hpos : pl2.position = pl.position)
    (hv : pl.points ≤ pl2.points)
    (hkeys : (cfg.map Prod.fst).Nodup) (hjobs : jobsOK cfg = true) :
    specScore (l₁ ++ pl :: l₂) cfg ≤ specScore (l₁ ++ pl2 :: l₂) cfg := by
  rw [specScore_regroup _ cfg hkeys hjobs, specScore_regroup _ cfg hkeys hjobs]
  refine add_le_add ?_ ?_
  · exact List.sum_le_sum (fun k _ => oScore_mono l₁ l₂ pl pl2 cfg hpos hv k)
  · exact List.sum_le_sum (fun jj _ => jobTerm_mono l₁ l₂ pl pl2 cfg hpos hv jj)

/-- C7 (amended): for every roster with duplicate-free player names and sane
position tags and every slot configuration with duplicate-free keys whose
flex-type slots have duplicate-free, pairwise-disjoint eligible position
sets, replacing any single player's points by a strictly larger value while
holding every other field and player fixed cannot decrease the optimal
score. -/
theorem C7_points_mono (l₁ l₂ : List Player) (pl : Player) (v2 : Rat) (cfg : Counts)
    (hnames : ((l₁ ++ pl :: l₂).map Player.name).Nodup)
    (hsane : sanePositions (l₁ ++ pl :: l₂) = true)
    (hkeys : (cfg.map Prod.fst).Nodup)
    (hjobs : jobsOK cfg = true)
    (hv : pl.points < v2) :
    best_score_of (l₁ ++ pl :: l₂) cfg ≤
      best_score_of (l₁ ++ ⟨pl.name, pl.position, pl.slot_position, v2,
        pl.projected_points, pl.game_played⟩ :: l₂) cfg := by
  have hnames2 : ((l₁ ++ ⟨pl.name, pl.position, pl.slot_position, v2,
      pl.projected_points, pl.game_played⟩ :: l₂).map Player.name).Nodup := by
    have he : (l₁ ++ (⟨pl.name, pl.position, pl.slot_position, v2,
        pl.projected_points, pl.game_played⟩ : Player) :: l₂).map Player.name =
        (l₁ ++ pl :: l₂).map Player.name := by
      rw [List.map_append, List.map_append, List.map_cons, List.map_cons]
    rw [he]
    exact hnames
  have hsane2 : sanePositions (l₁ ++ ⟨pl.name, pl.position, pl.slot_position, v2,
      pl.projected_points, pl.game_played⟩ :: l₂) = true := by
    rw [sanePositions] at hsane ⊢
    rw [List.all_append, List.all_cons] at hsane ⊢
    exact hsane
  rw [best_score_spec _ cfg hnames hkeys hsane hjobs,
    best_score_spec _ cfg hnames2 hkeys hsane2 hjobs]
  exact spec_mono l₁ l₂ pl _ cfg rfl (le_of_lt hv) hkeys hjobs

/-- C7 witness: raising the TE's points from 9 to 11 under the single flex
slot `{WR/TE: 1}` does not decrease the optimal score. -/
theorem C7_points_mono_witness :
    ((9 : Rat) < 11) ∧
    best_score_of ([⟨"a", "WR", "BE", 10, 0, 0⟩] ++ ⟨"x", "TE", "BE", 9, 0, 0⟩ ::
        [⟨"c", "RB", "BE", 0, 0, 0⟩]) [("WR/TE", 1)] ≤
      best_score_of ([⟨"a", "WR", "BE", 10, 0, 0⟩] ++ ⟨"x", "TE", "BE", 11, 0, 0⟩ ::
        [⟨"c", "RB", "BE", 0, 0, 0⟩]) [("WR/TE", 1)] :=
  ⟨by decide, C7_points_mono [⟨"a", "WR", "BE", 10, 0, 0⟩] [⟨"c", "RB", "BE", 0, 0, 0⟩]
    ⟨"x", "TE", "BE", 9, 0, 0⟩ 11 [("WR/TE", 1)]
    (by decide) (by decide) (by decide) (by decide) (by decide)⟩

/-! ### Partial fill of singular and flex-type slots -/

theorem best_flex_fst (flexes : List String) (pp : Pools) (num : Nat) :
    (best_flex flexes pp num).1 = (sortDesc (bfPool flexes pp)).take num := rfl

theorem dlookup_fold_frame (lineup : List Player) (cfg : Counts) :
    ∀ (js : List (String × List String × Nat)) (bb : Pools) (k : String),
    (∀ j2 ∈ js, j2.1 ≠ k) →
    dlookup k (js.foldl (fun b j => dinsert j.1 (jobTake lineup cfg j) b) bb) =
      dlookup k bb := by
  intro js
  induction js with
  | nil => intro bb k _; rfl
  | cons j t ih =>
      intro bb k hk
      rw [List.foldl_cons, ih _ _ (fun j2 h2 => hk j2 (List.mem_cons_of_mem j h2)),
        dlookup_dinsert_ne k j.1 _ bb (hk j (List.mem_cons_self j t))]

theorem dlookup_jobs_fold (lineup : List Player) (cfg : Counts) :
    ∀ (js : List (String × List String × Nat)) (bb : Pools)
      (j : String × List String × Nat),
    j ∈ js → (js.map (fun x => x.1)).Nodup →
    dlookup j.1 (js.foldl (fun b jx => dinsert jx.1 (jobTake lineup cfg jx) b) bb) =
      some (jobTake lineup cfg j) := by
  intro js
  induction js with
  | nil => intro bb j hj _; simp at hj
  | cons j0 t ih =>
      intro bb j hj hnd
      simp only [List.map_cons, List.nodup_cons] at hnd
      rw [List.foldl_cons]
      rcases List.mem_cons.mp hj with rfl | hj
      · have hfr : ∀ j2 ∈ t, j2.1 ≠ j.1 := by
          intro j2 h2 hcon
          exact hnd.1 (hcon ▸ List.mem_map_of_mem (fun x => x.1) h2)
        rw [dlookup_fold_frame lineup cfg t _ j.1 hfr, dlookup_dinsert_self]
      · exact ih _ j hj hnd.2

/-- The final `best_lineup` entry of a flex-type slot is exactly its job's
closed-form take from the pooled leftovers. -/
theorem best_lineup_flex_entry (lineup : List Player) (cfg : Counts)
    (hnames : (lineup.map Player.name).Nodup)
    (hkeys : (cfg.map Prod.fst).Nodup)
    (hjobs : jobsOK cfg = true)
    (j : String × List String × Nat) (hj : j ∈ flexJobs cfg) :
    dlookup j.1 (best_lineup_of lineup cfg) = some (jobTake lineup cfg j) := by
  rw [best_lineup_jobs lineup cfg hnames hkeys hjobs]
  exact dlookup_jobs_fold lineup cfg (flexJobs cfg) _ j hj (flexJobs_keys_nodup cfg hkeys)

/-- C4 (amended): when some slot's required count exceeds the number of
remaining eligible players, the allocator assigns all of them (partial
fill): a singular slot short of players receives its entire sorted position
bucket; `best_flex` truncates its take to the pooled bucket whenever that
pool is short, so a flex-type slot whose pooled leftovers are short
receives the entire sorted remaining pool (under pairwise-disjoint
flex-type eligible sets); the optimal score is by construction the sum
over the assigned buckets only, and no error is raised unless the
resulting optimal score is zero, in which case the percentage division
fails as in C5. -/
theorem C4_partial_fill (lineup : List Player) (cfg : Counts) (s : String) (c : Nat)
    (hnames : (lineup.map Player.name).Nodup)
    (hkeys : (cfg.map Prod.fst).Nodup)
    (hsing : isSingKey s = true)
    (hc : dlookup s cfg = some c)
    (hshort : (pbucket lineup s).length ≤ c) :
    dlookup s (best_lineup_of lineup cfg) = some (sortDesc (pbucket lineup s)) ∧
    (∀ (flexes : List String) (pp : Pools) (num : Nat),
      (bfPool flexes pp).length ≤ num →
      (best_flex flexes pp num).1 = sortDesc (bfPool flexes pp)) ∧
    (jobsOK cfg = true → ∀ j ∈ flexJobs cfg,
      (jobPool lineup cfg j.2.1).length ≤ j.2.2 →
      dlookup j.1 (best_lineup_of lineup cfg) =
        some (sortDesc (jobPool lineup cfg j.2.1))) ∧
    best_score_of lineup cfg =
      ((best_lineup_of lineup cfg).map (fun pb => bSum pb.2)).sum ∧
    ((optimal_lineup_score lineup cfg).isSome ↔ best_score_of lineup cfg ≠ 0) := by
  refine ⟨?_, ?_, ?_, rfl, ?_⟩
  · rw [best_lineup_sing_entry lineup cfg s c hnames hkeys hsing hc]
    have hlen : (sortDesc (pbucket lineup s)).length ≤ c := by
      rw [(sortDesc_perm (pbucket lineup s)).length_eq]
      exact hshort
    rw [List.take_of_length_le hlen]
  · intro flexes pp num hlen
    rw [best_flex_fst]
    have hl2 : (sortDesc (bfPool flexes pp)).length ≤ num := by
      rw [(sortDesc_perm _).length_eq]
      exact hlen
    rw [List.take_of_length_le hl2]
  · intro hjobs j hj hlen
    rw [best_lineup_flex_entry lineup cfg hnames hkeys hjobs j hj, jobTake]
    have hl2 : (sortDesc (jobPool lineup cfg j.2.1)).length ≤ j.2.2 := by
      rw [(sortDesc_perm _).length_eq]
      exact hlen
    rw [List.take_of_length_le hl2]
  · rw [optimal_lineup_score]
    by_cases h : best_score_of lineup cfg = 0
    · simp [h]
    · simp [h]

/-- C4 witness: slot `RB` requires 2 with a single RB on the roster, the
flex `WR/TE` slot requires 1 with an empty remaining pool, and a call to
`best_flex` whose pooled bucket is short — each is filled with exactly the
available players and no error is raised (the optimal score is 5 ≠ 0). -/
theorem C4_partial_fill_witness :
    (pbucket [⟨"z", "RB", "BE", 5, 0, 0⟩] "RB").length ≤ 2 ∧
    (bfPool ["WR", "TE"] [("RB", [("z", 5)])]).length ≤ 1 ∧
    (jobPool [⟨"z", "RB", "BE", 5, 0, 0⟩] [("RB", 2), ("WR/TE", 1)] ["WR", "TE"]).length ≤ 1 ∧
    dlookup "RB" (best_lineup_of [⟨"z", "RB", "BE", 5, 0, 0⟩]
        [("RB", 2), ("WR/TE", 1)]) =
      some (sortDesc (pbucket [⟨"z", "RB", "BE", 5, 0, 0⟩] "RB")) ∧
    (best_flex ["WR", "TE"] [("RB", [("z", 5)])] 1).1 =
      sortDesc (bfPool ["WR", "TE"] [("RB", [("z", 5)])]) ∧
    dlookup "WR/TE" (best_lineup_of [⟨"z", "RB", "BE", 5, 0, 0⟩]
        [("RB", 2), ("WR/TE", 1)]) =
      some (sortDesc (jobPool [⟨"z", "RB", "BE", 5, 0, 0⟩]
        [("RB", 2), ("WR/TE", 1)] ["WR", "TE"])) := by
  have h := C4_partial_fill [⟨"z", "RB", "BE", 5, 0, 0⟩] [("RB", 2), ("WR/TE", 1)] "RB" 2
    (by decide) (by decide) (by decide) (by decide) (by decide)
  exact ⟨by decide, by decide, by decide, h.1,
    h.2.1 ["WR", "TE"] [("RB", [("z", 5)])] 1 (by decide),
    h.2.2.1 (by decide) ("WR/TE", ["WR", "TE"], 1) (by decide) (by decide)⟩
